import Mathlib

/-! # Scheduling and resource-arbitration engine (`pa2.c`)

A shallow embedding of the hooks of `src/sce213-pa2-2020s-master/pa2.c`.

Process descriptors live in an arena (`State.procs`) indexed by a handle that
plays the role of the `struct process *` pointer; the ready queue and every
resource wait queue are lists of handles, in list order from the list head.
`list_add_tail` is an append and `list_del_init` removes the entry.  This is the
behaviour of the intrusive `list_head` operations whenever the node that is
added is detached at that moment, which is what the partition invariant of the
engine provides.

The hooks read and write the globals `current`, `readyqueue` and `resources`;
here they take the state as an argument and return the new one.  A call that
stops at an `assert` or dereferences `NULL` returns `Except.error` together with
the state reached at that point.
-/

namespace Pa2

/-! ## Data model -/

/-- Modelled from the spec: `enum process_status` of `process.h` (not in src/);
the spec lists the statuses READY, RUNNING and WAITING. -/
inductive ProcessStatus where
  | PROCESS_READY
  | PROCESS_RUNNING
  | PROCESS_WAIT
deriving DecidableEq, Repr

/-- Modelled from the spec: `struct process` of `process.h` (not in src/), with
the fields that `pa2.c` reads and writes.  The integer fields are C
`unsigned int`; every value is meant to be below `2 ^ 32`. -/
structure Process where
  pid : Nat
  status : ProcessStatus
  age : Nat
  lifespan : Nat
  prio : Nat
  prio_orig : Nat
deriving DecidableEq, Repr

/-- Modelled from the spec: `struct resource` of `resource.h` (not in src/): an
owner pointer (`none` is `NULL`) and the wait queue. -/
structure Resource where
  owner : Option Nat
  waitqueue : List Nat
deriving DecidableEq, Repr

/-- The globals of `pa2.c`: the process arena, `current`, `readyqueue` and the
table `resources`, indexed by resource id. -/
structure State where
  procs : Nat → Process
  current : Option Nat
  readyqueue : List Nat
  resources : Nat → Resource

/-- Why a hook call stopped without returning. -/
inductive Halt where
  | assert_owner
  | assert_waiter
  | null_deref
deriving DecidableEq, Repr

/-- Width of C `unsigned int` arithmetic. -/
def UINT_MOD : Nat := 4294967296

/-- C `a - b` on `unsigned int`. -/
def usub (a b : Nat) : Nat := (a % UINT_MOD + (UINT_MOD - b % UINT_MOD)) % UINT_MOD

/-! ## State updates -/

/-- Assignment `resources[r].owner = o`. -/
def State.set_owner (s : State) (r : Nat) (o : Option Nat) : State :=
  { s with resources := Function.update s.resources r { s.resources r with owner := o } }

/-- Assignment `p->status = st`. -/
def State.set_status (s : State) (p : Nat) (st : ProcessStatus) : State :=
  { s with procs := Function.update s.procs p { s.procs p with status := st } }

/-- Assignment `p->prio = v`. -/
def State.set_prio (s : State) (p : Nat) (v : Nat) : State :=
  { s with procs := Function.update s.procs p { s.procs p with prio := v } }

/-- Call `list_add_tail(&p->list, &readyqueue)`. -/
def State.ready_add_tail (s : State) (p : Nat) : State :=
  { s with readyqueue := s.readyqueue ++ [p] }

/-- Call `list_del_init(&p->list)` for a `p` found in the ready queue. -/
def State.ready_del (s : State) (p : Nat) : State :=
  { s with readyqueue := s.readyqueue.erase p }

/-- Call `list_add_tail(&p->list, &resources[r].waitqueue)`. -/
def State.wait_add_tail (s : State) (r : Nat) (p : Nat) : State :=
  { s with resources := Function.update s.resources r
              { s.resources r with waitqueue := (s.resources r).waitqueue ++ [p] } }

/-- Call `list_del_init(&p->list)` for a `p` found in the wait queue of resource `r`. -/
def State.wait_del (s : State) (r : Nat) (p : Nat) : State :=
  { s with resources := Function.update s.resources r
              { s.resources r with waitqueue := (s.resources r).waitqueue.erase p } }

/-- The loop `list_for_each_entry(next, head, list) { if (c(best, next)) best = next; }`
started with `best = first`. -/
def list_for_each_pick (c : Nat → Nat → Bool) (first : Nat) (l : List Nat) : Nat :=
  l.foldl (fun best next => if c best next then next else best) first

/-! ## Resource arbitration: plain FCFS -/

/-- Source function `fcfs_acquire` (pa2.c lines 65-90). -/
def fcfs_acquire (s : State) (resource_id : Nat) : Except (Halt × State) (Bool × State) :=
  match (s.resources resource_id).owner with
  | none => .ok (true, s.set_owner resource_id s.current)
  | some _ =>
    match s.current with
    | none => .error (Halt.null_deref, s)
    | some c =>
      let s1 := s.set_status c ProcessStatus.PROCESS_WAIT
      let s2 := s1.wait_add_tail resource_id c
      .ok (false, s2)

/-- Source function `fcfs_release` (pa2.c lines 101-138). -/
def fcfs_release (s : State) (resource_id : Nat) : Except (Halt × State) State :=
  if (s.resources resource_id).owner ≠ s.current then .error (Halt.assert_owner, s)
  else
    let s1 := s.set_owner resource_id none
    match (s1.resources resource_id).waitqueue with
    | [] => .ok s1
    | waiter :: _ =>
      if (s1.procs waiter).status ≠ ProcessStatus.PROCESS_WAIT then
        .error (Halt.assert_waiter, s1)
      else
        let s2 := s1.wait_del resource_id waiter
        let s3 := s2.set_status waiter ProcessStatus.PROCESS_READY
        .ok (s3.ready_add_tail waiter)

/-! ## Scheduling policies -/

/-- Source function `fifo_schedule` (pa2.c lines 156-201). -/
def fifo_schedule (s : State) : Option Nat × State :=
  let pick_next : Option Nat × State :=
    match s.readyqueue with
    | [] => (none, s)
    | next :: _ => (some next, s.ready_del next)
  match s.current with
  | none => pick_next
  | some c =>
    if (s.procs c).status = ProcessStatus.PROCESS_WAIT then pick_next
    else if (s.procs c).age < (s.procs c).lifespan then (some c, s)
    else pick_next

/-- Source function `sjf_schedule` (pa2.c lines 216-256). -/
def sjf_schedule (s : State) : Option Nat × State :=
  let pick_next : Option Nat × State :=
    match s.readyqueue with
    | [] => (none, s)
    | first :: _ =>
      let minProcess := list_for_each_pick
        (fun m next => decide ((s.procs m).lifespan > (s.procs next).lifespan))
        first s.readyqueue
      (some minProcess, s.ready_del minProcess)
  match s.current with
  | none => pick_next
  | some c =>
    if (s.procs c).status = ProcessStatus.PROCESS_WAIT then pick_next
    else if (s.procs c).age < (s.procs c).lifespan then (some c, s)
    else pick_next

/-- The preamble shared by the preemptive policies: a current process that is
not blocked and has `age < lifespan` is put at the tail of the ready queue. -/
def requeue_current (s : State) : State :=
  match s.current with
  | none => s
  | some c =>
    if (s.procs c).status = ProcessStatus.PROCESS_WAIT then s
    else if (s.procs c).age < (s.procs c).lifespan then s.ready_add_tail c
    else s

/-- Remaining time as `srtf_schedule` computes it: `p->lifespan - p->age`. -/
def remaining (s : State) (p : Nat) : Nat := usub (s.procs p).lifespan (s.procs p).age

/-- Source function `srtf_schedule` (pa2.c lines 275-313). -/
def srtf_schedule (s : State) : Option Nat × State :=
  let s1 := requeue_current s
  match s1.readyqueue with
  | [] => (none, s1)
  | first :: _ =>
    let minProcess := list_for_each_pick
      (fun m next => decide (remaining s1 m > remaining s1 next))
      first s1.readyqueue
    (some minProcess, s1.ready_del minProcess)

/-- Source function `rr_schedule` (pa2.c lines 333-357). -/
def rr_schedule (s : State) : Option Nat × State :=
  let s1 := requeue_current s
  match s1.readyqueue with
  | [] => (none, s1)
  | next :: _ => (some next, s1.ready_del next)

/-- Source function `prio_schedule` (pa2.c lines 373-407). -/
def prio_schedule (s : State) : Option Nat × State :=
  let s1 := requeue_current s
  match s1.readyqueue with
  | [] => (none, s1)
  | first :: _ =>
    let prioHighestProcess := list_for_each_pick
      (fun m next => decide ((s1.procs m).prio < (s1.procs next).prio))
      first s1.readyqueue
    (some prioHighestProcess, s1.ready_del prioHighestProcess)

/-! ## Priority scheduling with the priority ceiling protocol -/

/-- Source function `pcp_acquire` (pa2.c lines 425-450).  The macro `MAX_PRIO`
is defined in a header that is not in src/, so its value is an argument. -/
def pcp_acquire ( MAX_PRIO : Nat) (s : State) (resource_id : Nat) :
    Except (Halt × State) (Bool × State) :=
  match (s.resources resource_id).owner with
  | none =>
    let s1 := s.set_owner resource_id s.current
    match s1.current with
    | none => .error (Halt.null_deref, s1)
    | some c => .ok (true, s1.set_prio c MAX_PRIO)
  | some _ =>
    match s.current with
    | none => .error (Halt.null_deref, s)
    | some c =>
      let s1 := s.set_status c ProcessStatus.PROCESS_WAIT
      let s2 := s1.wait_add_tail resource_id c
      .ok (false, s2)

/-- Source function `pcp_release` (pa2.c lines 452-494). -/
def pcp_release (s : State) (resource_id : Nat) : Except (Halt × State) State :=
  if (s.resources resource_id).owner ≠ s.current then .error (Halt.assert_owner, s)
  else
    match (s.resources resource_id).owner with
    | none => .error (Halt.null_deref, s)
    | some o =>
      let s0 := s.set_prio o (s.procs o).prio_orig
      let s1 := s0.set_owner resource_id none
      match (s1.resources resource_id).waitqueue with
      | [] => .ok s1
      | waiter :: _ =>
        if (s1.procs waiter).status ≠ ProcessStatus.PROCESS_WAIT then
          .error (Halt.assert_waiter, s1)
        else
          let s2 := s1.wait_del resource_id waiter
          let s3 := s2.set_status waiter ProcessStatus.PROCESS_READY
          .ok (s3.ready_add_tail waiter)

/-- Source function `pcp_schedule` (pa2.c lines 496-532). -/
def pcp_schedule (s : State) : Option Nat × State :=
  let s1 := requeue_current s
  match s1.readyqueue with
  | [] => (none, s1)
  | first :: _ =>
    let prioHighestProcess := list_for_each_pick
      (fun m next => decide ((s1.procs m).prio < (s1.procs next).prio))
      first s1.readyqueue
    (some prioHighestProcess, s1.ready_del prioHighestProcess)

/-! ## Priority scheduling with the priority inheritance protocol -/

/-- Source function `pip_acquire` (pa2.c lines 549-580). -/
def pip_acquire (s : State) (resource_id : Nat) : Except (Halt × State) (Bool × State) :=
  match (s.resources resource_id).owner with
  | none => .ok (true, s.set_owner resource_id s.current)
  | some o =>
    match s.current with
    | none => .error (Halt.null_deref, s)
    | some c =>
      if (s.procs o).prio < (s.procs c).prio then
        let s0 := s.set_prio o (s.procs c).prio
        let s1 := s0.set_status c ProcessStatus.PROCESS_WAIT
        let s2 := s1.wait_add_tail resource_id c
        .ok (false, s2)
      else
        let s1 := s.set_status c ProcessStatus.PROCESS_WAIT
        let s2 := s1.wait_add_tail resource_id c
        .ok (false, s2)

/-- Source function `pip_release` (pa2.c lines 582-628). -/
def pip_release (s : State) (resource_id : Nat) : Except (Halt × State) State :=
  if (s.resources resource_id).owner ≠ s.current then .error (Halt.assert_owner, s)
  else
    match (s.resources resource_id).owner, s.current with
    | some o, some c =>
      let s0 := s.set_prio o (s.procs c).prio_orig
      let s1 := s0.set_owner resource_id none
      match (s1.resources resource_id).waitqueue with
      | [] => .ok s1
      | first :: _ =>
        let prioHighestProcess := list_for_each_pick
          (fun m next => decide ((s1.procs m).prio < (s1.procs next).prio))
          first (s1.resources resource_id).waitqueue
        if (s1.procs prioHighestProcess).status ≠ ProcessStatus.PROCESS_WAIT then
          .error (Halt.assert_waiter, s1)
        else
          let s2 := s1.wait_del resource_id prioHighestProcess
          let s3 := s2.set_status prioHighestProcess ProcessStatus.PROCESS_READY
          .ok (s3.ready_add_tail prioHighestProcess)
    | _, _ => .error (Halt.null_deref, s)

/-- Source function `pip_schedule` (pa2.c lines 630-666). -/
def pip_schedule (s : State) : Option Nat × State :=
  let s1 := requeue_current s
  match s1.readyqueue with
  | [] => (none, s1)
  | first :: _ =>
    let prioHighestProcess := list_for_each_pick
      (fun m next => decide ((s1.procs m).prio < (s1.procs next).prio))
      first s1.readyqueue
    (some prioHighestProcess, s1.ready_del prioHighestProcess)

/-! ## The driver step and the partition invariant -/

/-- Modelled from the spec: the driver's use of the value returned by
`schedule()` (the tick loop is not in src/): the returned process becomes
`current` and, when there is one, its status becomes RUNNING. -/
def dispatch (res : Option Nat × State) : State :=
  match res.1 with
  | none => { res.2 with current := none }
  | some p => ({ res.2 with current := some p }).set_status p ProcessStatus.PROCESS_RUNNING

/-- State in which a hook call ended, whether it returned or stopped. -/
def final_state {α : Type} (f : α → State) : Except (Halt × State) α → State
  | .ok a => f a
  | .error e => e.2

/-- Process `p` is running: it is `current` and not blocked. -/
def running (s : State) (p : Nat) : Prop :=
  s.current = some p ∧ (s.procs p).status ≠ ProcessStatus.PROCESS_WAIT

/-- Process `p` is in the wait queue of some resource. -/
def in_wait (s : State) (p : Nat) : Prop := ∃ r, p ∈ (s.resources r).waitqueue

/-- Process `p` is live: running, in the ready queue, or in a wait queue. -/
def placed (s : State) (p : Nat) : Prop := running s p ∨ p ∈ s.readyqueue ∨ in_wait s p

/-- Process `p` has not consumed its lifespan. -/
def unfinished (s : State) (p : Nat) : Prop := (s.procs p).age < (s.procs p).lifespan

/-- No process occurs twice in or across the ready queue and the wait queues. -/
structure queues_inv (s : State) : Prop where
  ready_nodup : s.readyqueue.Nodup
  wait_nodup : ∀ r, (s.resources r).waitqueue.Nodup
  ready_wait : ∀ r p, p ∈ (s.resources r).waitqueue → p ∉ s.readyqueue
  wait_wait : ∀ r1 r2 p, p ∈ (s.resources r1).waitqueue → p ∈ (s.resources r2).waitqueue →
    r1 = r2

/-- The partition invariant: every live process is in exactly one of running,
the ready queue, one wait queue, and occurs there once. -/
structure partition_inv (s : State) : Prop where
  queues : queues_inv s
  running_alone : ∀ p, running s p → p ∉ s.readyqueue ∧ ¬ in_wait s p

/-- Every live unfinished process of `s` is still live in `t`, and `t` has no
live process that was not live in `s`. -/
def conserved (s t : State) : Prop :=
  (∀ p, placed s p → unfinished s p → placed t p) ∧ (∀ p, placed t p → placed s p)

/-- The candidates of a preemptive policy: the ready queue, with the current
process at the tail when it is not blocked and has `age < lifespan`. -/
def candidates (s : State) : List Nat :=
  match s.current with
  | none => s.readyqueue
  | some c =>
    if (s.procs c).status ≠ ProcessStatus.PROCESS_WAIT ∧ (s.procs c).age < (s.procs c).lifespan
    then s.readyqueue ++ [c] else s.readyqueue

/-- The current process is not retained: there is none, or it is blocked, or it
has consumed its lifespan. -/
def not_retained (s : State) : Prop :=
  ∀ c, s.current = some c →
    (s.procs c).status = ProcessStatus.PROCESS_WAIT ∨ (s.procs c).lifespan ≤ (s.procs c).age

/-- Between `s` and `t` no process changed place or status. -/
def same_places (s t : State) : Prop :=
  t.readyqueue = s.readyqueue ∧ t.current = s.current ∧
  (∀ r, (t.resources r).waitqueue = (s.resources r).waitqueue) ∧
  (∀ p, (t.procs p).status = (s.procs p).status)

/-- Between `s` and `t` process `c` became WAITING at the tail of the wait queue
of `r`, and no other process changed place or status. -/
def blocked_on (s t : State) (r c : Nat) : Prop :=
  t.readyqueue = s.readyqueue ∧ t.current = s.current ∧
  (t.resources r).waitqueue = (s.resources r).waitqueue ++ [c] ∧
  (∀ r', r' ≠ r → (t.resources r').waitqueue = (s.resources r').waitqueue) ∧
  (t.procs c).status = ProcessStatus.PROCESS_WAIT ∧
  (∀ p, p ≠ c → (t.procs p).status = (s.procs p).status)

/-- Between `s` and `t` waiter `w` of `r` became READY at the tail of the ready
queue, and no other process changed place or status. -/
def woken_from (s t : State) (r w : Nat) : Prop :=
  w ∈ (s.resources r).waitqueue ∧
  t.readyqueue = s.readyqueue ++ [w] ∧ t.current = s.current ∧
  (t.resources r).waitqueue = (s.resources r).waitqueue.erase w ∧
  (∀ r', r' ≠ r → (t.resources r').waitqueue = (s.resources r').waitqueue) ∧
  (t.procs w).status = ProcessStatus.PROCESS_READY ∧
  (∀ p, p ≠ w → (t.procs p).status = (s.procs p).status)

/-- The selection step on `s1`: nothing to select from an empty ready queue,
otherwise an entry of the ready queue is returned and unlinked. -/
def pick_step (s1 : State) (res : Option Nat × State) : Prop :=
  (s1.readyqueue = [] ∧ res = (none, s1)) ∨
  (∃ x, x ∈ s1.readyqueue ∧ res = (some x, s1.ready_del x))

/-- The two ways a `schedule()` call ends: the running process is kept, or the
selection step runs on the state left by the preamble. -/
def schedule_shape (s : State) (res : Option Nat × State) : Prop :=
  (∃ c, running s c ∧ unfinished s c ∧ res = (some c, s)) ∨
  pick_step { s with readyqueue := candidates s } res

/-- How an `acquire` call by the current process `c` ends: it returns, having
moved nothing or having blocked `c` on the resource. -/
def acquire_shape (s : State) (r c : Nat) (res : Except (Halt × State) (Bool × State)) :
    Prop :=
  ∃ b t, res = Except.ok (b, t) ∧ (same_places s t ∨ blocked_on s t r c)

/-- How a `release` call by the owner ends: it returns, having moved nothing or
having woken one waiter, or it stops at the assertion on a waiter that is not
WAITING, having moved nothing. -/
def release_shape (s : State) (r : Nat) (res : Except (Halt × State) State) : Prop :=
  (∃ t, res = Except.ok t ∧ (same_places s t ∨ ∃ w, woken_from s t r w)) ∨
  (∃ t, res = Except.error (Halt.assert_waiter, t) ∧ same_places s t ∧
    ∃ w, w ∈ (s.resources r).waitqueue ∧ (s.procs w).status ≠ ProcessStatus.PROCESS_WAIT)

/-- A hook call stopped at one of its assertions. -/
def aborted {α : Type} : Except (Halt × State) α → Prop
  | .ok _ => False
  | .error e => e.1 = Halt.assert_owner ∨ e.1 = Halt.assert_waiter

/-! ## The Round-Robin driver loop -/

/-- Modelled from the spec: one tick of the driver loop
`current := rr_schedule(); current.age += 1` (the tick loop is not in src/).
The result is the selected process and the next state; on an idle tick nothing
ages. -/
def rr_tick (s : State) : Option Nat × State :=
  let res := rr_schedule s
  match res.1 with
  | none => (none, { res.2 with current := none })
  | some p =>
    (some p, { res.2 with
      current := some p,
      procs := Function.update res.2.procs p
        { res.2.procs p with age := (res.2.procs p).age + 1 } })

/-- The processes selected by `k` consecutive ticks of the driver loop. -/
def rr_run : Nat → State → List (Option Nat)
  | 0, _ => []
  | k + 1, s => (rr_tick s).1 :: rr_run k (rr_tick s).2

/-! ## The policy registry -/

/-- Source function `fifo_initialize` (pa2.c lines 147-150): returns 0. -/
def fifo_initialize (s : State) : Int × State := (0, s)

/-- Source function `fifo_finalize` (pa2.c lines 152-154): does nothing. -/
def fifo_finalize (s : State) : State := s

/-- Modelled from the spec: `struct scheduler` of `sched.h` (not in src/), with
the name and the five hooks that `pa2.c` initialises (`initialize` is a
reserved word, so the fields `.initialize` and `.finalize` are `initialize_hook`
and `finalize_hook`); a hook that the initialiser leaves out is a `NULL`
pointer, here `none`. -/
structure scheduler where
  name : String
  acquire : Option (State → Nat → Except (Halt × State) (Bool × State))
  release : Option (State → Nat → Except (Halt × State) State)
  initialize_hook : Option (State → Int × State)
  finalize_hook : Option (State → State)
  schedule : Option (State → Option Nat × State)

/-- Registry entry `fifo_scheduler` (pa2.c lines 203-210). -/
def fifo_scheduler : scheduler :=
  { name := "FIFO", acquire := some fcfs_acquire, release := some fcfs_release,
    initialize_hook := some fifo_initialize, finalize_hook := some fifo_finalize,
    schedule := some fifo_schedule }

/-- Registry entry `sjf_scheduler` (pa2.c lines 258-269). -/
def sjf_scheduler : scheduler :=
  { name := "Shortest-Job First", initialize_hook := some fifo_initialize,
    finalize_hook := some fifo_finalize, acquire := some fcfs_acquire,
    release := some fcfs_release, schedule := some sjf_schedule }

/-- Registry entry `srtf_scheduler` (pa2.c lines 315-327). -/
def srtf_scheduler : scheduler :=
  { name := "Shortest Remaining Time First", initialize_hook := some fifo_initialize,
    finalize_hook := some fifo_finalize, acquire := some fcfs_acquire,
    release := some fcfs_release, schedule := some srtf_schedule }

/-- Registry entry `rr_scheduler` (pa2.c lines 359-367). -/
def rr_scheduler : scheduler :=
  { name := "Round-Robin", initialize_hook := some fifo_initialize,
    finalize_hook := some fifo_finalize, acquire := some fcfs_acquire,
    release := some fcfs_release, schedule := some rr_schedule }

/-- Registry entry `prio_scheduler` (pa2.c lines 409-419): the initialiser names
`acquire`, `release` and `schedule` only. -/
def prio_scheduler : scheduler :=
  { name := "Priority", acquire := some fcfs_acquire, release := some fcfs_release,
    schedule := some prio_schedule, initialize_hook := none, finalize_hook := none }

/-- Registry entry `pcp_scheduler` (pa2.c lines 534-543): the initialiser names
`acquire`, `release` and `schedule` only. -/
def pcp_scheduler ( MAX_PRIO : Nat) : scheduler :=
  { name := "Priority + Priority Ceiling Protocol", acquire := some (pcp_acquire MAX_PRIO),
    release := some pcp_release, schedule := some pcp_schedule,
    initialize_hook := none, finalize_hook := none }

/-- Registry entry `pip_scheduler` (pa2.c lines 668-676): the initialiser names
`acquire`, `release` and `schedule` only. -/
def pip_scheduler : scheduler :=
  { name := "Priority + Priority Inheritance Protocol", acquire := some pip_acquire,
    release := some pip_release, schedule := some pip_schedule,
    initialize_hook := none, finalize_hook := none }

/-- All five hooks of a registry entry are set. -/
def scheduler.complete (sch : scheduler) : Prop :=
  sch.initialize_hook.isSome = true ∧ sch.finalize_hook.isSome = true ∧ sch.schedule.isSome = true ∧
  sch.acquire.isSome = true ∧ sch.release.isSome = true

/-! ## Predicates on states for the later properties -/

/-- The list `l` of processes is in descending order of priority in state `s`. -/
def sorted_desc (s : State) (l : List Nat) : Prop :=
  l.Pairwise (fun a b => (s.procs b).prio ≤ (s.procs a).prio)

/-- Process `p` is out of the engine: it is not current and in no queue. -/
def absent (s : State) (p : Nat) : Prop :=
  s.current ≠ some p ∧ p ∉ s.readyqueue ∧ ¬ in_wait s p

/-- One hook step of the engine from `s` to `t`: a `schedule()` of one of the
seven policies followed by the dispatch of its result, an acquire of one of the
three variants, or a release of one of the three variants, each taken up to the
point where the call returned or stopped. -/
def hook_step (M : Nat) (s t : State) : Prop :=
  (∃ sched ∈ [fifo_schedule, sjf_schedule, srtf_schedule, rr_schedule, prio_schedule,
      pcp_schedule, pip_schedule], t = dispatch (sched s)) ∨
  (∃ acq ∈ [fcfs_acquire, pcp_acquire M, pip_acquire], ∃ r,
    t = final_state Prod.snd (acq s r)) ∨
  (∃ rel ∈ [fcfs_release, pcp_release, pip_release], ∃ r, t = final_state id (rel s r))

/-- The wait-queue invariant of the resource table: a process is in the wait
queue of at most one resource, and never in the wait queue of a resource it
owns. -/
structure wait_inv (s : State) : Prop where
  one_queue : ∀ r1 r2 p, p ∈ (s.resources r1).waitqueue → p ∈ (s.resources r2).waitqueue →
    r1 = r2
  not_own : ∀ r p, (s.resources r).owner = some p → p ∉ (s.resources r).waitqueue

/-- Between `s` and `t` no process changed its pid, age, lifespan or
`prio_orig`. -/
def same_identity (s t : State) : Prop :=
  ∀ p, (t.procs p).pid = (s.procs p).pid ∧ (t.procs p).age = (s.procs p).age ∧
    (t.procs p).lifespan = (s.procs p).lifespan ∧
    (t.procs p).prio_orig = (s.procs p).prio_orig

/-- Modelled from the spec: process `w` is made current by the driver and calls
`pip_acquire(r)`; the result is the state in which that call ended. -/
def pip_request (s : State) (r w : Nat) : State :=
  final_state Prod.snd (pip_acquire { s with current := some w } r)

/-- Modelled from the spec: the processes `ws` call `pip_acquire(r)` in turn. -/
def pip_contend (s : State) (r : Nat) : List Nat → State
  | [] => s
  | w :: ws => pip_contend (pip_request s r w) r ws

/-- Every process in the wait queue of any resource has status WAITING. -/
def waiters_wait (s : State) : Prop :=
  ∀ r p, p ∈ (s.resources r).waitqueue → (s.procs p).status = ProcessStatus.PROCESS_WAIT

/-! ## Sample states -/

/-- Five processes: 0 is running with 3 ticks left, 1 and 2 are ready, 3 and 4
are blocked. -/
def demo_procs : Nat → Process
  | 0 => ⟨0, ProcessStatus.PROCESS_RUNNING, 2, 5, 1, 1⟩
  | 1 => ⟨1, ProcessStatus.PROCESS_READY, 0, 4, 3, 3⟩
  | 2 => ⟨2, ProcessStatus.PROCESS_READY, 1, 2, 2, 2⟩
  | 3 => ⟨3, ProcessStatus.PROCESS_WAIT, 0, 3, 5, 5⟩
  | 4 => ⟨4, ProcessStatus.PROCESS_WAIT, 1, 2, 4, 4⟩
  | n => ⟨n, ProcessStatus.PROCESS_READY, 0, 0, 0, 0⟩

/-- Resource 0 is owned by process 0 with waiters 3 and 4 (3 arrived first),
resource 1 is owned by process 1, every other resource is free. -/
def demo_resources : Nat → Resource
  | 0 => ⟨some 0, [3, 4]⟩
  | 1 => ⟨some 1, []⟩
  | _ => ⟨none, []⟩

/-- Process 0 is current, the ready queue is 1, 2. -/
def demo : State := ⟨demo_procs, some 0, [1, 2], demo_resources⟩

/-- The state `demo` between two ticks with an idle processor. -/
def demo_idle : State := { demo with current := none }

/-- The state `demo` with an empty ready queue. -/
def demo_alone : State := { demo with readyqueue := [] }

/-- The state `demo_idle` with an empty ready queue. -/
def demo_empty : State := { demo with current := none, readyqueue := [] }

/-- Process 0 is current, the ready queue is 1, 2, every resource is free. -/
def demo_free : State := ⟨demo_procs, some 0, [1, 2], fun _ => ⟨none, []⟩⟩

/-- The state after process 0 took resource 2 with `pcp_acquire`, ceiling 64. -/
def demo_pcp_one : State := final_state Prod.snd (pcp_acquire 64 demo_free 2)

/-- The state after process 0 then took resource 3 as well. -/
def demo_pcp_two : State := final_state Prod.snd (pcp_acquire 64 demo_pcp_one 3)

/-- The state after process 0 then released resource 2, still holding 3. -/
def demo_pcp_back : State := final_state id (pcp_release demo_pcp_two 2)

/-- Three fresh processes 1, 2, 3 of lifespan 3 in the ready queue, no current
process, every resource free. -/
def demo_rr : State :=
  ⟨fun n => ⟨n, ProcessStatus.PROCESS_READY, 0, 3, 0, 0⟩, none, [1, 2, 3], fun _ => ⟨none, []⟩⟩

/-- The state after process 0 took resource 2 with `pip_acquire`. -/
def demo_pip_one : State := final_state Prod.snd (pip_acquire demo_free 2)

/-- The state after process 0 then took resource 3 as well. -/
def demo_pip_two : State := final_state Prod.snd (pip_acquire demo_pip_one 3)

/-- The state after the next `pip_schedule()`: process 1 (priority 3) runs,
process 0 is back in the ready queue. -/
def demo_pip_req : State := dispatch (pip_schedule demo_pip_two)

/-- The state after process 1 asked for resource 3 and was blocked. -/
def demo_pip_wait : State := final_state Prod.snd (pip_acquire demo_pip_req 3)

/-- The state after the next `pip_schedule()`: process 0 runs again. -/
def demo_pip_hold : State := dispatch (pip_schedule demo_pip_wait)

/-- The state after process 0 then released resource 2, still holding 3. -/
def demo_pip_back : State := final_state id (pip_release demo_pip_hold 2)

/-- Process 0 owns resource 2 and process 2 (priority 2) is its only waiter;
process 1 (priority 3) is current. -/
def demo_pip_queue : State :=
  { pip_request demo_pip_one 2 2 with current := some 1, readyqueue := [0] }

/-- Three processes of equal priority: process 1 is running with lifespan left,
processes 2 and 3 are in the ready queue, every resource is free. -/
def demo_rr_run : State :=
  { (demo_rr.set_status 1 ProcessStatus.PROCESS_RUNNING) with
    current := some 1, readyqueue := [2, 3] }

/-- The state `demo_free` with process 5 current, which has consumed its
lifespan (age 0 of 0), is RUNNING-free of queues and owns nothing. -/
def demo_done : State := { demo_free with current := some 5 }

end Pa2

/-! # Page allocation of the virtual-memory simulator (`pa4.c`)

A shallow embedding of `alloc_page` of `src/sce213-pa4-2020s-master/pa4.c`.
The global array `mapcounts[]` is a list with one entry per page frame; its
length is the number of page frames, a constant of `vm.h` that is not in src/.
A read of `mapcounts[i]` with `i` past the last page frame is outside the array
and is reported as a fault.
-/

namespace Pa4

/-- Type `struct pte` of `vm.h` (not in src/), with the four fields that `pa4.c`
reads and writes; the C field `private` is `priv`, since `private` is a reserved
word. -/
structure pte where
  valid : Bool
  writable : Bool
  pfn : Nat
  priv : Bool
deriving DecidableEq, Repr

/-- Type `struct pte_directory` of `vm.h` (not in src/): the array `ptes[]`,
indexed by `vpn % 16`. -/
structure pte_directory where
  ptes : Nat → pte

/-- The globals that `alloc_page` reads and writes: the array `mapcounts[]` and
the outer page table `current->pagetable.outer_ptes[]` of the current process
(`none` is `NULL`). -/
structure VmState where
  mapcounts : List Nat
  outer_ptes : Nat → Option pte_directory

/-- A memory access that C leaves undefined: the read of `mapcounts[i]` at an
index `i` past the last page frame. -/
inductive Fault where
  | out_of_bounds (i : Nat)
deriving DecidableEq, Repr

/-- How the frame scan of `alloc_page` ends. -/
inductive Scan where
  | found (i : Nat)
  | full
  | beyond (i : Nat)
deriving DecidableEq, Repr

/-- The loop `while (true)` of `alloc_page` (pa4.c lines 111-135) from index `i`
on; the list is the part of `mapcounts[]` from index `i` to its end.  The loop
returns -1 at an entry equal to 16 (`Scan.full`), takes the frame at an entry
equal to 0 (`Scan.found`), and goes on with `i + 1` otherwise; there is no test
of `i` against the number of page frames, so past the last entry it reads
outside the array (`Scan.beyond`). -/
def alloc_scan (i : Nat) : List Nat → Scan
  | [] => Scan.beyond i
  | m :: rest =>
    if m = 16 then Scan.full
    else if m = 0 then Scan.found i
    else alloc_scan (i + 1) rest

/-- The value -1 as `unsigned int`. -/
def minus_one : Nat := 2 ^ 32 - 1

/-- Source function `alloc_page` (pa4.c lines 93-137).  The constant `RW_READ`
of `vm.h` (not in src/) is a parameter, and so is `fresh`, the content of the
directory that `malloc` returns, which C leaves undetermined.  An out-of-bounds
read returns `Except.error` with the state reached at that point. -/
def alloc_page ( RW_READ : Nat) (fresh : pte_directory) (s : VmState) (vpn rw : Nat) :
    Except (Fault × VmState) (Nat × VmState) :=
  let out := vpn / 16
  let inn := vpn % 16
  let pd := match s.outer_ptes out with
    | none => fresh
    | some d => d
  let s1 : VmState := { s with outer_ptes := Function.update s.outer_ptes out (some pd) }
  match alloc_scan 0 s1.mapcounts with
  | Scan.beyond i => .error (Fault.out_of_bounds i, s1)
  | Scan.full => .ok (minus_one, s1)
  | Scan.found i =>
    let writable := decide (rw ≠ RW_READ)
    let e : pte := { pfn := i, valid := true, writable := writable, priv := writable }
    let pd1 : pte_directory := { ptes := Function.update pd.ptes inn e }
    .ok (i, { mapcounts := s1.mapcounts.set i (s1.mapcounts.getD i 0 + 1),
              outer_ptes := Function.update s1.outer_ptes out (some pd1) })

/-- The page table entry of `vpn` in the page table of the current process, if
its directory exists. -/
def VmState.pte_of (s : VmState) (vpn : Nat) : Option pte :=
  (s.outer_ptes (vpn / 16)).map (fun d => d.ptes (vpn % 16))

/-- Some page frame is free: its mapcount is 0. -/
def has_free (mapcounts : List Nat) : Prop := 0 ∈ mapcounts

/-- A directory of invalid entries. -/
def empty_directory : pte_directory := ⟨fun _ => ⟨false, false, 0, false⟩⟩

/-- Four page frames: frame 0 is mapped 16 times, frames 1 to 3 are free; the
current process has no page directory yet. -/
def demo_shared : VmState := ⟨[16, 0, 0, 0], fun _ => none⟩

/-- Four page frames, each mapped once; the current process has no page
directory yet. -/
def demo_full : VmState := ⟨[1, 1, 1, 1], fun _ => none⟩

/-- Four page frames: frames 0 and 1 are mapped, frames 2 and 3 are free. -/
def demo_some : VmState := ⟨[2, 1, 0, 0], fun _ => none⟩

end Pa4

namespace Pa2

/-! ## The selection loop -/

/-- Outcome of the scan from a given `best`: either `best` survives and nothing
in the list beats it, or the survivor is the first entry of the list with the
least key, which is below the key of `best`. -/
theorem pick_from {α : Type} [LinearOrder α] (c : Nat → Nat → Bool) (k : Nat → α)
    (hc : ∀ a b, c a b = true ↔ k b < k a) (l : List Nat) (best : Nat) :
    (list_for_each_pick c best l = best ∧ ∀ x ∈ l, k best ≤ k x) ∨
    (∃ pre post, l = pre ++ list_for_each_pick c best l :: post ∧
      k (list_for_each_pick c best l) < k best ∧
      (∀ x ∈ pre, k (list_for_each_pick c best l) < k x) ∧
      (∀ x ∈ post, k (list_for_each_pick c best l) ≤ k x)) := by
  induction l generalizing best with
  | nil => left; simp [list_for_each_pick]
  | cons a t ih =>
    have hstep : list_for_each_pick c best (a :: t)
        = list_for_each_pick c (if c best a then a else best) t := by
      simp [list_for_each_pick]
    rw [hstep]
    by_cases hca : c best a = true
    · have hlt : k a < k best := (hc best a).1 hca
      simp only [hca, if_true]
      rcases ih a with ⟨hm, hall⟩ | ⟨pre, post, hl, hlt2, hpre, hpost⟩
      · right
        refine ⟨[], t, ?_, ?_, ?_, ?_⟩
        · simp [hm]
        · rw [hm]; exact hlt
        · simp
        · rw [hm]; exact hall
      · right
        refine ⟨a :: pre, post, ?_, lt_trans hlt2 hlt, ?_, hpost⟩
        · simp only [List.cons_append]
          exact congrArg (List.cons a) hl
        · intro x hx
          rcases List.mem_cons.1 hx with rfl | hx
          · exact hlt2
          · exact hpre x hx
    · have hge : k best ≤ k a := by
        by_contra h
        exact hca ((hc best a).2 (not_le.1 h))
      have hb : (if c best a = true then a else best) = best := by simp [hca]
      rw [hb]
      rcases ih best with ⟨hm, hall⟩ | ⟨pre, post, hl, hlt2, hpre, hpost⟩
      · left
        refine ⟨hm, ?_⟩
        intro x hx
        rcases List.mem_cons.1 hx with rfl | hx
        · exact hge
        · exact hall x hx
      · right
        refine ⟨a :: pre, post, ?_, hlt2, ?_, hpost⟩
        · simp only [List.cons_append]
          exact congrArg (List.cons a) hl
        · intro x hx
          rcases List.mem_cons.1 hx with rfl | hx
          · exact lt_of_lt_of_le hlt2 hge
          · exact hpre x hx

/-- The scan over a non-empty list started at its first entry returns the first
entry with the least key: everything before it has a strictly larger key and
nothing after it has a smaller one. -/
theorem pick_first {α : Type} [LinearOrder α] (c : Nat → Nat → Bool) (k : Nat → α)
    (hc : ∀ a b, c a b = true ↔ k b < k a) (first : Nat) (t : List Nat) :
    ∃ pre post, first :: t = pre ++ list_for_each_pick c first (first :: t) :: post ∧
      (∀ x ∈ pre, k (list_for_each_pick c first (first :: t)) < k x) ∧
      (∀ x ∈ post, k (list_for_each_pick c first (first :: t)) ≤ k x) := by
  have hself : c first first = false := by
    cases h : c first first with
    | false => rfl
    | true => exact absurd ((hc first first).1 h) (lt_irrefl _)
  have hstep : list_for_each_pick c first (first :: t) = list_for_each_pick c first t := by
    simp [list_for_each_pick, hself]
  rw [hstep]
  rcases pick_from c k hc t first with ⟨hm, hall⟩ | ⟨pre, post, hl, hlt, hpre, hpost⟩
  · refine ⟨[], t, by simp [hm], by simp, ?_⟩
    rw [hm]; exact hall
  · refine ⟨first :: pre, post, ?_, ?_, hpost⟩
    · simp only [List.cons_append]
      exact congrArg (List.cons first) hl
    · intro x hx
      rcases List.mem_cons.1 hx with rfl | hx
      · exact hlt
      · exact hpre x hx

/-- Removing an entry that does not occur before its position leaves the rest
in order. -/
theorem erase_split (pre post : List Nat) (m : Nat) (h : m ∉ pre) :
    (pre ++ m :: post).erase m = pre ++ post := by
  induction pre with
  | nil => simp
  | cons a t ih =>
    have ha : a ≠ m := fun e => h (by simp [e])
    have ht : m ∉ t := fun e => h (List.mem_cons_of_mem _ e)
    simp [List.erase_cons, ha, ih ht]

/-! ## Plain FCFS arbitration -/

/-- C3: `fcfs_acquire(r)` returns success exactly when resource `r` had no
owner; on success the owner of `r` is the current process and nothing else has
changed: processes (status, priority), the ready queue, `current`, every wait
queue and every other resource. -/
theorem fcfs_acquire_success_iff_free (s : State) (r : Nat) :
    ((∃ s', fcfs_acquire s r = Except.ok (true, s')) ↔ (s.resources r).owner = none) ∧
    (∀ s', fcfs_acquire s r = Except.ok (true, s') →
      (s'.resources r).owner = s.current ∧
      s'.procs = s.procs ∧ s'.readyqueue = s.readyqueue ∧ s'.current = s.current ∧
      (∀ r', (s'.resources r').waitqueue = (s.resources r').waitqueue) ∧
      (∀ r', r' ≠ r → s'.resources r' = s.resources r')) := by
  unfold fcfs_acquire
  cases ho : (s.resources r).owner with
  | none =>
    refine ⟨by simp, ?_⟩
    intro s' h
    simp only [Except.ok.injEq, Prod.mk.injEq, true_and] at h
    subst h
    refine ⟨by simp [State.set_owner], rfl, rfl, rfl, ?_, ?_⟩
    · intro r'
      by_cases hr : r' = r
      · subst hr; simp [State.set_owner]
      · simp [State.set_owner, Function.update_noteq hr]
    · intro r' hr
      simp [State.set_owner, Function.update_noteq hr]
  | some o =>
    cases hc : s.current with
    | none => simp
    | some c => simp

/-- C3 at the sample state: resource 2 is free, so process 0 obtains it. -/
theorem fcfs_acquire_success_iff_free_witness :
    ∃ s', fcfs_acquire demo 2 = Except.ok (true, s') ∧ (s'.resources 2).owner = some 0 :=
  ⟨demo.set_owner 2 demo.current, rfl,
    ((fcfs_acquire_success_iff_free demo 2).2 _ rfl).1⟩

/-- C4: when resource `r` is owned, `fcfs_acquire(r)` by the current process
`c` fails; `c` becomes WAITING and is appended at the tail of the wait queue of
`r` behind the earlier waiters; the owner of `r`, the ready queue, `current`,
every other process and every other resource are unchanged. -/
theorem fcfs_acquire_taken_blocks (s : State) (r c o : Nat)
    (hown : (s.resources r).owner = some o) (hcur : s.current = some c) :
    ∃ s', fcfs_acquire s r = Except.ok (false, s') ∧
      s'.procs c = { s.procs c with status := ProcessStatus.PROCESS_WAIT } ∧
      (s'.resources r).waitqueue = (s.resources r).waitqueue ++ [c] ∧
      (s'.resources r).owner = some o ∧
      s'.readyqueue = s.readyqueue ∧ s'.current = s.current ∧
      (∀ p, p ≠ c → s'.procs p = s.procs p) ∧
      (∀ r', r' ≠ r → s'.resources r' = s.resources r') := by
  refine ⟨(s.set_status c ProcessStatus.PROCESS_WAIT).wait_add_tail r c,
    by simp [fcfs_acquire, hown, hcur], ?_, ?_, ?_, rfl, rfl, ?_, ?_⟩
  · simp [State.wait_add_tail, State.set_status]
  · simp [State.wait_add_tail, State.set_status]
  · simp [State.wait_add_tail, State.set_status, hown]
  · intro p hp
    simp [State.wait_add_tail, State.set_status, Function.update_noteq hp]
  · intro r' hr
    simp [State.wait_add_tail, State.set_status, Function.update_noteq hr]

/-- C4 at the sample state: process 0 asks for resource 1, held by process 1. -/
theorem fcfs_acquire_taken_blocks_witness :
    ∃ s', fcfs_acquire demo 1 = Except.ok (false, s') ∧
      (s'.procs 0).status = ProcessStatus.PROCESS_WAIT ∧
      (s'.resources 1).waitqueue = [0] ∧ (s'.resources 1).owner = some 1 := by
  obtain ⟨s', h, hst, hwq, how, _⟩ := fcfs_acquire_taken_blocks demo 1 0 1 rfl rfl
  exact ⟨s', h, by rw [hst], by rw [hwq]; rfl, how⟩

/-- C2: when the current process `c` owns `r` and the wait queue of `r` is
`w :: ws` with `w` WAITING, as `fcfs_acquire` left it, `fcfs_release(r)` clears
the owner, leaves `ws` as the wait queue, makes `w` READY and appends it at the
tail of the ready queue; when the wait queue is empty only the owner changes.
No other process and no other resource changes. -/
theorem fcfs_release_wakes_earliest (s : State) (r c : Nat)
    (hcur : s.current = some c) (hown : (s.resources r).owner = some c) :
    (∀ w ws, (s.resources r).waitqueue = w :: ws →
      (s.procs w).status = ProcessStatus.PROCESS_WAIT →
      ∃ s', fcfs_release s r = Except.ok s' ∧
        (s'.resources r).owner = none ∧ (s'.resources r).waitqueue = ws ∧
        s'.procs w = { s.procs w with status := ProcessStatus.PROCESS_READY } ∧
        s'.readyqueue = s.readyqueue ++ [w] ∧ s'.current = s.current ∧
        (∀ p, p ≠ w → s'.procs p = s.procs p) ∧
        (∀ r', r' ≠ r → s'.resources r' = s.resources r')) ∧
    ((s.resources r).waitqueue = [] →
      ∃ s', fcfs_release s r = Except.ok s' ∧
        (s'.resources r).owner = none ∧ (s'.resources r).waitqueue = [] ∧
        s'.procs = s.procs ∧ s'.readyqueue = s.readyqueue ∧ s'.current = s.current ∧
        (∀ r', r' ≠ r → s'.resources r' = s.resources r')) := by
  constructor
  · intro w ws hwq hst
    refine ⟨((((s.set_owner r none).wait_del r w).set_status w
        ProcessStatus.PROCESS_READY).ready_add_tail w), ?_, ?_, ?_, ?_, ?_, rfl, ?_, ?_⟩
    · have h1 : ((s.set_owner r none).resources r).waitqueue = w :: ws := by
        simp [State.set_owner, hwq]
      have h2 : ((s.set_owner r none).procs w).status = ProcessStatus.PROCESS_WAIT := hst
      simp [fcfs_release, hown, hcur, h1, h2]
    · simp [State.ready_add_tail, State.set_status, State.wait_del, State.set_owner]
    · simp [State.ready_add_tail, State.set_status, State.wait_del, State.set_owner, hwq]
    · simp [State.ready_add_tail, State.set_status, State.wait_del, State.set_owner]
    · simp [State.ready_add_tail, State.set_status, State.wait_del, State.set_owner]
    · intro p hp
      simp [State.ready_add_tail, State.set_status, State.wait_del, State.set_owner,
        Function.update_noteq hp]
    · intro r' hr
      simp [State.ready_add_tail, State.set_status, State.wait_del, State.set_owner,
        Function.update_noteq hr]
  · intro hwq
    have h1 : ((s.set_owner r none).resources r).waitqueue = [] := by
      simp [State.set_owner, hwq]
    refine ⟨s.set_owner r none, by simp [fcfs_release, hown, hcur, h1], ?_, ?_, rfl, rfl, rfl, ?_⟩
    · simp [State.set_owner]
    · simp [State.set_owner, hwq]
    · intro r' hr
      simp [State.set_owner, Function.update_noteq hr]

/-- C2 at the sample state: waiters 3 then 4 on resource 0; the release wakes 3. -/
theorem fcfs_release_wakes_earliest_witness :
    ∃ s', fcfs_release demo 0 = Except.ok s' ∧ (s'.resources 0).waitqueue = [4] ∧
      s'.readyqueue = [1, 2, 3] ∧ (s'.procs 3).status = ProcessStatus.PROCESS_READY ∧
      (s'.procs 4).status = ProcessStatus.PROCESS_WAIT := by
  obtain ⟨s', h, _, hwq, hp, hrq, _, hoth, _⟩ :=
    (fcfs_release_wakes_earliest demo 0 0 rfl rfl).1 3 [4] rfl rfl
  exact ⟨s', h, hwq, by rw [hrq]; rfl, by rw [hp], by rw [hoth 4 (by decide)]; rfl⟩

/-! ## Non-preemptive policies -/

/-- C6: a current process that is not WAITING and has `age < lifespan` is
returned by `fifo_schedule` and by `sjf_schedule`, and the state (the ready
queue in particular) is unchanged, whatever the ready queue holds. -/
theorem fifo_sjf_keep_running (s : State) (c : Nat) (hcur : s.current = some c)
    (hst : (s.procs c).status ≠ ProcessStatus.PROCESS_WAIT)
    (hage : (s.procs c).age < (s.procs c).lifespan) :
    fifo_schedule s = (some c, s) ∧ sjf_schedule s = (some c, s) := by
  constructor
  · simp [fifo_schedule, hcur, hst, hage]
  · simp [sjf_schedule, hcur, hst, hage]

/-- C6 at the sample state: process 0 (lifespan 5) stays although process 2
(lifespan 2) is ready. -/
theorem fifo_sjf_keep_running_witness :
    (demo.procs 2).lifespan < (demo.procs 0).lifespan ∧ 2 ∈ demo.readyqueue ∧
    fifo_schedule demo = (some 0, demo) ∧ sjf_schedule demo = (some 0, demo) :=
  ⟨by decide, by decide, fifo_sjf_keep_running demo 0 rfl (by decide) (by decide)⟩

/-- With no retained current process `fifo_schedule` is its selection step. -/
theorem fifo_schedule_pick (s : State) (h : not_retained s) :
    fifo_schedule s = (match s.readyqueue with
      | [] => (none, s)
      | next :: _ => (some next, s.ready_del next)) := by
  unfold fifo_schedule
  cases hc : s.current with
  | none => rfl
  | some c =>
    rcases h c hc with hw | ha
    · simp [hw]
    · simp [Nat.not_lt.2 ha]

/-- With no retained current process `sjf_schedule` is its selection step. -/
theorem sjf_schedule_pick (s : State) (h : not_retained s) :
    sjf_schedule s = (match s.readyqueue with
      | [] => (none, s)
      | first :: _ =>
        (some (list_for_each_pick
          (fun m next => decide ((s.procs m).lifespan > (s.procs next).lifespan))
          first s.readyqueue),
         s.ready_del (list_for_each_pick
          (fun m next => decide ((s.procs m).lifespan > (s.procs next).lifespan))
          first s.readyqueue))) := by
  unfold sjf_schedule
  cases hc : s.current with
  | none => rfl
  | some c =>
    rcases h c hc with hw | ha
    · simp [hw]
    · simp [Nat.not_lt.2 ha]

/-- C7: when the current process is absent, WAITING or has `age >= lifespan`
and the ready queue is `p :: rest`, `fifo_schedule` returns `p` and the ready
queue becomes `rest`; nothing else changes. -/
theorem fifo_selects_head (s : State) (p : Nat) (rest : List Nat)
    (hnot : not_retained s) (hrq : s.readyqueue = p :: rest) :
    (fifo_schedule s).1 = some p ∧ (fifo_schedule s).2.readyqueue = rest ∧
    (fifo_schedule s).2.procs = s.procs ∧ (fifo_schedule s).2.current = s.current ∧
    (fifo_schedule s).2.resources = s.resources := by
  rw [fifo_schedule_pick s hnot, hrq]
  simp [State.ready_del, hrq]

/-- C7 at the idle sample state: the head of the ready queue 1, 2 is taken. -/
theorem fifo_selects_head_witness :
    (fifo_schedule demo_idle).1 = some 1 ∧ (fifo_schedule demo_idle).2.readyqueue = [2] :=
  have h := fifo_selects_head demo_idle 1 [2] (by intro c hc; cases hc) rfl
  ⟨h.1, h.2.1⟩

/-- C8: when the current process is not retained and the ready queue is not
empty, `sjf_schedule` returns the entry `m` of the ready queue whose lifespan is
least, the one nearest the head among equals (every entry before `m` has a
strictly larger lifespan), and the ready queue afterwards is the old one without
that entry, the others in their order.  Nothing else changes. -/
theorem sjf_selects_shortest (s : State) (hnot : not_retained s)
    (hne : s.readyqueue ≠ []) :
    ∃ pre m post, s.readyqueue = pre ++ m :: post ∧
      (sjf_schedule s).1 = some m ∧
      (sjf_schedule s).2.readyqueue = pre ++ post ∧
      (∀ x ∈ s.readyqueue, (s.procs m).lifespan ≤ (s.procs x).lifespan) ∧
      (∀ x ∈ pre, (s.procs m).lifespan < (s.procs x).lifespan) ∧
      (sjf_schedule s).2.procs = s.procs ∧ (sjf_schedule s).2.current = s.current ∧
      (sjf_schedule s).2.resources = s.resources := by
  rw [sjf_schedule_pick s hnot]
  obtain ⟨first, t, hrq⟩ := List.exists_cons_of_ne_nil hne
  obtain ⟨pre, post, hsplit, hpre, hpost⟩ :=
    pick_first (fun m next => decide ((s.procs m).lifespan > (s.procs next).lifespan))
      (fun p => (s.procs p).lifespan) (by intro a b; simp) first t
  simp only [State.ready_del, hrq]
  generalize list_for_each_pick _ first (first :: t) = m at hsplit hpre hpost ⊢
  have hm : m ∉ pre := fun hin => lt_irrefl _ (hpre _ hin)
  refine ⟨pre, m, post, hsplit, by trivial, ?_, ?_, hpre, by trivial⟩
  · show (first :: t).erase m = pre ++ post
    rw [hsplit]
    exact erase_split pre post m hm
  · intro x hx
    rw [hsplit] at hx
    rcases List.mem_append.1 hx with h | h
    · exact le_of_lt (hpre x h)
    · rcases List.mem_cons.1 h with rfl | h
      · exact le_refl _
      · exact hpost x h

/-- C8 at the idle sample state with ready queue 1, 2 (lifespans 4 and 2):
process 2 is returned and 1 stays. -/
theorem sjf_selects_shortest_witness :
    (sjf_schedule demo_idle).1 = some 2 ∧ (sjf_schedule demo_idle).2.readyqueue = [1] ∧
    ∃ pre m post, demo_idle.readyqueue = pre ++ m :: post ∧
      (sjf_schedule demo_idle).1 = some m ∧
      (sjf_schedule demo_idle).2.readyqueue = pre ++ post ∧
      (∀ x ∈ demo_idle.readyqueue,
        (demo_idle.procs m).lifespan ≤ (demo_idle.procs x).lifespan) := by
  obtain ⟨pre, m, post, h1, h2, h3, h4, _⟩ :=
    sjf_selects_shortest demo_idle (by intro c hc; cases hc) (by decide)
  exact ⟨by decide, by decide, pre, m, post, h1, h2, h3, h4⟩

/-! ## Preemptive policies: the preamble and SRTF -/

/-- C subtraction on `unsigned int` is the plain difference when nothing wraps. -/
theorem usub_eq_sub (a b : Nat) (hb : b ≤ a) (ha : a < UINT_MOD) : usub a b = a - b := by
  unfold usub
  unfold UINT_MOD at *
  omega

/-- The preamble changes the ready queue only, into the list of candidates. -/
theorem requeue_current_eq (s : State) :
    requeue_current s = { s with readyqueue := candidates s } := by
  obtain ⟨procs, cur, rq, res⟩ := s
  cases cur with
  | none => rfl
  | some c =>
    by_cases hw : (procs c).status = ProcessStatus.PROCESS_WAIT
    · simp [requeue_current, candidates, hw]
    · by_cases ha : (procs c).age < (procs c).lifespan
      · simp [requeue_current, candidates, hw, ha, State.ready_add_tail]
      · simp [requeue_current, candidates, hw, ha]

/-- A split of `l ++ [c]` at an entry other than the last one is a split of `l`. -/
theorem split_before_last (l pre post : List Nat) (c m : Nat)
    (h : l ++ [c] = pre ++ m :: post) (hpost : post ≠ []) :
    ∃ post', post = post' ++ [c] ∧ l = pre ++ m :: post' := by
  rcases List.eq_nil_or_concat post with h0 | ⟨post', z, hz⟩
  · exact absurd h0 hpost
  · subst hz
    have h2 : l ++ [c] = (pre ++ m :: post') ++ [z] := by simpa using h
    have h3 := List.append_inj' h2 rfl
    have hz : c = z := by simpa using h3.2
    exact ⟨post', by simp [hz], h3.1⟩

/-- What `srtf_schedule` does when there is a candidate: it returns the first
candidate with the least remaining time, computed as the code does, and leaves
the other candidates, in order, as the ready queue. -/
theorem srtf_schedule_split (s : State) (hne : candidates s ≠ []) :
    ∃ pre m post, candidates s = pre ++ m :: post ∧
      (srtf_schedule s).1 = some m ∧
      (srtf_schedule s).2.readyqueue = pre ++ post ∧
      (∀ x ∈ pre, remaining s m < remaining s x) ∧
      (∀ x ∈ post, remaining s m ≤ remaining s x) := by
  obtain ⟨first, t, hrq⟩ := List.exists_cons_of_ne_nil hne
  obtain ⟨pre, post, hsplit, hpre, hpost⟩ :=
    pick_first (fun m next => decide (remaining s m > remaining s next))
      (fun p => remaining s p) (by intro a b; simp) first t
  unfold srtf_schedule
  rw [requeue_current_eq]
  simp only [State.ready_del, hrq]
  have hrem : ∀ p, remaining { s with readyqueue := first :: t } p = remaining s p :=
    fun _ => rfl
  simp only [hrem]
  generalize list_for_each_pick _ first (first :: t) = m at hsplit hpre hpost ⊢
  have hm : m ∉ pre := fun hin => lt_irrefl _ (hpre _ hin)
  refine ⟨pre, m, post, hsplit, by trivial, ?_, hpre, hpost⟩
  show (first :: t).erase m = pre ++ post
  rw [hsplit]
  exact erase_split pre post m hm

/-- C9: when every candidate has `age <= lifespan` (within `unsigned int`) and
there is a candidate, `srtf_schedule` returns the candidate `m` with the least
remaining time `lifespan - age`; every candidate before `m` has strictly more
remaining time, so ties go to the candidate nearest the head, and the ready
queue afterwards is the candidate list without `m`.  When the current process
`c` is the candidate at the tail and some ready process has no more remaining
time than `c`, the selected entry lies in the ready queue. -/
theorem srtf_selects_min_remaining (s : State) (hne : candidates s ≠ [])
    (hfit : ∀ p ∈ candidates s,
      (s.procs p).age ≤ (s.procs p).lifespan ∧ (s.procs p).lifespan < UINT_MOD) :
    ∃ pre m post, candidates s = pre ++ m :: post ∧
      (srtf_schedule s).1 = some m ∧
      (srtf_schedule s).2.readyqueue = pre ++ post ∧
      (∀ x ∈ candidates s, (s.procs m).lifespan - (s.procs m).age
          ≤ (s.procs x).lifespan - (s.procs x).age) ∧
      (∀ x ∈ pre, (s.procs m).lifespan - (s.procs m).age
          < (s.procs x).lifespan - (s.procs x).age) ∧
      (∀ c, candidates s = s.readyqueue ++ [c] →
        (∃ x ∈ s.readyqueue, (s.procs x).lifespan - (s.procs x).age
          ≤ (s.procs c).lifespan - (s.procs c).age) →
        ∃ post', s.readyqueue = pre ++ m :: post') := by
  obtain ⟨pre, m, post, hsplit, hret, hrq, hpre, hpost⟩ := srtf_schedule_split s hne
  have hrem : ∀ p ∈ candidates s,
      remaining s p = (s.procs p).lifespan - (s.procs p).age := fun p hp =>
    usub_eq_sub _ _ (hfit p hp).1 (hfit p hp).2
  have hmc : m ∈ candidates s := by rw [hsplit]; simp
  have hprec : ∀ x ∈ pre, x ∈ candidates s := fun x hx => by rw [hsplit]; simp [hx]
  have hpostc : ∀ x ∈ post, x ∈ candidates s := fun x hx => by rw [hsplit]; simp [hx]
  have hpre' : ∀ x ∈ pre, (s.procs m).lifespan - (s.procs m).age
      < (s.procs x).lifespan - (s.procs x).age := fun x hx => by
    rw [← hrem m hmc, ← hrem x (hprec x hx)]; exact hpre x hx
  have hpost' : ∀ x ∈ post, (s.procs m).lifespan - (s.procs m).age
      ≤ (s.procs x).lifespan - (s.procs x).age := fun x hx => by
    rw [← hrem m hmc, ← hrem x (hpostc x hx)]; exact hpost x hx
  refine ⟨pre, m, post, hsplit, hret, hrq, ?_, hpre', ?_⟩
  · intro x hx
    rw [hsplit] at hx
    rcases List.mem_append.1 hx with h | h
    · exact le_of_lt (hpre' x h)
    · rcases List.mem_cons.1 h with rfl | h
      · exact le_refl _
      · exact hpost' x h
  · intro c hc ⟨x, hx, hle⟩
    by_cases hp : post = []
    · subst hp
      have h2 : s.readyqueue ++ [c] = pre ++ [m] := by rw [← hc, hsplit]
      have h3 := List.append_inj' h2 rfl
      have hcm : c = m := by simpa using h3.2
      have hlt := hpre' x (h3.1 ▸ hx)
      rw [hcm] at hle
      exact absurd hle (not_le.2 hlt)
    · obtain ⟨post', _, hl⟩ := split_before_last s.readyqueue pre post c m
        (by rw [← hc, hsplit]) hp
      exact ⟨post', hl⟩

/-- C9 at the sample state: candidates 1, 2, 0 with 4, 1 and 3 ticks left;
process 2 is returned and 1, 0 is the ready queue afterwards. -/
theorem srtf_selects_min_remaining_witness :
    candidates demo = [1, 2, 0] ∧
    (srtf_schedule demo).1 = some 2 ∧ (srtf_schedule demo).2.readyqueue = [1, 0] ∧
    ∃ pre m post, candidates demo = pre ++ m :: post ∧
      (srtf_schedule demo).1 = some m ∧
      (srtf_schedule demo).2.readyqueue = pre ++ post ∧
      (∀ x ∈ candidates demo, (demo.procs m).lifespan - (demo.procs m).age
          ≤ (demo.procs x).lifespan - (demo.procs x).age) := by
  obtain ⟨pre, m, post, h1, h2, h3, h4, _⟩ :=
    srtf_selects_min_remaining demo (by decide) (by decide)
  exact ⟨by decide, by decide, by decide, pre, m, post, h1, h2, h3, h4⟩

/-- C10: when the current process `c` is not WAITING, has `age < lifespan` and
is in no queue, and some ready process has strictly less remaining time
(`lifespan - age` as the code computes it), `srtf_schedule` returns a process of
the ready queue other than `c`, and the ready queue afterwards is the old one
without that process and with `c` at the tail, where `c` occurs exactly once. -/
theorem srtf_preempts_running (s : State) (c : Nat) (hcur : s.current = some c)
    (hst : (s.procs c).status ≠ ProcessStatus.PROCESS_WAIT)
    (hage : (s.procs c).age < (s.procs c).lifespan)
    (hfree : c ∉ s.readyqueue)
    (hq : ∃ q ∈ s.readyqueue, remaining s q < remaining s c) :
    ∃ m, (srtf_schedule s).1 = some m ∧ m ∈ s.readyqueue ∧ m ≠ c ∧
      (srtf_schedule s).2.readyqueue = s.readyqueue.erase m ++ [c] ∧
      ((srtf_schedule s).2.readyqueue).count c = 1 := by
  have hcand : candidates s = s.readyqueue ++ [c] := by
    simp [candidates, hcur, hst, hage]
  obtain ⟨pre, m, post, hsplit, hret, hrq, hpre, hpost⟩ :=
    srtf_schedule_split s (by rw [hcand]; simp)
  obtain ⟨q, hqin, hqlt⟩ := hq
  have hmq : remaining s m ≤ remaining s q := by
    have hqc : q ∈ pre ++ m :: post := by rw [← hsplit, hcand]; simp [hqin]
    rcases List.mem_append.1 hqc with h | h
    · exact le_of_lt (hpre q h)
    · rcases List.mem_cons.1 h with rfl | h
      · exact le_refl _
      · exact hpost q h
  have hmc : m ≠ c := by
    intro e
    rw [e] at hmq
    exact absurd hqlt (not_lt.2 hmq)
  have hp : post ≠ [] := by
    intro hp
    subst hp
    have h2 : s.readyqueue ++ [c] = pre ++ [m] := by rw [← hcand, hsplit]
    have h3 := List.append_inj' h2 rfl
    exact hmc (by simpa using h3.2.symm)
  obtain ⟨post', hpost', hl⟩ := split_before_last s.readyqueue pre post c m
    (by rw [← hcand, hsplit]) hp
  have hm : m ∉ pre := fun hin => lt_irrefl _ (hpre _ hin)
  have herase : s.readyqueue.erase m = pre ++ post' := by
    rw [hl]; exact erase_split pre post' m hm
  have hnew : (srtf_schedule s).2.readyqueue = s.readyqueue.erase m ++ [c] := by
    rw [hrq, herase, hpost', List.append_assoc]
  refine ⟨m, hret, by rw [hl]; simp, hmc, hnew, ?_⟩
  rw [hnew, List.count_append]
  have hc0 : c ∉ s.readyqueue.erase m := fun h => hfree (List.mem_of_mem_erase h)
  simp [List.count_eq_zero_of_not_mem hc0]

/-- C10 at the sample state: process 0 has 3 ticks left, ready process 2 has 1;
process 2 is returned and process 0 is at the tail of the ready queue. -/
theorem srtf_preempts_running_witness :
    remaining demo 0 = 3 ∧ remaining demo 2 = 1 ∧
    (srtf_schedule demo).1 = some 2 ∧ (srtf_schedule demo).2.readyqueue = [1, 0] ∧
    ∃ m, (srtf_schedule demo).1 = some m ∧ m ∈ demo.readyqueue ∧ m ≠ 0 ∧
      (srtf_schedule demo).2.readyqueue = demo.readyqueue.erase m ++ [0] ∧
      ((srtf_schedule demo).2.readyqueue).count 0 = 1 :=
  ⟨by decide, by decide, by decide, by decide,
    srtf_preempts_running demo 0 rfl (by decide) (by decide) (by decide)
      ⟨2, by decide, by decide⟩⟩

/-! ## The partition invariant -/

/-- Membership in the candidate list. -/
theorem mem_candidates (s : State) (p : Nat) :
    p ∈ candidates s ↔ p ∈ s.readyqueue ∨ (running s p ∧ unfinished s p) := by
  unfold candidates running unfinished
  cases hc : s.current with
  | none => simp
  | some c =>
    by_cases h : (s.procs c).status ≠ ProcessStatus.PROCESS_WAIT ∧
        (s.procs c).age < (s.procs c).lifespan
    · simp only [if_pos h, List.mem_append, List.mem_singleton]
      constructor
      · rintro (h1 | rfl)
        · exact Or.inl h1
        · exact Or.inr ⟨⟨rfl, h.1⟩, h.2⟩
      · rintro (h1 | ⟨⟨h2, _⟩, _⟩)
        · exact Or.inl h1
        · exact Or.inr (Option.some.inj h2).symm
    · simp only [if_neg h]
      constructor
      · exact Or.inl
      · rintro (h1 | ⟨⟨h2, h3⟩, h4⟩)
        · exact h1
        · have e := Option.some.inj h2
          subst e
          exact absurd ⟨h3, h4⟩ h

/-- Appending to the ready queue a process that is in no queue. -/
theorem queues_inv_ready_append (s t : State) (p : Nat) (H : queues_inv s)
    (hrq : t.readyqueue = s.readyqueue ++ [p])
    (hwq : ∀ r, (t.resources r).waitqueue = (s.resources r).waitqueue)
    (h1 : p ∉ s.readyqueue) (h2 : ¬ in_wait s p) : queues_inv t := by
  refine ⟨?_, ?_, ?_, ?_⟩
  · rw [hrq]
    refine List.nodup_append.2 ⟨H.ready_nodup, List.nodup_singleton p, ?_⟩
    intro x hx hx'
    rw [List.mem_singleton] at hx'
    subst hx'
    exact h1 hx
  · intro r
    rw [hwq]
    exact H.wait_nodup r
  · intro r q hq
    rw [hwq] at hq
    rw [hrq, List.mem_append, List.mem_singleton]
    rintro (h | rfl)
    · exact H.ready_wait r q hq h
    · exact h2 ⟨r, hq⟩
  · intro r1 r2 q hq1 hq2
    rw [hwq] at hq1 hq2
    exact H.wait_wait r1 r2 q hq1 hq2

/-- Unlinking an entry of the ready queue. -/
theorem queues_inv_ready_erase (s t : State) (x : Nat) (H : queues_inv s)
    (hrq : t.readyqueue = s.readyqueue.erase x)
    (hwq : ∀ r, (t.resources r).waitqueue = (s.resources r).waitqueue) : queues_inv t := by
  refine ⟨?_, ?_, ?_, ?_⟩
  · rw [hrq]
    exact H.ready_nodup.erase x
  · intro r
    rw [hwq]
    exact H.wait_nodup r
  · intro r q hq
    rw [hwq] at hq
    rw [hrq]
    exact fun h => H.ready_wait r q hq (List.mem_of_mem_erase h)
  · intro r1 r2 q hq1 hq2
    rw [hwq] at hq1 hq2
    exact H.wait_wait r1 r2 q hq1 hq2

/-- Appending to the wait queue of `r` a process that is in no queue. -/
theorem queues_inv_wait_append (s t : State) (r p : Nat) (H : queues_inv s)
    (hrq : t.readyqueue = s.readyqueue)
    (hwr : (t.resources r).waitqueue = (s.resources r).waitqueue ++ [p])
    (hwo : ∀ r', r' ≠ r → (t.resources r').waitqueue = (s.resources r').waitqueue)
    (h1 : p ∉ s.readyqueue) (h2 : ¬ in_wait s p) : queues_inv t := by
  have hmem : ∀ r' q, q ∈ (t.resources r').waitqueue →
      q ∈ (s.resources r').waitqueue ∨ (r' = r ∧ q = p) := by
    intro r' q hq
    by_cases hr : r' = r
    · subst hr
      rw [hwr, List.mem_append, List.mem_singleton] at hq
      rcases hq with h | h
      · exact Or.inl h
      · exact Or.inr ⟨rfl, h⟩
    · rw [hwo r' hr] at hq
      exact Or.inl hq
  refine ⟨?_, ?_, ?_, ?_⟩
  · rw [hrq]
    exact H.ready_nodup
  · intro r'
    by_cases hr : r' = r
    · subst hr
      rw [hwr]
      refine List.nodup_append.2 ⟨H.wait_nodup r', List.nodup_singleton p, ?_⟩
      intro x hx hx'
      rw [List.mem_singleton] at hx'
      subst hx'
      exact h2 ⟨r', hx⟩
    · rw [hwo r' hr]
      exact H.wait_nodup r'
  · intro r' q hq
    rw [hrq]
    rcases hmem r' q hq with h | ⟨_, rfl⟩
    · exact H.ready_wait r' q h
    · exact h1
  · intro r1 r2 q hq1 hq2
    rcases hmem r1 q hq1 with a | ⟨a1, a2⟩ <;> rcases hmem r2 q hq2 with b | ⟨b1, b2⟩
    · exact H.wait_wait r1 r2 q a b
    · subst b2
      exact absurd ⟨r1, a⟩ h2
    · subst a2
      exact absurd ⟨r2, b⟩ h2
    · rw [a1, b1]

/-- Moving a waiter of `r` to the tail of the ready queue. -/
theorem queues_inv_wake (s t : State) (r w : Nat) (H : queues_inv s)
    (hw : w ∈ (s.resources r).waitqueue)
    (hrq : t.readyqueue = s.readyqueue ++ [w])
    (hwr : (t.resources r).waitqueue = (s.resources r).waitqueue.erase w)
    (hwo : ∀ r', r' ≠ r → (t.resources r').waitqueue = (s.resources r').waitqueue) :
    queues_inv t := by
  have hmem : ∀ r' q, q ∈ (t.resources r').waitqueue →
      q ∈ (s.resources r').waitqueue ∧ q ≠ w := by
    intro r' q hq
    by_cases hr : r' = r
    · subst hr
      rw [hwr] at hq
      have h := ((H.wait_nodup r').mem_erase_iff).1 hq
      exact ⟨h.2, h.1⟩
    · rw [hwo r' hr] at hq
      refine ⟨hq, ?_⟩
      rintro rfl
      exact hr (H.wait_wait r' r q hq hw)
  refine ⟨?_, ?_, ?_, ?_⟩
  · rw [hrq]
    refine List.nodup_append.2 ⟨H.ready_nodup, List.nodup_singleton w, ?_⟩
    intro x hx hx'
    rw [List.mem_singleton] at hx'
    subst hx'
    exact H.ready_wait r x hw hx
  · intro r'
    by_cases hr : r' = r
    · subst hr
      rw [hwr]
      exact (H.wait_nodup r').erase w
    · rw [hwo r' hr]
      exact H.wait_nodup r'
  · intro r' q hq
    obtain ⟨h, hne⟩ := hmem r' q hq
    rw [hrq, List.mem_append, List.mem_singleton]
    rintro (h' | h')
    · exact H.ready_wait r' q h h'
    · exact hne h'
  · intro r1 r2 q hq1 hq2
    exact H.wait_wait r1 r2 q (hmem r1 q hq1).1 (hmem r2 q hq2).1

/-- A step that moves no process keeps the partition. -/
theorem partition_same_places (s t : State) (H : partition_inv s) (h : same_places s t) :
    partition_inv t ∧ conserved s t := by
  obtain ⟨hrq, hcur, hwq, hst⟩ := h
  have hrun : ∀ p, running t p ↔ running s p := by
    intro p
    unfold running
    rw [hcur, hst]
  have hwait : ∀ p, in_wait t p ↔ in_wait s p := by
    intro p
    unfold in_wait
    simp only [hwq]
  have hpl : ∀ p, placed t p ↔ placed s p := by
    intro p
    unfold placed
    rw [hrun, hwait, hrq]
  refine ⟨⟨⟨?_, ?_, ?_, ?_⟩, ?_⟩, fun p hp _ => (hpl p).2 hp, fun p hp => (hpl p).1 hp⟩
  · rw [hrq]
    exact H.queues.ready_nodup
  · intro r
    rw [hwq]
    exact H.queues.wait_nodup r
  · intro r p hp
    rw [hwq] at hp
    rw [hrq]
    exact H.queues.ready_wait r p hp
  · intro r1 r2 p h1 h2
    rw [hwq] at h1 h2
    exact H.queues.wait_wait r1 r2 p h1 h2
  · intro p hp
    rw [hrq, hwait]
    exact H.running_alone p ((hrun p).1 hp)

/-- Blocking the running process on a resource keeps the partition. -/
theorem partition_blocked_on (s t : State) (r c : Nat) (H : partition_inv s)
    (hc : running s c) (h : blocked_on s t r c) : partition_inv t ∧ conserved s t := by
  obtain ⟨hrq, hcur, hwr, hwo, hstc, hsto⟩ := h
  obtain ⟨hc1, hc2⟩ := H.running_alone c hc
  have hnorun : ∀ p, ¬ running t p := by
    rintro p ⟨hp1, hp2⟩
    rw [hcur, hc.1] at hp1
    have e := Option.some.inj hp1
    subst e
    exact hp2 hstc
  have hwait : ∀ p, in_wait t p ↔ in_wait s p ∨ p = c := by
    intro p
    constructor
    · rintro ⟨r', hr'⟩
      by_cases e : r' = r
      · subst e
        rw [hwr, List.mem_append, List.mem_singleton] at hr'
        rcases hr' with h | h
        · exact Or.inl ⟨r', h⟩
        · exact Or.inr h
      · rw [hwo r' e] at hr'
        exact Or.inl ⟨r', hr'⟩
    · rintro (⟨r', hr'⟩ | rfl)
      · by_cases e : r' = r
        · subst e
          exact ⟨r', by rw [hwr]; exact List.mem_append_left _ hr'⟩
        · exact ⟨r', by rw [hwo r' e]; exact hr'⟩
      · exact ⟨r, by rw [hwr]; simp⟩
  refine ⟨⟨queues_inv_wait_append s t r c H.queues hrq hwr hwo hc1 hc2, ?_⟩, ?_, ?_⟩
  · intro p hp
    exact absurd hp (hnorun p)
  · intro p hp _
    rcases hp with hp | hp | hp
    · have e : p = c := Option.some.inj (hp.1.symm.trans hc.1)
      exact Or.inr (Or.inr ((hwait p).2 (Or.inr e)))
    · exact Or.inr (Or.inl (by rw [hrq]; exact hp))
    · exact Or.inr (Or.inr ((hwait p).2 (Or.inl hp)))
  · intro p hp
    rcases hp with hp | hp | hp
    · exact absurd hp (hnorun p)
    · exact Or.inr (Or.inl (by rw [← hrq]; exact hp))
    · rcases (hwait p).1 hp with h | rfl
      · exact Or.inr (Or.inr h)
      · exact Or.inl hc

/-- Waking a waiter while a process is running keeps the partition. -/
theorem partition_woken_from (s t : State) (r w c : Nat) (H : partition_inv s)
    (hc : running s c) (h : woken_from s t r w) : partition_inv t ∧ conserved s t := by
  obtain ⟨hw, hrq, hcur, hwr, hwo, hstw, hsto⟩ := h
  obtain ⟨hc1, hc2⟩ := H.running_alone c hc
  have hcw : c ≠ w := by
    rintro rfl
    exact hc2 ⟨r, hw⟩
  have hQ : queues_inv t := queues_inv_wake s t r w H.queues hw hrq hwr hwo
  have hrun : ∀ p, running t p ↔ running s p := by
    intro p
    unfold running
    rw [hcur, hc.1]
    constructor
    · rintro ⟨h1, h2⟩
      have e := Option.some.inj h1
      subst e
      rw [hsto _ hcw] at h2
      exact ⟨rfl, h2⟩
    · rintro ⟨h1, h2⟩
      have e := Option.some.inj h1
      subst e
      rw [← hsto _ hcw] at h2
      exact ⟨rfl, h2⟩
  have hwait : ∀ p, in_wait t p ↔ in_wait s p ∧ p ≠ w := by
    intro p
    constructor
    · rintro ⟨r', hr'⟩
      by_cases e : r' = r
      · subst e
        rw [hwr] at hr'
        have h := ((H.queues.wait_nodup r').mem_erase_iff).1 hr'
        exact ⟨⟨r', h.2⟩, h.1⟩
      · rw [hwo r' e] at hr'
        refine ⟨⟨r', hr'⟩, ?_⟩
        rintro rfl
        exact e (H.queues.wait_wait r' r p hr' hw)
    · rintro ⟨⟨r', hr'⟩, hne⟩
      by_cases e : r' = r
      · subst e
        exact ⟨r', by rw [hwr]; exact ((H.queues.wait_nodup r').mem_erase_iff).2 ⟨hne, hr'⟩⟩
      · exact ⟨r', by rw [hwo r' e]; exact hr'⟩
  refine ⟨⟨hQ, ?_⟩, ?_, ?_⟩
  · intro p hp
    have hps := (hrun p).1 hp
    have e : p = c := Option.some.inj (hps.1.symm.trans hc.1)
    subst e
    refine ⟨?_, fun hin => hc2 ((hwait p).1 hin).1⟩
    rw [hrq, List.mem_append, List.mem_singleton]
    rintro (h | h)
    · exact hc1 h
    · exact hcw h
  · intro p hp _
    rcases hp with hp | hp | hp
    · exact Or.inl ((hrun p).2 hp)
    · exact Or.inr (Or.inl (by rw [hrq]; exact List.mem_append_left _ hp))
    · by_cases e : p = w
      · exact Or.inr (Or.inl (by rw [hrq, e]; simp))
      · exact Or.inr (Or.inr ((hwait p).2 ⟨hp, e⟩))
  · intro p hp
    rcases hp with hp | hp | hp
    · exact Or.inl ((hrun p).1 hp)
    · rw [hrq, List.mem_append, List.mem_singleton] at hp
      rcases hp with h | rfl
      · exact Or.inr (Or.inl h)
      · exact Or.inr (Or.inr ⟨r, hw⟩)
    · exact Or.inr (Or.inr ((hwait p).1 hp).1)

/-- The state left by the preamble of a preemptive policy has sound queues. -/
theorem queues_inv_candidates (s : State) (H : partition_inv s) :
    queues_inv { s with readyqueue := candidates s } := by
  by_cases h : ∃ c, running s c ∧ unfinished s c
  · obtain ⟨c, hc, hu⟩ := h
    have hcand : candidates s = s.readyqueue ++ [c] := by
      unfold candidates
      rw [hc.1]
      exact if_pos ⟨hc.2, hu⟩
    obtain ⟨hc1, hc2⟩ := H.running_alone c hc
    exact queues_inv_ready_append s _ c H.queues hcand (fun _ => rfl) hc1 hc2
  · have hcand : candidates s = s.readyqueue := by
      unfold candidates
      cases hcur : s.current with
      | none => rfl
      | some c =>
        refine if_neg ?_
        rintro ⟨h1, h2⟩
        exact h ⟨c, ⟨hcur, h1⟩, h2⟩
    rw [hcand]
    exact H.queues

/-- C1, schedule part: whichever way `schedule()` ends, making the returned
process current keeps the partition and loses no unfinished process. -/
theorem partition_dispatch (s : State) (res : Option Nat × State) (H : partition_inv s)
    (h : schedule_shape s res) :
    partition_inv (dispatch res) ∧ conserved s (dispatch res) := by
  rcases h with ⟨c, hc, _, rfl⟩ | ⟨hnil, rfl⟩ | ⟨x, hx, rfl⟩
  · -- the running process is kept
    have hrun : ∀ p, running (dispatch (some c, s)) p ↔ running s p := by
      intro p
      constructor
      · rintro ⟨h1, _⟩
        have e : c = p := Option.some.inj h1
        subst e
        exact hc
      · intro hp
        have e : p = c := Option.some.inj (hp.1.symm.trans hc.1)
        subst e
        refine ⟨rfl, ?_⟩
        simp [dispatch, State.set_status]
    have hpl : ∀ p, placed (dispatch (some c, s)) p ↔ placed s p := by
      intro p
      unfold placed
      rw [hrun]
      rfl
    refine ⟨⟨?_, ?_⟩, fun p hp _ => (hpl p).2 hp, fun p hp => (hpl p).1 hp⟩
    · exact ⟨H.queues.ready_nodup, H.queues.wait_nodup, H.queues.ready_wait,
        H.queues.wait_wait⟩
    · intro p hp
      exact H.running_alone p ((hrun p).1 hp)
  · -- nothing to select
    have hcand : candidates s = [] := hnil
    have hQ := queues_inv_candidates s H
    refine ⟨⟨?_, ?_⟩, ?_, ?_⟩
    · exact ⟨hQ.ready_nodup, hQ.wait_nodup, hQ.ready_wait, hQ.wait_wait⟩
    · rintro p ⟨h1, _⟩
      cases h1
    · intro p hp hu
      rcases hp with hp | hp | hp
      · have hm : p ∈ candidates s := (mem_candidates s p).2 (Or.inr ⟨hp, hu⟩)
        rw [hcand] at hm
        cases hm
      · have hm : p ∈ candidates s := (mem_candidates s p).2 (Or.inl hp)
        rw [hcand] at hm
        cases hm
      · exact Or.inr (Or.inr hp)
    · intro p hp
      rcases hp with ⟨h1, _⟩ | hp | hp
      · cases h1
      · have hm : p ∈ candidates s := hp
        rw [hcand] at hm
        cases hm
      · exact Or.inr (Or.inr hp)
  · -- an entry of the candidate list is selected
    have hxc : x ∈ candidates s := hx
    have hQ := queues_inv_candidates s H
    have hQ' : queues_inv (dispatch (some x, State.ready_del
        { s with readyqueue := candidates s } x)) :=
      queues_inv_ready_erase { s with readyqueue := candidates s } _ x hQ rfl (fun _ => rfl)
    have hrq : (dispatch (some x, State.ready_del
        { s with readyqueue := candidates s } x)).readyqueue = (candidates s).erase x := rfl
    have hxw : ¬ in_wait s x := by
      rintro ⟨r, hr⟩
      exact hQ.ready_wait r x hr hxc
    have hnd : (candidates s).Nodup := hQ.ready_nodup
    have hxrun : running (dispatch (some x, State.ready_del
        { s with readyqueue := candidates s } x)) x := by
      refine ⟨rfl, ?_⟩
      simp [dispatch, State.set_status, State.ready_del]
    refine ⟨⟨hQ', ?_⟩, ?_, ?_⟩
    · rintro p ⟨h1, _⟩
      have e : x = p := Option.some.inj h1
      subst e
      refine ⟨?_, hxw⟩
      rw [hrq]
      exact fun hin => (hnd.mem_erase_iff.1 hin).1 rfl
    · intro p hp hu
      have hcase : p ∈ candidates s ∨ in_wait s p := by
        rcases hp with hp | hp | hp
        · exact Or.inl ((mem_candidates s p).2 (Or.inr ⟨hp, hu⟩))
        · exact Or.inl ((mem_candidates s p).2 (Or.inl hp))
        · exact Or.inr hp
      rcases hcase with hm | hw
      · by_cases e : p = x
        · subst e
          exact Or.inl hxrun
        · refine Or.inr (Or.inl ?_)
          rw [hrq]
          exact hnd.mem_erase_iff.2 ⟨e, hm⟩
      · exact Or.inr (Or.inr hw)
    · intro p hp
      have hofc : ∀ q, q ∈ candidates s → placed s q := by
        intro q hq
        rcases (mem_candidates s q).1 hq with h | ⟨h, _⟩
        · exact Or.inr (Or.inl h)
        · exact Or.inl h
      rcases hp with ⟨h1, _⟩ | hp | hp
      · have e : x = p := Option.some.inj h1
        subst e
        exact hofc _ hxc
      · rw [hrq] at hp
        exact hofc p (List.mem_of_mem_erase hp)
      · exact Or.inr (Or.inr hp)

/-! ## How each hook ends -/

/-- The scan returns its start value or an entry of the list. -/
theorem pick_mem (c : Nat → Nat → Bool) (l : List Nat) (best : Nat) :
    list_for_each_pick c best l = best ∨ list_for_each_pick c best l ∈ l := by
  induction l generalizing best with
  | nil => left; rfl
  | cons a t ih =>
    have hstep : list_for_each_pick c best (a :: t)
        = list_for_each_pick c (if c best a then a else best) t := by
      simp [list_for_each_pick]
    rw [hstep]
    rcases ih (if c best a then a else best) with h | h
    · rw [h]
      by_cases hca : c best a = true
      · right; simp [hca]
      · left; simp [hca]
    · right
      exact List.mem_cons_of_mem _ h

/-- The scan over a list started at its first entry returns an entry of it. -/
theorem pick_mem_cons (c : Nat → Nat → Bool) (first : Nat) (t : List Nat) :
    list_for_each_pick c first (first :: t) ∈ first :: t := by
  rcases pick_mem c (first :: t) first with h | h
  · rw [h]; simp
  · exact h

/-- Either the current process is running with `age < lifespan`, or it is not
retained. -/
theorem retained_or_not (s : State) :
    (∃ c, running s c ∧ unfinished s c) ∨ not_retained s := by
  by_cases h : ∃ c, running s c ∧ unfinished s c
  · exact Or.inl h
  · right
    intro c hc
    by_cases hw : (s.procs c).status = ProcessStatus.PROCESS_WAIT
    · exact Or.inl hw
    · right
      by_contra ha
      exact h ⟨c, ⟨hc, hw⟩, not_le.1 ha⟩

/-- Without a retained current process the candidates are the ready queue. -/
theorem candidates_of_not_retained (s : State) (h : not_retained s) :
    candidates s = s.readyqueue := by
  unfold candidates
  cases hc : s.current with
  | none => rfl
  | some c =>
    refine if_neg ?_
    rintro ⟨h1, h2⟩
    rcases h c hc with hw | ha
    · exact h1 hw
    · exact absurd h2 (not_lt.2 ha)

/-- Taking the head of the ready queue is a selection step. -/
theorem pick_step_head (s1 : State) :
    pick_step s1 (match s1.readyqueue with
      | [] => (none, s1)
      | next :: _ => (some next, s1.ready_del next)) := by
  unfold pick_step
  cases h : s1.readyqueue with
  | nil => exact Or.inl ⟨rfl, rfl⟩
  | cons a t => exact Or.inr ⟨a, by simp, rfl⟩

/-- Taking the entry found by a scan of the ready queue is a selection step. -/
theorem pick_step_scan (s1 : State) (c : Nat → Nat → Bool) :
    pick_step s1 (match s1.readyqueue with
      | [] => (none, s1)
      | first :: _ => (some (list_for_each_pick c first s1.readyqueue),
          s1.ready_del (list_for_each_pick c first s1.readyqueue))) := by
  unfold pick_step
  cases h : s1.readyqueue with
  | nil => exact Or.inl ⟨rfl, rfl⟩
  | cons a t => exact Or.inr ⟨_, pick_mem_cons c a t, rfl⟩

/-- Function `fifo_schedule` keeps the running process or selects. -/
theorem fifo_schedule_shape (s : State) : schedule_shape s (fifo_schedule s) := by
  rcases retained_or_not s with ⟨c, hc, hu⟩ | hn
  · refine Or.inl ⟨c, hc, hu, ?_⟩
    have hu' : (s.procs c).age < (s.procs c).lifespan := hu
    simp [fifo_schedule, hc.1, hc.2, hu']
  · right
    rw [fifo_schedule_pick s hn, candidates_of_not_retained s hn]
    exact pick_step_head s

/-- Function `sjf_schedule` keeps the running process or selects. -/
theorem sjf_schedule_shape (s : State) : schedule_shape s (sjf_schedule s) := by
  rcases retained_or_not s with ⟨c, hc, hu⟩ | hn
  · refine Or.inl ⟨c, hc, hu, ?_⟩
    have hu' : (s.procs c).age < (s.procs c).lifespan := hu
    simp [sjf_schedule, hc.1, hc.2, hu']
  · right
    rw [sjf_schedule_pick s hn, candidates_of_not_retained s hn]
    exact pick_step_scan s _

/-- Function `srtf_schedule` selects among the candidates. -/
theorem srtf_schedule_shape (s : State) : schedule_shape s (srtf_schedule s) := by
  right
  unfold srtf_schedule
  rw [requeue_current_eq]
  exact pick_step_scan _ _

/-- Function `rr_schedule` selects among the candidates. -/
theorem rr_schedule_shape (s : State) : schedule_shape s (rr_schedule s) := by
  right
  unfold rr_schedule
  rw [requeue_current_eq]
  exact pick_step_head _

/-- Function `prio_schedule` selects among the candidates. -/
theorem prio_schedule_shape (s : State) : schedule_shape s (prio_schedule s) := by
  right
  unfold prio_schedule
  rw [requeue_current_eq]
  exact pick_step_scan _ _

/-- Function `pcp_schedule` selects among the candidates. -/
theorem pcp_schedule_shape (s : State) : schedule_shape s (pcp_schedule s) := by
  right
  unfold pcp_schedule
  rw [requeue_current_eq]
  exact pick_step_scan _ _

/-- Function `pip_schedule` selects among the candidates. -/
theorem pip_schedule_shape (s : State) : schedule_shape s (pip_schedule s) := by
  right
  unfold pip_schedule
  rw [requeue_current_eq]
  exact pick_step_scan _ _

/-- Setting an owner moves no process. -/
theorem same_places_set_owner (s : State) (r : Nat) (o : Option Nat) :
    same_places s (s.set_owner r o) := by
  refine ⟨rfl, rfl, ?_, fun _ => rfl⟩
  intro r'
  by_cases e : r' = r
  · subst e; simp [State.set_owner]
  · simp [State.set_owner, Function.update_noteq e]

/-- Setting a priority moves no process. -/
theorem same_places_set_prio (s : State) (p v : Nat) :
    same_places s (s.set_prio p v) := by
  refine ⟨rfl, rfl, fun _ => rfl, ?_⟩
  intro q
  by_cases e : q = p
  · subst e; simp [State.set_prio]
  · simp [State.set_prio, Function.update_noteq e]

/-- Steps that move no process compose. -/
theorem same_places_trans (s t u : State) (h1 : same_places s t) (h2 : same_places t u) :
    same_places s u := by
  obtain ⟨a1, a2, a3, a4⟩ := h1
  obtain ⟨b1, b2, b3, b4⟩ := h2
  exact ⟨b1.trans a1, b2.trans a2, fun r => (b3 r).trans (a3 r), fun p => (b4 p).trans (a4 p)⟩

/-- The blocking tail shared by the three `acquire` functions. -/
theorem blocked_on_tail (s s1 : State) (r c : Nat) (h : same_places s s1) :
    blocked_on s ((s1.set_status c ProcessStatus.PROCESS_WAIT).wait_add_tail r c) r c := by
  obtain ⟨a1, a2, a3, a4⟩ := h
  refine ⟨a1, a2, ?_, ?_, ?_, ?_⟩
  · simp [State.wait_add_tail, State.set_status, a3]
  · intro r' e
    simp [State.wait_add_tail, State.set_status, Function.update_noteq e, a3]
  · simp [State.wait_add_tail, State.set_status]
  · intro p e
    simp [State.wait_add_tail, State.set_status, Function.update_noteq e, a4]

/-- The wake-up tail shared by the three `release` functions, for the waiter
`w` that the function chose. -/
theorem release_shape_tail (s s1 : State) (r w : Nat) (h : same_places s s1)
    (hw : w ∈ (s1.resources r).waitqueue) :
    release_shape s r
      (if (s1.procs w).status ≠ ProcessStatus.PROCESS_WAIT then
        Except.error (Halt.assert_waiter, s1)
      else
        Except.ok (((s1.wait_del r w).set_status w
          ProcessStatus.PROCESS_READY).ready_add_tail w)) := by
  obtain ⟨a1, a2, a3, a4⟩ := h
  by_cases hst : (s1.procs w).status ≠ ProcessStatus.PROCESS_WAIT
  · rw [if_pos hst]
    refine Or.inr ⟨s1, rfl, ⟨a1, a2, a3, a4⟩, w, ?_, ?_⟩
    · rw [← a3]; exact hw
    · rw [← a4]; exact hst
  · rw [if_neg hst]
    refine Or.inl ⟨_, rfl, Or.inr ⟨w, ?_, ?_, a2, ?_, ?_, ?_, ?_⟩⟩
    · rw [← a3]; exact hw
    · simp [State.ready_add_tail, State.set_status, State.wait_del, a1]
    · simp [State.ready_add_tail, State.set_status, State.wait_del, a3]
    · intro r' e
      simp [State.ready_add_tail, State.set_status, State.wait_del,
        Function.update_noteq e, a3]
    · simp [State.ready_add_tail, State.set_status, State.wait_del]
    · intro p e
      simp [State.ready_add_tail, State.set_status, State.wait_del,
        Function.update_noteq e, a4]

/-- Function `fcfs_acquire` by the current process returns and moves at most that process. -/
theorem fcfs_acquire_shape (s : State) (r c : Nat) (hcur : s.current = some c) :
    acquire_shape s r c (fcfs_acquire s r) := by
  unfold fcfs_acquire
  cases ho : (s.resources r).owner with
  | none => exact ⟨true, _, rfl, Or.inl (same_places_set_owner s r _)⟩
  | some o =>
    simp only [hcur]
    exact ⟨false, _, rfl, Or.inr (blocked_on_tail s s r c ⟨rfl, rfl, fun _ => rfl, fun _ => rfl⟩)⟩

/-- Function `pcp_acquire` by the current process returns and moves at most that process. -/
theorem pcp_acquire_shape (M : Nat) (s : State) (r c : Nat) (hcur : s.current = some c) :
    acquire_shape s r c (pcp_acquire M s r) := by
  unfold pcp_acquire
  cases ho : (s.resources r).owner with
  | none =>
    have h1 : (s.set_owner r s.current).current = some c := hcur
    simp only [h1]
    exact ⟨true, _, rfl, Or.inl (same_places_trans _ _ _ (same_places_set_owner s r _)
      (same_places_set_prio _ c M))⟩
  | some o =>
    simp only [hcur]
    exact ⟨false, _, rfl, Or.inr (blocked_on_tail s s r c ⟨rfl, rfl, fun _ => rfl, fun _ => rfl⟩)⟩

/-- Function `pip_acquire` by the current process returns and moves at most that process. -/
theorem pip_acquire_shape (s : State) (r c : Nat) (hcur : s.current = some c) :
    acquire_shape s r c (pip_acquire s r) := by
  unfold pip_acquire
  cases ho : (s.resources r).owner with
  | none => exact ⟨true, _, rfl, Or.inl (same_places_set_owner s r _)⟩
  | some o =>
    simp only [hcur]
    by_cases hp : (s.procs o).prio < (s.procs c).prio
    · rw [if_pos hp]
      exact ⟨false, _, rfl, Or.inr (blocked_on_tail s _ r c (same_places_set_prio s o _))⟩
    · rw [if_neg hp]
      exact ⟨false, _, rfl,
        Or.inr (blocked_on_tail s s r c ⟨rfl, rfl, fun _ => rfl, fun _ => rfl⟩)⟩

/-- Function `fcfs_release` of a resource whose owner is `current` returns after waking
at most one waiter, or stops at the waiter assertion. -/
theorem fcfs_release_shape (s : State) (r : Nat)
    (hown : (s.resources r).owner = s.current) : release_shape s r (fcfs_release s r) := by
  have hsp := same_places_set_owner s r none
  unfold fcfs_release
  rw [if_neg (by rw [hown]; simp)]
  dsimp only
  cases hwq : ((s.set_owner r none).resources r).waitqueue with
  | nil => exact Or.inl ⟨_, rfl, Or.inl hsp⟩
  | cons w ws =>
    exact release_shape_tail s (s.set_owner r none) r w hsp (by rw [hwq]; simp)

/-- Function `pcp_release` by the owning current process returns after waking at most
one waiter, or stops at the waiter assertion. -/
theorem pcp_release_shape (s : State) (r c : Nat) (hcur : s.current = some c)
    (hown : (s.resources r).owner = some c) : release_shape s r (pcp_release s r) := by
  have hsp := same_places_trans _ _ _ (same_places_set_prio s c (s.procs c).prio_orig)
    (same_places_set_owner _ r none)
  unfold pcp_release
  rw [if_neg (by rw [hown, hcur]; simp)]
  simp only [hown]
  cases hwq : (((s.set_prio c (s.procs c).prio_orig).set_owner r none).resources r).waitqueue with
  | nil => exact Or.inl ⟨_, rfl, Or.inl hsp⟩
  | cons w ws =>
    exact release_shape_tail s _ r w hsp (by rw [hwq]; simp)

/-- Function `pip_release` by the owning current process returns after waking at most
one waiter, or stops at the waiter assertion. -/
theorem pip_release_shape (s : State) (r c : Nat) (hcur : s.current = some c)
    (hown : (s.resources r).owner = some c) : release_shape s r (pip_release s r) := by
  have hsp := same_places_trans _ _ _ (same_places_set_prio s c (s.procs c).prio_orig)
    (same_places_set_owner _ r none)
  unfold pip_release
  rw [if_neg (by rw [hown, hcur]; simp)]
  simp only [hown, hcur]
  cases hwq : (((s.set_prio c (s.procs c).prio_orig).set_owner r none).resources r).waitqueue with
  | nil => exact Or.inl ⟨_, rfl, Or.inl hsp⟩
  | cons w ws =>
    exact release_shape_tail s _ r _ hsp (by rw [hwq]; exact pick_mem_cons _ w ws)

/-- The wait queues of the sample state: only resource 0 has waiters, 3 and 4. -/
theorem demo_waitqueue (r p : Nat) :
    p ∈ (demo.resources r).waitqueue ↔ r = 0 ∧ (p = 3 ∨ p = 4) := by
  match r with
  | 0 => simp [demo, demo_resources]
  | 1 => simp [demo, demo_resources]
  | n + 2 => simp [demo, demo_resources]

/-- The sample state satisfies the partition invariant. -/
theorem demo_partition : partition_inv demo := by
  refine ⟨⟨by decide, ?_, ?_, ?_⟩, ?_⟩
  · intro r
    match r with
    | 0 => decide
    | 1 => decide
    | n + 2 => simp [demo, demo_resources]
  · intro r p hp
    rcases (demo_waitqueue r p).1 hp with ⟨_, rfl | rfl⟩ <;> decide
  · intro r1 r2 p h1 h2
    rw [((demo_waitqueue r1 p).1 h1).1, ((demo_waitqueue r2 p).1 h2).1]
  · rintro p ⟨h1, _⟩
    have e : 0 = p := Option.some.inj h1
    subst e
    refine ⟨by decide, ?_⟩
    rintro ⟨r, hr⟩
    rcases (demo_waitqueue r 0).1 hr with ⟨_, h | h⟩ <;> cases h

/-- C1: from a state in which every live process is in exactly one of running
(current and not WAITING), the ready queue, one wait queue, and occurs there
once, each hook step leads to such a state and every live unfinished process is
still live afterwards (with no new live process): `schedule()` of each of the
seven policies followed by the driver making the returned process current; an
acquire, failed or successful, of each variant by the running process, which
always returns; and a release of each variant by the running owner, which
returns whenever the waiters of the resource are WAITING and otherwise stops at
the waiter assertion in a state that is still partitioned. -/
theorem partition_invariant_preserved (M : Nat) (s : State) (H : partition_inv s) :
    (∀ sched ∈ [fifo_schedule, sjf_schedule, srtf_schedule, rr_schedule, prio_schedule,
        pcp_schedule, pip_schedule],
      partition_inv (dispatch (sched s)) ∧ conserved s (dispatch (sched s))) ∧
    (∀ acq ∈ [fcfs_acquire, pcp_acquire M, pip_acquire], ∀ r c, running s c →
      ∃ b t, acq s r = Except.ok (b, t) ∧ partition_inv t ∧ conserved s t) ∧
    (∀ rel ∈ [fcfs_release, pcp_release, pip_release], ∀ r c, running s c →
      (s.resources r).owner = some c →
      partition_inv (final_state id (rel s r)) ∧ conserved s (final_state id (rel s r)) ∧
      ((∀ w ∈ (s.resources r).waitqueue, (s.procs w).status = ProcessStatus.PROCESS_WAIT) →
        ∃ t, rel s r = Except.ok t)) := by
  refine ⟨?_, ?_, ?_⟩
  · intro sched hs
    simp only [List.mem_cons, List.mem_singleton, List.not_mem_nil, or_false] at hs
    rcases hs with rfl | rfl | rfl | rfl | rfl | rfl | rfl
    · exact partition_dispatch s _ H (fifo_schedule_shape s)
    · exact partition_dispatch s _ H (sjf_schedule_shape s)
    · exact partition_dispatch s _ H (srtf_schedule_shape s)
    · exact partition_dispatch s _ H (rr_schedule_shape s)
    · exact partition_dispatch s _ H (prio_schedule_shape s)
    · exact partition_dispatch s _ H (pcp_schedule_shape s)
    · exact partition_dispatch s _ H (pip_schedule_shape s)
  · intro acq ha r c hc
    have key : acquire_shape s r c (acq s r) := by
      simp only [List.mem_cons, List.mem_singleton, List.not_mem_nil, or_false] at ha
      rcases ha with rfl | rfl | rfl
      · exact fcfs_acquire_shape s r c hc.1
      · exact pcp_acquire_shape M s r c hc.1
      · exact pip_acquire_shape s r c hc.1
    obtain ⟨b, t, hres, hsh⟩ := key
    refine ⟨b, t, hres, ?_⟩
    rcases hsh with h | h
    · exact partition_same_places s t H h
    · exact partition_blocked_on s t r c H hc h
  · intro rel hr r c hc hown
    have key : release_shape s r (rel s r) := by
      simp only [List.mem_cons, List.mem_singleton, List.not_mem_nil, or_false] at hr
      rcases hr with rfl | rfl | rfl
      · exact fcfs_release_shape s r (hown.trans hc.1.symm)
      · exact pcp_release_shape s r c hc.1 hown
      · exact pip_release_shape s r c hc.1 hown
    rcases key with ⟨t, hres, hsh⟩ | ⟨t, hres, hsp, w, hw, hst⟩
    · rw [hres]
      have hfin : partition_inv t ∧ conserved s t := by
        rcases hsh with h | ⟨w, h⟩
        · exact partition_same_places s t H h
        · exact partition_woken_from s t r w c H hc h
      exact ⟨hfin.1, hfin.2, fun _ => ⟨t, rfl⟩⟩
    · rw [hres]
      have hfin := partition_same_places s t H hsp
      exact ⟨hfin.1, hfin.2, fun hall => absurd (hall w hw) hst⟩

/-- C1 at the sample state (process 0 running and owning resource 0, ready
queue 1, 2, waiters 3, 4): after an SRTF tick, after a failed acquire of
resource 1 and after releasing resource 0 the state is still partitioned. -/
theorem partition_invariant_preserved_witness :
    partition_inv demo ∧
    partition_inv (dispatch (srtf_schedule demo)) ∧
    (∃ b t, fcfs_acquire demo 1 = Except.ok (b, t) ∧ partition_inv t) ∧
    (∃ t, pip_release demo 0 = Except.ok t ∧ partition_inv t) := by
  have h := partition_invariant_preserved 64 demo demo_partition
  refine ⟨demo_partition, (h.1 srtf_schedule (by simp)).1, ?_, ?_⟩
  · obtain ⟨b, t, h1, h2, _⟩ := h.2.1 fcfs_acquire (by simp) 1 0 ⟨rfl, by decide⟩
    exact ⟨b, t, h1, h2⟩
  · obtain ⟨h1, _, h3⟩ := h.2.2 pip_release (by simp) 0 0 ⟨rfl, by decide⟩ rfl
    obtain ⟨t, ht⟩ := h3 (by
      intro w hw
      rcases (demo_waitqueue 0 w).1 hw with ⟨_, rfl | rfl⟩ <;> rfl)
    rw [ht] at h1
    exact ⟨t, ht, h1⟩

/-! ## The ownership assertion of `release` -/

/-- With no current process and no owner, `pcp_release` and `pip_release`
dereference `NULL` right after the ownership assertion. -/
theorem release_null_owner (s : State) (r : Nat) (hcur : s.current = none)
    (hown : (s.resources r).owner = none) :
    pcp_release s r = Except.error (Halt.null_deref, s) ∧
    pip_release s r = Except.error (Halt.null_deref, s) := by
  constructor
  · simp [pcp_release, hcur, hown]
  · simp [pip_release, hcur, hown]

/-- When the ownership assertion holds, a `release` function returns, or stops
at the waiter assertion on a waiter that is not WAITING, or dereferences
`NULL`. -/
theorem release_owner_cases (s : State) (r : Nat)
    (hown : (s.resources r).owner = s.current)
    (rel : State → Nat → Except (Halt × State) State)
    (hrel : rel ∈ [fcfs_release, pcp_release, pip_release]) :
    release_shape s r (rel s r) ∨ rel s r = Except.error (Halt.null_deref, s) := by
  simp only [List.mem_cons, List.mem_singleton, List.not_mem_nil, or_false] at hrel
  rcases hrel with rfl | rfl | rfl
  · exact Or.inl (fcfs_release_shape s r hown)
  · cases hc : s.current with
    | none => exact Or.inr (release_null_owner s r hc (hown.trans hc)).1
    | some c => exact Or.inl (pcp_release_shape s r c hc (hown.trans hc))
  · cases hc : s.current with
    | none => exact Or.inr (release_null_owner s r hc (hown.trans hc)).2
    | some c => exact Or.inl (pip_release_shape s r c hc (hown.trans hc))

/-- C5: for each of `fcfs_release`, `pcp_release` and `pip_release`, the call
stops at the assertion `r->owner == current` exactly when the owner of the
resource is not the current process, and it stops there with the state
unmodified (no owner, priority, status, wait queue or ready queue has changed).
The only other assertion, on the status of the woken waiter, holds whenever the
waiters of the resource are WAITING, so in those states the call aborts if and
only if the owner is not the current process. -/
theorem release_aborts_iff_not_owner (s : State) (r : Nat) :
    ∀ rel ∈ [fcfs_release, pcp_release, pip_release],
      ((∃ t, rel s r = Except.error (Halt.assert_owner, t)) ↔
        (s.resources r).owner ≠ s.current) ∧
      (∀ t, rel s r = Except.error (Halt.assert_owner, t) → t = s) ∧
      ((∀ w ∈ (s.resources r).waitqueue,
          (s.procs w).status = ProcessStatus.PROCESS_WAIT) →
        (aborted (rel s r) ↔ (s.resources r).owner ≠ s.current)) := by
  intro rel hrel
  by_cases hown : (s.resources r).owner = s.current
  · have hcases := release_owner_cases s r hown rel hrel
    have hno : ∀ t, rel s r ≠ Except.error (Halt.assert_owner, t) := by
      intro t ht
      rcases hcases with (⟨u, hu, _⟩ | ⟨u, hu, _⟩) | hu
      · rw [hu] at ht; cases ht
      · rw [hu] at ht; cases ht
      · rw [hu] at ht; cases ht
    refine ⟨⟨fun ⟨t, ht⟩ => absurd ht (hno t), fun h => absurd hown h⟩,
      fun t ht => absurd ht (hno t), ?_⟩
    intro hall
    refine ⟨fun hab => ?_, fun h => absurd hown h⟩
    exfalso
    rcases hcases with (⟨u, hu, _⟩ | ⟨u, hu, _, w, hw, hst⟩) | hu
    · rw [hu] at hab; exact hab
    · exact hst (hall w hw)
    · rw [hu] at hab
      rcases hab with h | h <;> cases h
  · have hres : rel s r = Except.error (Halt.assert_owner, s) := by
      simp only [List.mem_cons, List.mem_singleton, List.not_mem_nil, or_false] at hrel
      rcases hrel with rfl | rfl | rfl
      · simp [fcfs_release, hown]
      · simp [pcp_release, hown]
      · simp [pip_release, hown]
    refine ⟨⟨fun _ => hown, fun _ => ⟨s, hres⟩⟩, ?_, ?_⟩
    · intro t ht
      rw [hres] at ht
      simp only [Except.error.injEq, Prod.mk.injEq, true_and] at ht
      exact ht.symm
    · intro _
      refine ⟨fun _ => hown, fun _ => ?_⟩
      rw [hres]
      exact Or.inl rfl

/-- C5 at the sample state: process 0 is current; resource 1 belongs to process
1, so releasing it aborts with nothing modified, while releasing resource 0,
which process 0 owns, does not abort. -/
theorem release_aborts_iff_not_owner_witness :
    pcp_release demo 1 = Except.error (Halt.assert_owner, demo) ∧
    ¬ aborted (pip_release demo 0) := by
  constructor
  · obtain ⟨t, ht⟩ := ((release_aborts_iff_not_owner demo 1 pcp_release (by simp)).1).2
      (by decide)
    have e := (release_aborts_iff_not_owner demo 1 pcp_release (by simp)).2.1 t ht
    rw [e] at ht
    exact ht
  · intro hab
    have h := ((release_aborts_iff_not_owner demo 0 pip_release (by simp)).2.2 (by
      intro w hw
      rcases (demo_waitqueue 0 w).1 hw with ⟨_, rfl | rfl⟩ <;> rfl)).1 hab
    exact h rfl

/-! ## Priority selection and the preemptive preamble -/

/-- What `prio_schedule` does when there is a candidate: it returns the first
candidate of greatest priority and leaves the others, in order, as the ready
queue. -/
theorem prio_schedule_split (s : State) (hne : candidates s ≠ []) :
    ∃ pre m post, candidates s = pre ++ m :: post ∧
      (prio_schedule s).1 = some m ∧
      (prio_schedule s).2.readyqueue = pre ++ post ∧
      (∀ x ∈ pre, (s.procs x).prio < (s.procs m).prio) ∧
      (∀ x ∈ post, (s.procs x).prio ≤ (s.procs m).prio) := by
  obtain ⟨first, t, hrq⟩ := List.exists_cons_of_ne_nil hne
  obtain ⟨pre, post, hsplit, hpre, hpost⟩ :=
    pick_first (fun m next => decide ((s.procs m).prio < (s.procs next).prio))
      (fun p => OrderDual.toDual (s.procs p).prio) (by intro a b; simp) first t
  unfold prio_schedule
  rw [requeue_current_eq]
  simp only [State.ready_del, hrq]
  generalize list_for_each_pick _ first (first :: t) = m at hsplit hpre hpost ⊢
  have hpre' : ∀ x ∈ pre, (s.procs x).prio < (s.procs m).prio := fun x hx =>
    OrderDual.toDual_lt_toDual.1 (hpre x hx)
  have hpost' : ∀ x ∈ post, (s.procs x).prio ≤ (s.procs m).prio := fun x hx =>
    OrderDual.toDual_le_toDual.1 (hpost x hx)
  have hm : m ∉ pre := fun hin => lt_irrefl _ (hpre' _ hin)
  refine ⟨pre, m, post, hsplit, by trivial, ?_, hpre', hpost'⟩
  show (first :: t).erase m = pre ++ post
  rw [hsplit]
  exact erase_split pre post m hm

/-- C12: when there is a candidate (the ready queue, with the current process
at the tail when it is not WAITING and has `age < lifespan`), `prio_schedule`
returns the candidate `m` of greatest priority, the one nearest the head among
equals (every candidate before `m` has a strictly smaller priority), and the
ready queue afterwards is the candidate list without `m`; nothing else
changes. -/
theorem prio_selects_highest (s : State) (hne : candidates s ≠ []) :
    ∃ pre m post, candidates s = pre ++ m :: post ∧
      (prio_schedule s).1 = some m ∧
      (prio_schedule s).2.readyqueue = pre ++ post ∧
      (∀ x ∈ candidates s, (s.procs x).prio ≤ (s.procs m).prio) ∧
      (∀ x ∈ pre, (s.procs x).prio < (s.procs m).prio) ∧
      (prio_schedule s).2.procs = s.procs ∧ (prio_schedule s).2.current = s.current ∧
      (prio_schedule s).2.resources = s.resources := by
  obtain ⟨pre, m, post, hsplit, hret, hrq, hpre, hpost⟩ := prio_schedule_split s hne
  have hframe : (prio_schedule s).2.procs = s.procs ∧
      (prio_schedule s).2.current = s.current ∧
      (prio_schedule s).2.resources = s.resources := by
    unfold prio_schedule
    rw [requeue_current_eq]
    cases candidates s <;> exact ⟨rfl, rfl, rfl⟩
  refine ⟨pre, m, post, hsplit, hret, hrq, ?_, hpre, hframe⟩
  intro x hx
  rw [hsplit] at hx
  rcases List.mem_append.1 hx with h | h
  · exact le_of_lt (hpre x h)
  · rcases List.mem_cons.1 h with rfl | h
    · exact le_refl _
    · exact hpost x h

/-- C12 at the sample state: candidates 1, 2, 0 with priorities 3, 2, 1;
process 1 is returned and 2, 0 is the ready queue afterwards. -/
theorem prio_selects_highest_witness :
    candidates demo = [1, 2, 0] ∧
    (prio_schedule demo).1 = some 1 ∧ (prio_schedule demo).2.readyqueue = [2, 0] ∧
    ∃ pre m post, candidates demo = pre ++ m :: post ∧
      (prio_schedule demo).1 = some m ∧
      (prio_schedule demo).2.readyqueue = pre ++ post ∧
      (∀ x ∈ candidates demo, (demo.procs x).prio ≤ (demo.procs m).prio) := by
  obtain ⟨pre, m, post, h1, h2, h3, h4, _⟩ := prio_selects_highest demo (by decide)
  exact ⟨by decide, by decide, by decide, pre, m, post, h1, h2, h3, h4⟩

/-- C13: on every state `pcp_schedule` and `pip_schedule` return the same
process and leave the same state, the ready queue in particular, as
`prio_schedule`. -/
theorem pcp_pip_schedule_eq_prio (s : State) :
    pcp_schedule s = prio_schedule s ∧ pip_schedule s = prio_schedule s := by
  constructor
  · unfold pcp_schedule prio_schedule
    rfl
  · unfold pip_schedule prio_schedule
    rfl

/-- The five preemptive policies run the selection step on the candidates. -/
theorem preemptive_pick_step (s : State) :
    ∀ sched ∈ [srtf_schedule, rr_schedule, prio_schedule, pcp_schedule, pip_schedule],
      pick_step { s with readyqueue := candidates s } (sched s) := by
  intro sched hs
  simp only [List.mem_cons, List.mem_singleton, List.not_mem_nil, or_false] at hs
  rcases hs with rfl | rfl | rfl | rfl | rfl
  · unfold srtf_schedule
    rw [requeue_current_eq]
    exact pick_step_scan _ _
  · unfold rr_schedule
    rw [requeue_current_eq]
    exact pick_step_head _
  · unfold prio_schedule
    rw [requeue_current_eq]
    exact pick_step_scan _ _
  · unfold pcp_schedule
    rw [requeue_current_eq]
    exact pick_step_scan _ _
  · unfold pip_schedule
    rw [requeue_current_eq]
    exact pick_step_scan _ _

/-- A selection step on a non-empty ready queue returns an entry and removes
its first occurrence, leaving the rest in order and everything else as it
was. -/
theorem pick_step_split (s1 : State) (res : Option Nat × State) (h : pick_step s1 res)
    (hne : s1.readyqueue ≠ []) :
    ∃ p pre post, res.1 = some p ∧ s1.readyqueue = pre ++ p :: post ∧ p ∉ pre ∧
      res.2.readyqueue = pre ++ post ∧ res.2.procs = s1.procs ∧
      res.2.current = s1.current ∧ res.2.resources = s1.resources := by
  rcases h with ⟨hnil, _⟩ | ⟨x, hx, rfl⟩
  · exact absurd hnil hne
  · obtain ⟨pre, post, hsplit, hnot⟩ := List.eq_append_cons_of_mem hx
    refine ⟨x, pre, post, rfl, hsplit, hnot, ?_, rfl, rfl, rfl⟩
    show s1.readyqueue.erase x = pre ++ post
    rw [hsplit]
    exact erase_split pre post x hnot

/-- C14: for `srtf_schedule`, `rr_schedule`, `prio_schedule`, `pcp_schedule` and
`pip_schedule`, when the current process `c` is not WAITING and has
`age < lifespan`, the returned process `p` is an entry of
`C = readyqueue ++ [c]` and the new ready queue is `C` without that entry of
`p`, the other entries in their order; the returned process together with the
new ready queue is a rearrangement of `C`, so nothing is lost or duplicated. -/
theorem preemptive_preamble_conserves (s : State) (c : Nat) (hcur : s.current = some c)
    (hst : (s.procs c).status ≠ ProcessStatus.PROCESS_WAIT)
    (hage : (s.procs c).age < (s.procs c).lifespan) :
    ∀ sched ∈ [srtf_schedule, rr_schedule, prio_schedule, pcp_schedule, pip_schedule],
      ∃ p pre post, (sched s).1 = some p ∧
        s.readyqueue ++ [c] = pre ++ p :: post ∧ p ∉ pre ∧
        (sched s).2.readyqueue = pre ++ post ∧
        (p :: (sched s).2.readyqueue).Perm (s.readyqueue ++ [c]) := by
  intro sched hs
  have hcand : candidates s = s.readyqueue ++ [c] := by
    simp [candidates, hcur, hst, hage]
  obtain ⟨p, pre, post, hret, hsplit, hnot, hrq, _⟩ :=
    pick_step_split _ _ (preemptive_pick_step s sched hs) (by
      show candidates s ≠ []
      rw [hcand]; simp)
  have hsplit' : s.readyqueue ++ [c] = pre ++ p :: post := by
    rw [← hcand]; exact hsplit
  refine ⟨p, pre, post, hret, hsplit', hnot, hrq, ?_⟩
  rw [hrq, hsplit']
  exact List.perm_middle.symm

/-- C14 at the sample state: `C` is 1, 2, 0; Round-Robin takes 1, SRTF takes 2,
Priority takes 1, and the rest of `C` stays in order. -/
theorem preemptive_preamble_conserves_witness :
    (rr_schedule demo).1 = some 1 ∧ (rr_schedule demo).2.readyqueue = [2, 0] ∧
    (srtf_schedule demo).1 = some 2 ∧ (srtf_schedule demo).2.readyqueue = [1, 0] ∧
    (pip_schedule demo).1 = some 1 ∧ (pip_schedule demo).2.readyqueue = [2, 0] ∧
    ∃ p pre post, (pcp_schedule demo).1 = some p ∧
      demo.readyqueue ++ [0] = pre ++ p :: post ∧ p ∉ pre ∧
      (pcp_schedule demo).2.readyqueue = pre ++ post ∧
      (p :: (pcp_schedule demo).2.readyqueue).Perm (demo.readyqueue ++ [0]) :=
  ⟨by decide, by decide, by decide, by decide, by decide, by decide,
    preemptive_preamble_conserves demo 0 rfl (by decide) (by decide) pcp_schedule (by simp)⟩

/-- There is no candidate exactly when the ready queue is empty and the
current process is not retained. -/
theorem candidates_eq_nil_iff (s : State) :
    candidates s = [] ↔ s.readyqueue = [] ∧ not_retained s := by
  constructor
  · intro h
    have hnone : ∀ p, p ∉ candidates s := by
      intro p hp
      rw [h] at hp
      cases hp
    refine ⟨List.eq_nil_iff_forall_not_mem.2 fun p hp =>
      hnone p ((mem_candidates s p).2 (Or.inl hp)), ?_⟩
    rcases retained_or_not s with ⟨c, hc, hu⟩ | hn
    · exact absurd ((mem_candidates s c).2 (Or.inr ⟨hc, hu⟩)) (hnone c)
    · exact hn
  · rintro ⟨hrq, hn⟩
    rw [candidates_of_not_retained s hn, hrq]

/-- When a `schedule()` call returns no process: there was no candidate and
the state is unchanged; a running unfinished process facing an empty ready
queue is returned. -/
theorem idle_of_shape (s : State) (res : Option Nat × State) (h : schedule_shape s res) :
    (res.1 = none ↔ candidates s = []) ∧ (res.1 = none → res.2 = s) ∧
    (∀ c, running s c → unfinished s c → s.readyqueue = [] → res.1 = some c) := by
  rcases h with ⟨c, hc, hu, rfl⟩ | ⟨hnil, rfl⟩ | ⟨x, hx, rfl⟩
  · have hm : c ∈ candidates s := (mem_candidates s c).2 (Or.inr ⟨hc, hu⟩)
    refine ⟨⟨fun h => (by cases h), fun h => ?_⟩, fun h => (by cases h), ?_⟩
    · rw [h] at hm
      cases hm
    · intro c' hc' _ _
      have e : c' = c := Option.some.inj (hc'.1.symm.trans hc.1)
      rw [e]
  · have hcand : candidates s = [] := hnil
    refine ⟨⟨fun _ => hcand, fun _ => rfl⟩, fun _ => ?_, ?_⟩
    · have hrq := ((candidates_eq_nil_iff s).1 hcand).1
      obtain ⟨procs, cur, rq, res⟩ := s
      simp only at hrq
      subst hrq
      simp [hcand]
    · intro c hc hu _
      have hm : c ∈ candidates s := (mem_candidates s c).2 (Or.inr ⟨hc, hu⟩)
      rw [hcand] at hm
      cases hm
  · have hxc : x ∈ candidates s := hx
    refine ⟨⟨fun h => (by cases h), fun h => ?_⟩, fun h => (by cases h), ?_⟩
    · rw [h] at hxc
      cases hxc
    · intro c hc hu hrq
      rcases (mem_candidates s x).1 hxc with h | ⟨h, _⟩
      · rw [hrq] at h
        cases h
      · have e : x = c := Option.some.inj (h.1.symm.trans hc.1)
        rw [e]

/-- C15: each of the seven schedule functions returns no process exactly when
the ready queue is empty and the current process is absent, WAITING or has
`age >= lifespan`; then the state is unchanged and the ready queue is empty. A
current process that is not WAITING and has `age < lifespan` is itself returned
when the ready queue is empty. -/
theorem schedule_idle_iff (s : State) :
    ∀ sched ∈ [fifo_schedule, sjf_schedule, srtf_schedule, rr_schedule, prio_schedule,
        pcp_schedule, pip_schedule],
      ((sched s).1 = none ↔ s.readyqueue = [] ∧ not_retained s) ∧
      ((sched s).1 = none → (sched s).2 = s ∧ (sched s).2.readyqueue = []) ∧
      (∀ c, running s c → unfinished s c → s.readyqueue = [] → (sched s).1 = some c) := by
  intro sched hs
  have hshape : schedule_shape s (sched s) := by
    simp only [List.mem_cons, List.mem_singleton, List.not_mem_nil, or_false] at hs
    rcases hs with rfl | rfl | rfl | rfl | rfl | rfl | rfl
    · exact fifo_schedule_shape s
    · exact sjf_schedule_shape s
    · exact srtf_schedule_shape s
    · exact rr_schedule_shape s
    · exact prio_schedule_shape s
    · exact pcp_schedule_shape s
    · exact pip_schedule_shape s
  obtain ⟨h1, h2, h3⟩ := idle_of_shape s (sched s) hshape
  refine ⟨h1.trans (candidates_eq_nil_iff s), fun hn => ?_, h3⟩
  have e := h2 hn
  refine ⟨e, ?_⟩
  rw [e]
  exact ((candidates_eq_nil_iff s).1 (h1.1 hn)).1

/-- C15 at the sample states: with an empty ready queue and no current process
nothing is returned; with process 0 running and unfinished it is returned. -/
theorem schedule_idle_iff_witness :
    (rr_schedule demo_empty).1 = none ∧ (sjf_schedule demo_empty).1 = none ∧
    (fifo_schedule demo_alone).1 = some 0 ∧ (prio_schedule demo_alone).1 = some 0 :=
  ⟨((schedule_idle_iff demo_empty rr_schedule (by simp)).1).2
      ⟨rfl, fun c hc => by cases hc⟩,
    ((schedule_idle_iff demo_empty sjf_schedule (by simp)).1).2
      ⟨rfl, fun c hc => by cases hc⟩,
    (schedule_idle_iff demo_alone fifo_schedule (by simp)).2.2 0
      ⟨rfl, by decide⟩ (by unfold unfinished; decide) rfl,
    (schedule_idle_iff demo_alone prio_schedule (by simp)).2.2 0
      ⟨rfl, by decide⟩ (by unfold unfinished; decide) rfl⟩

/-! ## The priority ceiling protocol -/

/-- C16: when the current process `c` calls `pcp_acquire(r)`, the call returns
what `fcfs_acquire(r)` returns and leaves the same owners, wait queues, ready
queue and statuses.  When `r` was free the priority of `c` is set to `MAX_PRIO`
(here `M`) whatever it was, and nothing else about any process changes; when
`r` was taken the resulting state is that of `fcfs_acquire(r)` and no priority
changes. -/
theorem pcp_acquire_is_fcfs_plus_ceiling (M : Nat) (s : State) (r c : Nat)
    (hcur : s.current = some c) :
    ∃ b t1 t2, fcfs_acquire s r = Except.ok (b, t1) ∧
      pcp_acquire M s r = Except.ok (b, t2) ∧
      (b = true ↔ (s.resources r).owner = none) ∧
      t2.resources = t1.resources ∧ t2.readyqueue = t1.readyqueue ∧
      t2.current = t1.current ∧
      (∀ p, (t2.procs p).status = (t1.procs p).status) ∧
      ((s.resources r).owner = none →
        t2.procs c = { s.procs c with prio := M } ∧ ∀ p, p ≠ c → t2.procs p = s.procs p) ∧
      ((s.resources r).owner ≠ none →
        t2 = t1 ∧ ∀ p, (t2.procs p).prio = (s.procs p).prio) := by
  cases ho : (s.resources r).owner with
  | none =>
    refine ⟨true, s.set_owner r s.current, (s.set_owner r s.current).set_prio c M,
      by simp [fcfs_acquire, ho], ?_, by simp, rfl, rfl, rfl, ?_, ?_, by simp⟩
    · have h1 : (s.set_owner r s.current).current = some c := hcur
      simp [pcp_acquire, ho, h1]
    · exact (same_places_set_prio (s.set_owner r s.current) c M).2.2.2
    · intro _
      refine ⟨by simp [State.set_prio, State.set_owner], ?_⟩
      intro p hp
      simp [State.set_prio, State.set_owner, Function.update_noteq hp]
  | some o =>
    refine ⟨false, (s.set_status c ProcessStatus.PROCESS_WAIT).wait_add_tail r c,
      (s.set_status c ProcessStatus.PROCESS_WAIT).wait_add_tail r c,
      by simp [fcfs_acquire, ho, hcur], by simp [pcp_acquire, ho, hcur], by simp,
      rfl, rfl, rfl, fun _ => rfl, by simp, ?_⟩
    intro _
    refine ⟨rfl, ?_⟩
    intro p
    by_cases hp : p = c
    · subst hp
      simp [State.wait_add_tail, State.set_status]
    · simp [State.wait_add_tail, State.set_status, Function.update_noteq hp]

/-- C16 at the sample state: resource 2 is free, so both calls succeed and
`pcp_acquire` raises the priority of process 0 from 1 to 64; resource 1 is
taken, so both calls fail and the priority stays 1. -/
theorem pcp_acquire_is_fcfs_plus_ceiling_witness :
    ((final_state Prod.snd (pcp_acquire 64 demo 2)).procs 0).prio = 64 ∧
    ((final_state Prod.snd (fcfs_acquire demo 2)).procs 0).prio = 1 ∧
    ((final_state Prod.snd (pcp_acquire 64 demo 1)).procs 0).prio = 1 ∧
    ∃ b t1 t2, fcfs_acquire demo 2 = Except.ok (b, t1) ∧
      pcp_acquire 64 demo 2 = Except.ok (b, t2) ∧ (b = true ↔ (demo.resources 2).owner = none) ∧
      t2.resources = t1.resources ∧ t2.readyqueue = t1.readyqueue := by
  obtain ⟨b, t1, t2, h1, h2, h3, h4, h5, _⟩ :=
    pcp_acquire_is_fcfs_plus_ceiling 64 demo 2 0 rfl
  exact ⟨by decide, by decide, by decide, b, t1, t2, h1, h2, h3, h4, h5⟩

/-- Restoring a priority and setting a status can be done in either order. -/
theorem set_prio_set_status_comm (s : State) (c v w : Nat) (st : ProcessStatus) :
    (s.set_status w st).set_prio c v = (s.set_prio c v).set_status w st := by
  obtain ⟨procs, cur, rq, res⟩ := s
  simp only [State.set_status, State.set_prio, State.mk.injEq, and_true, true_and]
  funext p
  by_cases hw : w = c
  · subst hw
    by_cases hp : p = w
    · subst hp; simp
    · simp [Function.update_noteq hp]
  · by_cases hp : p = c
    · subst hp
      simp [Function.update_noteq (Ne.symm hw), Function.update_noteq hw]
    · by_cases hp2 : p = w
      · subst hp2
        simp [Function.update_noteq hw, Function.update_noteq hp]
      · simp [Function.update_noteq hp, Function.update_noteq hp2]

/-- Function `set_prio` leaves every status as it was. -/
theorem set_prio_status (s : State) (c v p : Nat) :
    ((s.set_prio c v).procs p).status = (s.procs p).status :=
  (same_places_set_prio s c v).2.2.2 p

/-- With the current process `c` owning `r`, `fcfs_release(r)` ends in one of
three ways, the result state given in full. -/
theorem fcfs_release_cases (s : State) (r c : Nat) (hcur : s.current = some c)
    (hown : (s.resources r).owner = some c) :
    ((s.resources r).waitqueue = [] ∧ fcfs_release s r = Except.ok (s.set_owner r none)) ∨
    (∃ w ws, (s.resources r).waitqueue = w :: ws ∧
      (s.procs w).status ≠ ProcessStatus.PROCESS_WAIT ∧
      fcfs_release s r = Except.error (Halt.assert_waiter, s.set_owner r none)) ∨
    (∃ w ws, (s.resources r).waitqueue = w :: ws ∧
      (s.procs w).status = ProcessStatus.PROCESS_WAIT ∧
      fcfs_release s r = Except.ok ((((s.set_owner r none).wait_del r w).set_status w
        ProcessStatus.PROCESS_READY).ready_add_tail w)) := by
  have hwq : ((s.set_owner r none).resources r).waitqueue = (s.resources r).waitqueue := by
    simp [State.set_owner]
  have hif : ¬ (s.resources r).owner ≠ s.current := by rw [hown, hcur]; simp
  cases hq : (s.resources r).waitqueue with
  | nil =>
    left
    refine ⟨rfl, ?_⟩
    unfold fcfs_release
    rw [if_neg hif]
    dsimp only
    rw [hwq, hq]
  | cons w ws =>
    right
    have hst : ((s.set_owner r none).procs w).status = (s.procs w).status := rfl
    by_cases hw : (s.procs w).status = ProcessStatus.PROCESS_WAIT
    · right
      refine ⟨w, ws, rfl, hw, ?_⟩
      unfold fcfs_release
      rw [if_neg hif]
      dsimp only
      rw [hwq, hq]
      dsimp only
      rw [if_neg (by rw [hst, hw]; simp)]
    · left
      refine ⟨w, ws, rfl, hw, ?_⟩
      unfold fcfs_release
      rw [if_neg hif]
      dsimp only
      rw [hwq, hq]
      dsimp only
      rw [if_pos (by rw [hst]; exact hw)]

/-- Function `pcp_release` by the owning current process is `fcfs_release` run
after the priority of the owner has been restored. -/
theorem pcp_release_eq_fcfs_after_restore (s : State) (r c : Nat)
    (hcur : s.current = some c) (hown : (s.resources r).owner = some c) :
    pcp_release s r = fcfs_release (s.set_prio c (s.procs c).prio_orig) r := by
  have hif : ¬ (s.resources r).owner ≠ s.current := by rw [hown, hcur]; simp
  have hif' : ¬ ((s.set_prio c (s.procs c).prio_orig).resources r).owner
      ≠ (s.set_prio c (s.procs c).prio_orig).current := hif
  unfold pcp_release fcfs_release
  rw [if_neg hif, if_neg hif']
  simp only [hown]

/-- A process keeps its priority through the wake-up tail of a release. -/
theorem wake_keeps_prio (s : State) (r w p : Nat) :
    (((((s.set_owner r none).wait_del r w).set_status w
      ProcessStatus.PROCESS_READY).ready_add_tail w).procs p).prio = (s.procs p).prio := by
  by_cases hp : p = w
  · subst hp
    simp [State.ready_add_tail, State.set_status, State.wait_del, State.set_owner]
  · simp [State.ready_add_tail, State.set_status, State.wait_del, State.set_owner,
      Function.update_noteq hp]

/-- C17: when the current process `c` owns `r`, `pcp_release(r)` is
`fcfs_release(r)` run after the priority of `c` has been set to its
`prio_orig`.  Whenever `fcfs_release(r)` returns on the same state so does
`pcp_release(r)`, and conversely, and the two resulting states have the same
owners, wait queues, ready queue, current process and statuses (owner cleared,
earliest waiter READY at the ready-queue tail); in the state left by
`pcp_release` the priority of `c` is its `prio_orig` and every other process
has the priority it had. -/
theorem pcp_release_restores_then_fcfs (s : State) (r c : Nat)
    (hcur : s.current = some c) (hown : (s.resources r).owner = some c) :
    pcp_release s r = fcfs_release (s.set_prio c (s.procs c).prio_orig) r ∧
    (∀ t0, fcfs_release s r = Except.ok t0 →
      pcp_release s r = Except.ok (t0.set_prio c (s.procs c).prio_orig)) ∧
    (∀ t, pcp_release s r = Except.ok t →
      ∃ t0, fcfs_release s r = Except.ok t0 ∧
        t.resources = t0.resources ∧ t.readyqueue = t0.readyqueue ∧
        t.current = t0.current ∧
        (∀ p, (t.procs p).status = (t0.procs p).status) ∧
        (t.procs c).prio = (s.procs c).prio_orig ∧
        (∀ p, p ≠ c → (t.procs p).prio = (s.procs p).prio)) := by
  have heq := pcp_release_eq_fcfs_after_restore s r c hcur hown
  have hcases0 := fcfs_release_cases (s.set_prio c (s.procs c).prio_orig) r c hcur hown
  have hwq0 : ((s.set_prio c (s.procs c).prio_orig).resources r).waitqueue
      = (s.resources r).waitqueue := rfl
  have hst0 : ∀ w, ((s.set_prio c (s.procs c).prio_orig).procs w).status
      = (s.procs w).status := fun w => set_prio_status s c _ w
  -- the outcome of `pcp_release`, from the outcome of `fcfs_release`
  have hfwd : ∀ t0, fcfs_release s r = Except.ok t0 →
      pcp_release s r = Except.ok (t0.set_prio c (s.procs c).prio_orig) ∧
      ∀ p, (t0.procs p).prio = (s.procs p).prio := by
    intro t0 ht0
    rw [heq]
    rcases fcfs_release_cases s r c hcur hown with ⟨hq, hres⟩ | ⟨w, ws, hq, hw, hres⟩ |
      ⟨w, ws, hq, hw, hres⟩
    · rw [hres] at ht0
      have e : s.set_owner r none = t0 := by simpa using ht0
      subst e
      rcases hcases0 with ⟨_, hres0⟩ | ⟨w, ws, hq0, _, _⟩ | ⟨w, ws, hq0, _, _⟩
      · exact ⟨hres0, fun _ => rfl⟩
      · rw [hwq0, hq] at hq0; cases hq0
      · rw [hwq0, hq] at hq0; cases hq0
    · rw [hres] at ht0
      cases ht0
    · rw [hres] at ht0
      have e : (((s.set_owner r none).wait_del r w).set_status w
          ProcessStatus.PROCESS_READY).ready_add_tail w = t0 := by simpa using ht0
      subst e
      rcases hcases0 with ⟨hq0, _⟩ | ⟨w', ws', hq0, hw0, _⟩ | ⟨w', ws', hq0, _, hres0⟩
      · rw [hwq0, hq] at hq0; cases hq0
      · rw [hwq0, hq] at hq0
        have e : w = w' := by simpa using (List.cons.inj hq0).1
        subst e
        rw [hst0] at hw0
        exact absurd hw hw0
      · rw [hwq0, hq] at hq0
        have e : w = w' := by simpa using (List.cons.inj hq0).1
        subst e
        refine ⟨?_, fun p => wake_keeps_prio s r w p⟩
        rw [hres0]
        have hcomm := set_prio_set_status_comm ((s.set_owner r none).wait_del r w) c
          (s.procs c).prio_orig w ProcessStatus.PROCESS_READY
        exact congrArg (fun x => Except.ok (State.ready_add_tail x w)) hcomm.symm
  refine ⟨heq, fun t0 h => (hfwd t0 h).1, ?_⟩
  intro t ht
  have hok : ∃ t0, fcfs_release s r = Except.ok t0 := by
    rcases fcfs_release_cases s r c hcur hown with ⟨_, hres⟩ | ⟨w, ws, hq, hw, _⟩ |
      ⟨_, _, _, _, hres⟩
    · exact ⟨_, hres⟩
    · exfalso
      rw [heq] at ht
      rcases hcases0 with ⟨hq0, _⟩ | ⟨w', ws', _, _, hres0⟩ | ⟨w', ws', hq0, hw0, _⟩
      · rw [hwq0, hq] at hq0; cases hq0
      · rw [hres0] at ht; cases ht
      · rw [hwq0, hq] at hq0
        have e : w = w' := by simpa using (List.cons.inj hq0).1
        subst e
        rw [hst0] at hw0
        exact hw hw0
    · exact ⟨_, hres⟩
  obtain ⟨t0, ht0⟩ := hok
  obtain ⟨hpcp, hprio⟩ := hfwd t0 ht0
  rw [hpcp] at ht
  have e : t0.set_prio c (s.procs c).prio_orig = t := by simpa using ht
  subst e
  refine ⟨t0, ht0, rfl, rfl, rfl, fun p => set_prio_status t0 c _ p, ?_, ?_⟩
  · simp [State.set_prio]
  · intro p hp
    rw [← hprio p]
    simp [State.set_prio, Function.update_noteq hp]

/-- C17 at the sample state, where process 0 (priority 1) owns resource 0 with
waiters 3, 4: both releases return, wake process 3 and leave waiter 4. -/
theorem pcp_release_restores_then_fcfs_witness :
    (final_state id (pcp_release demo 0)).readyqueue = [1, 2, 3] ∧
    ((final_state id (pcp_release demo 0)).resources 0).waitqueue = [4] ∧
    ∃ t0, fcfs_release demo 0 = Except.ok t0 ∧
      pcp_release demo 0 = Except.ok (t0.set_prio 0 (demo.procs 0).prio_orig) := by
  have hf : fcfs_release demo 0 = Except.ok ((((demo.set_owner 0 none).wait_del 0 3).set_status 3
      ProcessStatus.PROCESS_READY).ready_add_tail 3) := rfl
  exact ⟨by decide, by decide, _, hf,
    (pcp_release_restores_then_fcfs demo 0 0 rfl rfl).2.1 _ hf⟩

/-! ## The priority inheritance protocol: acquire -/

/-- C20: when the current process `c` calls `pip_acquire(r)` and `r` is free,
the call succeeds, `c` becomes the owner and nothing else changes, no priority
in particular.  When `r` is taken by `o` the call fails, `c` becomes WAITING at
the tail of the wait queue of `r`, the priority of `o` becomes the maximum of
its priority and that of `c`, every other priority and every `prio_orig` is
unchanged, and so are the owner, the ready queue, the other statuses and the
other resources. -/
theorem pip_acquire_inherits (s : State) (r c : Nat) (hcur : s.current = some c) :
    ((s.resources r).owner = none →
      ∃ t, pip_acquire s r = Except.ok (true, t) ∧
        (t.resources r).owner = some c ∧ t.procs = s.procs ∧
        t.readyqueue = s.readyqueue ∧ t.current = s.current ∧
        (∀ r', (t.resources r').waitqueue = (s.resources r').waitqueue) ∧
        (∀ r', r' ≠ r → t.resources r' = s.resources r')) ∧
    (∀ o, (s.resources r).owner = some o →
      ∃ t, pip_acquire s r = Except.ok (false, t) ∧
        (t.procs c).status = ProcessStatus.PROCESS_WAIT ∧
        (t.resources r).waitqueue = (s.resources r).waitqueue ++ [c] ∧
        (t.resources r).owner = some o ∧
        (t.procs o).prio = max (s.procs o).prio (s.procs c).prio ∧
        (∀ p, p ≠ o → (t.procs p).prio = (s.procs p).prio) ∧
        (∀ p, (t.procs p).prio_orig = (s.procs p).prio_orig) ∧
        (∀ p, p ≠ c → (t.procs p).status = (s.procs p).status) ∧
        t.readyqueue = s.readyqueue ∧ t.current = s.current ∧
        (∀ r', r' ≠ r → t.resources r' = s.resources r')) := by
  constructor
  · intro ho
    refine ⟨s.set_owner r s.current, by simp [pip_acquire, ho], ?_, rfl, rfl, rfl, ?_, ?_⟩
    · simp [State.set_owner, hcur]
    · exact (same_places_set_owner s r s.current).2.2.1
    · intro r' hr
      simp [State.set_owner, Function.update_noteq hr]
  · intro o ho
    by_cases hlt : (s.procs o).prio < (s.procs c).prio
    · refine ⟨((s.set_prio o (s.procs c).prio).set_status c
          ProcessStatus.PROCESS_WAIT).wait_add_tail r c,
        by simp [pip_acquire, ho, hcur, hlt], ?_, ?_, ?_, ?_, ?_, ?_, ?_, rfl, rfl, ?_⟩
      · simp [State.wait_add_tail, State.set_status]
      · simp [State.wait_add_tail, State.set_status, State.set_prio]
      · simp [State.wait_add_tail, State.set_status, State.set_prio, ho]
      · rw [max_eq_right (le_of_lt hlt)]
        by_cases hoc : o = c
        · subst hoc
          exact absurd hlt (lt_irrefl _)
        · simp [State.wait_add_tail, State.set_status, State.set_prio,
            Function.update_noteq hoc]
      · intro p hp
        by_cases hpc : p = c
        · subst hpc
          simp [State.wait_add_tail, State.set_status, State.set_prio,
            Function.update_noteq hp]
        · simp [State.wait_add_tail, State.set_status, State.set_prio,
            Function.update_noteq hp, Function.update_noteq hpc]
      · intro p
        by_cases hpc : p = c
        · subst hpc
          by_cases hpo : p = o
          · subst hpo
            simp [State.wait_add_tail, State.set_status, State.set_prio]
          · simp [State.wait_add_tail, State.set_status, State.set_prio,
              Function.update_noteq hpo]
        · by_cases hpo : p = o
          · subst hpo
            simp [State.wait_add_tail, State.set_status, State.set_prio,
              Function.update_noteq hpc]
          · simp [State.wait_add_tail, State.set_status, State.set_prio,
              Function.update_noteq hpc, Function.update_noteq hpo]
      · intro p hpc
        rw [← set_prio_status s o (s.procs c).prio p]
        simp [State.wait_add_tail, State.set_status, Function.update_noteq hpc]
      · intro r' hr
        simp [State.wait_add_tail, State.set_status, State.set_prio,
          Function.update_noteq hr]
    · refine ⟨(s.set_status c ProcessStatus.PROCESS_WAIT).wait_add_tail r c,
        by simp [pip_acquire, ho, hcur, hlt], ?_, ?_, ?_, ?_, ?_, ?_, ?_, rfl, rfl, ?_⟩
      · simp [State.wait_add_tail, State.set_status]
      · simp [State.wait_add_tail, State.set_status]
      · simp [State.wait_add_tail, State.set_status, ho]
      · rw [max_eq_left (not_lt.1 hlt)]
        by_cases hoc : o = c
        · subst hoc
          simp [State.wait_add_tail, State.set_status]
        · simp [State.wait_add_tail, State.set_status, Function.update_noteq hoc]
      · intro p _
        by_cases hpc : p = c
        · subst hpc
          simp [State.wait_add_tail, State.set_status]
        · simp [State.wait_add_tail, State.set_status, Function.update_noteq hpc]
      · intro p
        by_cases hpc : p = c
        · subst hpc
          simp [State.wait_add_tail, State.set_status]
        · simp [State.wait_add_tail, State.set_status, Function.update_noteq hpc]
      · intro p hpc
        simp [State.wait_add_tail, State.set_status, Function.update_noteq hpc]
      · intro r' hr
        simp [State.wait_add_tail, State.set_status, Function.update_noteq hr]

/-- C20 at the sample state: process 1 (priority 3) owns resource 1 and process
0 (priority 1) asks for it, so nothing is inherited; in the state where process
3 (priority 5) is current instead, the priority of process 1 becomes 5. -/
theorem pip_acquire_inherits_witness :
    ((final_state Prod.snd (pip_acquire demo 1)).procs 1).prio = 3 ∧
    ((final_state Prod.snd (pip_acquire { demo with current := some 3 } 1)).procs 1).prio = 5 ∧
    ((final_state Prod.snd (pip_acquire { demo with current := some 3 } 1)).procs 1).prio_orig
      = 3 ∧
    ∃ t, pip_acquire demo 1 = Except.ok (false, t) ∧
      (t.procs 0).status = ProcessStatus.PROCESS_WAIT ∧
      (t.resources 1).waitqueue = (demo.resources 1).waitqueue ++ [0] ∧
      (t.resources 1).owner = some 1 ∧
      (t.procs 1).prio = max (demo.procs 1).prio (demo.procs 0).prio := by
  obtain ⟨t, h1, h2, h3, h4, h5, _⟩ := (pip_acquire_inherits demo 1 0 rfl).2 1 rfl
  exact ⟨by decide, by decide, by decide, t, h1, h2, h3, h4, h5⟩

/-! ## How long the ceiling lasts -/

/-- A successful `pcp_acquire` by the current process, the result state given
in full. -/
theorem pcp_acquire_free_result (M : Nat) (s : State) (r c : Nat)
    (hcur : s.current = some c) (hfree : (s.resources r).owner = none) :
    pcp_acquire M s r = Except.ok (true, (s.set_owner r (some c)).set_prio c M) := by
  have h1 : (s.set_owner r (some c)).current = some c := hcur
  simp [pcp_acquire, hfree, hcur, h1]

/-- What a returning `pcp_release` by the owning current process leaves: the
owner has its `prio_orig`, the resource is free, and the owner of every other
resource is who it was. -/
theorem pcp_release_result (s t : State) (r c : Nat) (hcur : s.current = some c)
    (hown : (s.resources r).owner = some c) (h : pcp_release s r = Except.ok t) :
    (t.procs c).prio = (s.procs c).prio_orig ∧ (t.resources r).owner = none ∧
    (∀ r', r' ≠ r → (t.resources r').owner = (s.resources r').owner) := by
  rw [pcp_release_eq_fcfs_after_restore s r c hcur hown] at h
  have hprio : ((s.set_prio c (s.procs c).prio_orig).procs c).prio = (s.procs c).prio_orig := by
    simp [State.set_prio]
  rcases fcfs_release_cases (s.set_prio c (s.procs c).prio_orig) r c hcur hown with
    ⟨_, hres⟩ | ⟨w, ws, _, _, hres⟩ | ⟨w, ws, _, _, hres⟩
  · rw [hres] at h
    have e : (s.set_prio c (s.procs c).prio_orig).set_owner r none = t := by simpa using h
    subst e
    refine ⟨hprio, by simp [State.set_owner], ?_⟩
    intro r' hr
    simp [State.set_owner, State.set_prio, Function.update_noteq hr]
  · rw [hres] at h
    cases h
  · rw [hres] at h
    have e : ((((s.set_prio c (s.procs c).prio_orig).set_owner r none).wait_del r w).set_status w
        ProcessStatus.PROCESS_READY).ready_add_tail w = t := by simpa using h
    subst e
    refine ⟨?_, ?_, ?_⟩
    · rw [wake_keeps_prio]
      exact hprio
    · simp [State.ready_add_tail, State.set_status, State.wait_del, State.set_owner]
    · intro r' hr
      simp [State.ready_add_tail, State.set_status, State.wait_del, State.set_owner,
        State.set_prio, Function.update_noteq hr]

/-- C19 fails as stated: process 0 (prio_orig 1) takes resources 2 and 3 with
`pcp_acquire`, ceiling 64, and has priority 64; it releases resource 2 only and
then still owns resource 3 with priority 1. -/
theorem pcp_ceiling_lost_after_one_release :
    pcp_acquire 64 demo_free 2 = Except.ok (true, demo_pcp_one) ∧
    pcp_acquire 64 demo_pcp_one 3 = Except.ok (true, demo_pcp_two) ∧
    (demo_pcp_two.procs 0).prio = 64 ∧
    pcp_release demo_pcp_two 2 = Except.ok demo_pcp_back ∧
    (demo_pcp_back.resources 3).owner = some 0 ∧
    (demo_pcp_back.procs 0).prio = 1 ∧ (demo_pcp_back.procs 0).prio ≠ 64 :=
  ⟨rfl, rfl, by decide, rfl, by decide, by decide, by decide⟩

/-- C19 as amended: a successful `pcp_acquire(r)` makes the current process `c`
the owner of `r` with priority `MAX_PRIO` (here `M`) and touches no other
resource; every returning `pcp_release(r)` by the owner `c` sets the priority of
`c` to its `prio_orig` and frees `r` only, so `c` keeps whatever other
resources it owns, at priority `prio_orig`. -/
theorem pcp_ceiling_until_release (M : Nat) (s : State) (r c : Nat)
    (hcur : s.current = some c) :
    ((s.resources r).owner = none →
      ∃ t, pcp_acquire M s r = Except.ok (true, t) ∧
        (t.resources r).owner = some c ∧ (t.procs c).prio = M ∧
        (∀ r', r' ≠ r → t.resources r' = s.resources r')) ∧
    ((s.resources r).owner = some c →
      ∀ t, pcp_release s r = Except.ok t →
        (t.procs c).prio = (s.procs c).prio_orig ∧ (t.resources r).owner = none ∧
        (∀ r', r' ≠ r → (t.resources r').owner = (s.resources r').owner)) := by
  constructor
  · intro hfree
    refine ⟨_, pcp_acquire_free_result M s r c hcur hfree, ?_, ?_, ?_⟩
    · simp [State.set_owner, State.set_prio]
    · simp [State.set_owner, State.set_prio]
    · intro r' hr
      simp [State.set_owner, State.set_prio, Function.update_noteq hr]
  · intro hown t ht
    exact pcp_release_result s t r c hcur hown ht

/-- C19 as amended, at the sample states: taking resource 2 gives process 0
priority 64; releasing it while resource 3 is still held gives priority 1 and
leaves process 0 the owner of resource 3. -/
theorem pcp_ceiling_until_release_witness :
    (∃ t, pcp_acquire 64 demo_free 2 = Except.ok (true, t) ∧
      (t.resources 2).owner = some 0 ∧ (t.procs 0).prio = 64) ∧
    (demo_pcp_back.procs 0).prio = (demo_pcp_two.procs 0).prio_orig ∧
    (demo_pcp_back.resources 3).owner = (demo_pcp_two.resources 3).owner ∧
    (demo_pcp_two.resources 3).owner = some 0 := by
  obtain ⟨t, h1, h2, h3, _⟩ := (pcp_ceiling_until_release 64 demo_free 2 0 rfl).1 rfl
  obtain ⟨h4, _, h5⟩ := (pcp_ceiling_until_release 64 demo_pcp_two 2 0 rfl).2 rfl
    demo_pcp_back rfl
  exact ⟨⟨t, h1, h2, h3⟩, h4, h5 3 (by decide), by decide⟩

/-- C18 fails as stated: after taking resources 2 and 3 with `pcp_acquire` and
releasing resource 2, process 0 is current, not WAITING, unfinished and still
holds resource 3, but `pcp_schedule` returns ready process 1 (priority 3 against
the restored priority 1 of process 0). -/
theorem pcp_holder_preempted :
    pcp_acquire 64 demo_free 2 = Except.ok (true, demo_pcp_one) ∧
    pcp_acquire 64 demo_pcp_one 3 = Except.ok (true, demo_pcp_two) ∧
    pcp_release demo_pcp_two 2 = Except.ok demo_pcp_back ∧
    demo_pcp_back.current = some 0 ∧ (demo_pcp_back.resources 3).owner = some 0 ∧
    (demo_pcp_back.procs 0).status ≠ ProcessStatus.PROCESS_WAIT ∧
    (demo_pcp_back.procs 0).age < (demo_pcp_back.procs 0).lifespan ∧
    (pcp_schedule demo_pcp_back).1 = some 1 ∧ (pcp_schedule demo_pcp_back).1 ≠ some 0 :=
  ⟨rfl, rfl, rfl, by decide, by decide, by decide, by decide, by decide, by decide⟩

/-- C18 as amended: a current process `c` that is not WAITING, has
`age < lifespan` and is in no queue is returned by `pcp_schedule` exactly when
every ready process has a priority strictly below the priority `c` has at that
moment.  That priority is `MAX_PRIO` (here `M`) right after a successful
`pcp_acquire` and `prio_orig` right after any returning `pcp_release` by `c`. -/
theorem pcp_holder_kept_iff (M : Nat) (s : State) (c : Nat) (hcur : s.current = some c)
    (hst : (s.procs c).status ≠ ProcessStatus.PROCESS_WAIT)
    (hage : (s.procs c).age < (s.procs c).lifespan)
    (hfree : c ∉ s.readyqueue) :
    ((pcp_schedule s).1 = some c ↔
      ∀ q ∈ s.readyqueue, (s.procs q).prio < (s.procs c).prio) ∧
    (∀ r, (s.resources r).owner = none →
      ∃ t, pcp_acquire M s r = Except.ok (true, t) ∧ (t.procs c).prio = M) ∧
    (∀ r t, (s.resources r).owner = some c → pcp_release s r = Except.ok t →
      (t.procs c).prio = (s.procs c).prio_orig) := by
  refine ⟨?_, ?_, ?_⟩
  · have hcand : candidates s = s.readyqueue ++ [c] := by
      simp [candidates, hcur, hst, hage]
    obtain ⟨pre, m, post, hsplit, hret, _, hpre, hpost⟩ :=
      prio_schedule_split s (by rw [hcand]; simp)
    have hret' : (pcp_schedule s).1 = some m := hret
    rw [hret']
    constructor
    · intro hm
      have e : m = c := Option.some.inj hm
      subst e
      have hp : post = [] := by
        by_contra hp
        obtain ⟨post', _, hl⟩ := split_before_last s.readyqueue pre post m m
          (by rw [← hcand, hsplit]) hp
        exact hfree (by rw [hl]; simp)
      subst hp
      have h2 : s.readyqueue ++ [m] = pre ++ [m] := by rw [← hcand, hsplit]
      have h3 := List.append_inj' h2 rfl
      intro q hq
      exact hpre q (h3.1 ▸ hq)
    · intro hall
      have hcin : c ∈ pre ++ m :: post := by rw [← hsplit, hcand]; simp
      have hmin : m ∈ s.readyqueue ++ [c] := by rw [← hcand, hsplit]; simp
      rcases List.mem_append.1 hmin with hmr | hmc
      · exfalso
        have hlt := hall m hmr
        rcases List.mem_append.1 hcin with h | h
        · exact absurd (hpre c h) (not_lt.2 (le_of_lt hlt))
        · rcases List.mem_cons.1 h with h | h
          · rw [h] at hlt
            exact lt_irrefl _ hlt
          · exact absurd hlt (not_lt.2 (hpost c h))
      · rw [List.mem_singleton.1 hmc]
  · intro r hr
    exact ⟨_, pcp_acquire_free_result M s r c hcur hr, by simp [State.set_owner, State.set_prio]⟩
  · intro r t hown ht
    exact (pcp_release_result s t r c hcur hown ht).1

/-- C18 as amended, at the sample states: holding resources 2 and 3 at the
ceiling 64, process 0 is kept (ready priorities 3 and 2); after the release of
resource 2 it has priority 1 and is not kept. -/
theorem pcp_holder_kept_iff_witness :
    (pcp_schedule demo_pcp_two).1 = some 0 ∧ (pcp_schedule demo_pcp_back).1 ≠ some 0 ∧
    (demo_pcp_back.procs 0).prio = (demo_pcp_two.procs 0).prio_orig :=
  ⟨((pcp_holder_kept_iff 64 demo_pcp_two 0 rfl (by decide) (by decide) (by decide)).1).2
      (by decide),
    fun h => absurd
      (((pcp_holder_kept_iff 64 demo_pcp_back 0 rfl (by decide) (by decide) (by decide)).1).1
        h 1 (by decide))
      (by decide),
    (pcp_holder_kept_iff 64 demo_pcp_two 0 rfl (by decide) (by decide) (by decide)).2.2 2
      demo_pcp_back rfl rfl⟩

/-! ## Round-Robin fairness -/

/-- One tick of the driver loop when there is a candidate: the head of the
candidate list is selected and ages by one, the rest is the ready queue. -/
theorem rr_tick_cons (s : State) (x : Nat) (rest : List Nat)
    (h : candidates s = x :: rest) :
    rr_tick s = (some x,
      { procs := Function.update s.procs x { s.procs x with age := (s.procs x).age + 1 },
        current := some x, readyqueue := rest, resources := s.resources }) := by
  unfold rr_tick rr_schedule
  rw [requeue_current_eq]
  simp [h, State.ready_del]

/-- Running `m + k` ticks is one tick followed by `m + k - 1` ticks. -/
theorem rr_run_succ_add (m k : Nat) (s : State) :
    rr_run (m + 1 + k) s = (rr_tick s).1 :: rr_run (m + k) (rr_tick s).2 := by
  have e : m + 1 + k = (m + k) + 1 := by omega
  rw [e]
  rfl

/-- One sweep of Round-Robin through the processes `todo` that have not run in
this round: with the processes `done` already aged to `a + 1` and queued behind
`todo` (when they still have work left), the next ticks select `todo` in order
and every process of the round ends with age `a + 1`. -/
theorem rr_sweep (L a : Nat) (todo : List Nat) :
    ∀ (done : List Nat) (s : State), (done ++ todo).Nodup →
      candidates s = todo ++ (if a + 1 < L then done else []) →
      (∀ p ∈ todo, (s.procs p).age = a ∧ (s.procs p).lifespan = L ∧
        (s.procs p).status ≠ ProcessStatus.PROCESS_WAIT) →
      (∀ p ∈ done, (s.procs p).age = a + 1 ∧ (s.procs p).lifespan = L ∧
        (s.procs p).status ≠ ProcessStatus.PROCESS_WAIT) →
      ∃ s', (∀ k, rr_run (todo.length + k) s = todo.map some ++ rr_run k s') ∧
        candidates s' = (if a + 1 < L then done ++ todo else []) ∧
        (∀ p ∈ done ++ todo, (s'.procs p).age = a + 1 ∧ (s'.procs p).lifespan = L ∧
          (s'.procs p).status ≠ ProcessStatus.PROCESS_WAIT) := by
  induction todo with
  | nil =>
    intro done s _ hc _ hd
    refine ⟨s, fun k => by simp, by simpa using hc, by simpa using hd⟩
  | cons x todo' ih =>
    intro done s hnd hc ht hd
    have hx := ht x (by simp)
    have hnd' : ((done ++ [x]) ++ todo').Nodup := by simpa using hnd
    have hxd : x ∉ done := by
      intro hin
      have := (List.nodup_append.1 hnd).2.2
      exact this hin (by simp)
    have hxt : x ∉ todo' := by
      have h1 := (List.nodup_append.1 hnd).2.1
      exact (List.nodup_cons.1 h1).1
    have htick := rr_tick_cons s x (todo' ++ (if a + 1 < L then done else [])) (by
      rw [hc]; rfl)
    -- the state after the tick
    obtain ⟨s', hrun, hcand, hall⟩ := ih (done ++ [x])
      { procs := Function.update s.procs x { s.procs x with age := (s.procs x).age + 1 },
        current := some x,
        readyqueue := todo' ++ (if a + 1 < L then done else []),
        resources := s.resources } hnd'
      (by
        unfold candidates
        simp only [Function.update_same]
        by_cases hlt : a + 1 < L
        · have hcond : (s.procs x).status ≠ ProcessStatus.PROCESS_WAIT ∧
              (s.procs x).age + 1 < (s.procs x).lifespan := ⟨hx.2.2, by rw [hx.1, hx.2.1]; exact hlt⟩
          rw [if_pos hcond, if_pos hlt, if_pos hlt, List.append_assoc]
        · have hcond : ¬ ((s.procs x).status ≠ ProcessStatus.PROCESS_WAIT ∧
              (s.procs x).age + 1 < (s.procs x).lifespan) := by
            rintro ⟨_, h2⟩
            rw [hx.1, hx.2.1] at h2
            exact hlt h2
          rw [if_neg hcond, if_neg hlt, if_neg hlt])
      (by
        intro p hp
        have hpx : p ≠ x := fun e => hxt (e ▸ hp)
        simp only [Function.update_noteq hpx]
        exact ht p (List.mem_cons_of_mem _ hp))
      (by
        intro p hp
        rcases List.mem_append.1 hp with h | h
        · have hpx : p ≠ x := fun e => hxd (e ▸ h)
          simp only [Function.update_noteq hpx]
          exact hd p h
        · have e : p = x := List.mem_singleton.1 h
          subst e
          simp only [Function.update_same]
          exact ⟨by rw [hx.1], hx.2.1, hx.2.2⟩)
    refine ⟨s', ?_, ?_, ?_⟩
    · intro k
      have hlen : (x :: todo').length + k = todo'.length + 1 + k := by simp
      rw [hlen, rr_run_succ_add, htick]
      simp only [List.map_cons, List.cons_append]
      exact congrArg (List.cons (some x)) (hrun k)
    · rw [hcand]
      simp [List.append_assoc]
    · intro p hp
      exact hall p (by simpa [List.append_assoc] using hp)

/-- Round-Robin over `m` more rounds: all processes of `ps` have age `a` and
lifespan `a + m`, and the candidates are `ps`; the next `|ps| * m` ticks select
`ps` in order, `m` times. -/
theorem rr_rounds (ps : List Nat) (hnd : ps.Nodup) (L : Nat) (m : Nat) :
    ∀ (a : Nat) (s : State), a + m = L → (0 < m → candidates s = ps) →
      (∀ p ∈ ps, (s.procs p).age = a ∧ (s.procs p).lifespan = L ∧
        (s.procs p).status ≠ ProcessStatus.PROCESS_WAIT) →
      rr_run (ps.length * m) s = (List.replicate m ps).flatten.map some := by
  induction m with
  | zero =>
    intro a s _ _ _
    simp [rr_run]
  | succ m ih =>
    intro a s ham hc hp
    obtain ⟨s', hrun, hcand, hall⟩ := rr_sweep L a ps [] s (by simpa using hnd)
      (by rw [hc (Nat.succ_pos m)]; simp) hp (by intro p hp; cases hp)
    have hlen : ps.length * (m + 1) = ps.length + ps.length * m := by
      rw [Nat.mul_succ, Nat.add_comm]
    rw [hlen, hrun (ps.length * m)]
    rw [ih (a + 1) s' (by omega) (by
        intro hm
        have hlt : a + 1 < L := by omega
        rw [hcand, if_pos hlt]
        simp) (by
        intro p hp
        exact hall p (by simpa using hp))]
    simp [List.replicate_succ]

/-- C11: with no current process, a ready queue `ps` of distinct processes
that all have age 0, the same lifespan `L` (any `L`, so `L >= 1` too) and are
not WAITING (there are no resource requests), `|ps| * L` ticks of the driver
loop `current := rr_schedule(); current.age += 1` select the processes of `ps`
in queue order, `L` times over. -/
theorem rr_fairness (ps : List Nat) (L : Nat) (s : State)
    (hnd : ps.Nodup) (hcur : s.current = none) (hrq : s.readyqueue = ps)
    (hproc : ∀ p ∈ ps, (s.procs p).age = 0 ∧ (s.procs p).lifespan = L ∧
      (s.procs p).status ≠ ProcessStatus.PROCESS_WAIT) :
    rr_run (ps.length * L) s = (List.replicate L ps).flatten.map some := by
  refine rr_rounds ps hnd L L 0 s (by omega) (fun _ => ?_) hproc
  unfold candidates
  rw [hcur]
  exact hrq

/-- C11 at the sample state: three processes 1, 2, 3 of lifespan 3 are selected
as 1, 2, 3, 1, 2, 3, 1, 2, 3 over nine ticks. -/
theorem rr_fairness_witness :
    rr_run 9 demo_rr
      = [some 1, some 2, some 3, some 1, some 2, some 3, some 1, some 2, some 3] :=
  rr_fairness [1, 2, 3] 3 demo_rr (by decide) rfl rfl (by
    intro p _
    exact ⟨rfl, rfl, by simp [demo_rr]⟩)

/-! ## Fields that no hook writes -/

/-- Nothing changed is a special case of `same_identity`. -/
theorem same_identity_refl (s : State) : same_identity s s := fun _ => ⟨rfl, rfl, rfl, rfl⟩

/-- The relation `same_identity` composes. -/
theorem same_identity_trans (s t u : State) (h1 : same_identity s t)
    (h2 : same_identity t u) : same_identity s u := fun p =>
  ⟨(h2 p).1.trans (h1 p).1, (h2 p).2.1.trans (h1 p).2.1, (h2 p).2.2.1.trans (h1 p).2.2.1,
    (h2 p).2.2.2.trans (h1 p).2.2.2⟩

/-- Writing a status leaves pid, age, lifespan and `prio_orig`. -/
theorem same_identity_set_status (s : State) (q : Nat) (st : ProcessStatus) :
    same_identity s (s.set_status q st) := by
  intro p
  by_cases h : p = q
  · subst h; simp [State.set_status]
  · simp [State.set_status, Function.update_noteq h]

/-- Writing a priority leaves pid, age, lifespan and `prio_orig`. -/
theorem same_identity_set_prio (s : State) (q v : Nat) :
    same_identity s (s.set_prio q v) := by
  intro p
  by_cases h : p = q
  · subst h; simp [State.set_prio]
  · simp [State.set_prio, Function.update_noteq h]

/-- A `schedule()` call leaves every process descriptor as it was. -/
theorem schedule_shape_procs (s : State) (res : Option Nat × State)
    (h : schedule_shape s res) : res.2.procs = s.procs := by
  rcases h with ⟨c, _, _, rfl⟩ | ⟨_, rfl⟩ | ⟨x, _, rfl⟩ <;> rfl

/-- Each of the seven schedule functions ends in one of the two shapes. -/
theorem schedule_shape_all (s : State) :
    ∀ sched ∈ [fifo_schedule, sjf_schedule, srtf_schedule, rr_schedule, prio_schedule,
        pcp_schedule, pip_schedule], schedule_shape s (sched s) := by
  intro sched hs
  simp only [List.mem_cons, List.mem_singleton, List.not_mem_nil, or_false] at hs
  rcases hs with rfl | rfl | rfl | rfl | rfl | rfl | rfl
  · exact fifo_schedule_shape s
  · exact sjf_schedule_shape s
  · exact srtf_schedule_shape s
  · exact rr_schedule_shape s
  · exact prio_schedule_shape s
  · exact pcp_schedule_shape s
  · exact pip_schedule_shape s

/-- Function `fcfs_acquire` writes no pid, age, lifespan or `prio_orig`. -/
theorem fcfs_acquire_identity (s : State) (r : Nat) :
    same_identity s (final_state Prod.snd (fcfs_acquire s r)) := by
  unfold fcfs_acquire
  cases (s.resources r).owner with
  | none => exact same_identity_refl s
  | some o =>
    cases s.current with
    | none => exact same_identity_refl s
    | some c => exact same_identity_set_status s c _

/-- Function `pcp_acquire` writes no pid, age, lifespan or `prio_orig`. -/
theorem pcp_acquire_identity (M : Nat) (s : State) (r : Nat) :
    same_identity s (final_state Prod.snd (pcp_acquire M s r)) := by
  unfold pcp_acquire
  cases (s.resources r).owner with
  | none =>
    cases hc : s.current with
    | none =>
      have h1 : (s.set_owner r none).current = none := hc
      simp only [h1]
      exact same_identity_refl s
    | some c =>
      have h1 : (s.set_owner r (some c)).current = some c := hc
      simp only [h1]
      exact same_identity_set_prio (s.set_owner r (some c)) c M
  | some o =>
    cases s.current with
    | none => exact same_identity_refl s
    | some c => exact same_identity_set_status s c _

/-- Function `pip_acquire` writes no pid, age, lifespan or `prio_orig`. -/
theorem pip_acquire_identity (s : State) (r : Nat) :
    same_identity s (final_state Prod.snd (pip_acquire s r)) := by
  unfold pip_acquire
  cases (s.resources r).owner with
  | none => exact same_identity_refl s
  | some o =>
    cases s.current with
    | none => exact same_identity_refl s
    | some c =>
      by_cases hp : (s.procs o).prio < (s.procs c).prio
      · simp only [if_pos hp]
        exact same_identity_trans _ _ _ (same_identity_set_prio s o _)
          (same_identity_set_status (s.set_prio o (s.procs c).prio) c _)
      · simp only [if_neg hp]
        exact same_identity_set_status s c _

/-- The wake-up tail of a release writes no pid, age, lifespan or `prio_orig`. -/
theorem wake_tail_identity (s s1 : State) (r w : Nat) (h : same_identity s s1) :
    same_identity s (final_state id
      (if (s1.procs w).status ≠ ProcessStatus.PROCESS_WAIT then
        Except.error (Halt.assert_waiter, s1)
      else
        Except.ok (((s1.wait_del r w).set_status w
          ProcessStatus.PROCESS_READY).ready_add_tail w))) := by
  by_cases hst : (s1.procs w).status ≠ ProcessStatus.PROCESS_WAIT
  · rw [if_pos hst]
    exact h
  · rw [if_neg hst]
    exact same_identity_trans _ _ _ h (same_identity_set_status s1 w _)

/-- Function `fcfs_release` writes no pid, age, lifespan or `prio_orig`. -/
theorem fcfs_release_identity (s : State) (r : Nat) :
    same_identity s (final_state id (fcfs_release s r)) := by
  unfold fcfs_release
  by_cases hown : (s.resources r).owner ≠ s.current
  · rw [if_pos hown]
    exact same_identity_refl s
  · rw [if_neg hown]
    dsimp only
    cases ((s.set_owner r none).resources r).waitqueue with
    | nil => exact same_identity_refl s
    | cons w ws => exact wake_tail_identity s (s.set_owner r none) r w (same_identity_refl s)

/-- Function `pcp_release` writes no pid, age, lifespan or `prio_orig`. -/
theorem pcp_release_identity (s : State) (r : Nat) :
    same_identity s (final_state id (pcp_release s r)) := by
  unfold pcp_release
  by_cases hown : (s.resources r).owner ≠ s.current
  · rw [if_pos hown]
    exact same_identity_refl s
  · rw [if_neg hown]
    cases (s.resources r).owner with
    | none => exact same_identity_refl s
    | some o =>
      dsimp only
      have h0 : same_identity s ((s.set_prio o (s.procs o).prio_orig).set_owner r none) :=
        same_identity_set_prio s o _
      cases (((s.set_prio o (s.procs o).prio_orig).set_owner r none).resources r).waitqueue with
      | nil => exact h0
      | cons w ws => exact wake_tail_identity s _ r w h0

/-- Function `pip_release` writes no pid, age, lifespan or `prio_orig`. -/
theorem pip_release_identity (s : State) (r : Nat) :
    same_identity s (final_state id (pip_release s r)) := by
  unfold pip_release
  by_cases hown : (s.resources r).owner ≠ s.current
  · rw [if_pos hown]
    exact same_identity_refl s
  · rw [if_neg hown]
    cases (s.resources r).owner with
    | none => exact same_identity_refl s
    | some o =>
      cases s.current with
      | none => exact same_identity_refl s
      | some c =>
        dsimp only
        have h0 : same_identity s ((s.set_prio o (s.procs c).prio_orig).set_owner r none) :=
          same_identity_set_prio s o _
        cases (((s.set_prio o (s.procs c).prio_orig).set_owner r none).resources r).waitqueue with
        | nil => exact h0
        | cons w ws => exact wake_tail_identity s _ r _ h0

/-- C27: no hook changes the pid, age, lifespan or `prio_orig` of any process.
Each of the seven schedule functions leaves every process descriptor as it was
(it only moves processes between `current` and the ready queue); each acquire
and each release variant, whether it returns or stops, leaves those four fields
of every process as they were, so only the status and the priority of a process
can change. -/
theorem hooks_keep_identity (M : Nat) (s : State) :
    (∀ sched ∈ [fifo_schedule, sjf_schedule, srtf_schedule, rr_schedule, prio_schedule,
        pcp_schedule, pip_schedule], (sched s).2.procs = s.procs) ∧
    (∀ acq ∈ [fcfs_acquire, pcp_acquire M, pip_acquire], ∀ r,
      same_identity s (final_state Prod.snd (acq s r))) ∧
    (∀ rel ∈ [fcfs_release, pcp_release, pip_release], ∀ r,
      same_identity s (final_state id (rel s r))) := by
  refine ⟨fun sched hs => schedule_shape_procs s _ (schedule_shape_all s sched hs), ?_, ?_⟩
  · intro acq ha r
    simp only [List.mem_cons, List.mem_singleton, List.not_mem_nil, or_false] at ha
    rcases ha with rfl | rfl | rfl
    · exact fcfs_acquire_identity s r
    · exact pcp_acquire_identity M s r
    · exact pip_acquire_identity s r
  · intro rel hr r
    simp only [List.mem_cons, List.mem_singleton, List.not_mem_nil, or_false] at hr
    rcases hr with rfl | rfl | rfl
    · exact fcfs_release_identity s r
    · exact pcp_release_identity s r
    · exact pip_release_identity s r

/-- C27 at the sample state: `pcp_acquire` of the free resource 2 changes the
priority of process 0 from 1 to 64 and `pip_release` of resource 0 makes
process 3 READY, but the lifespan and `prio_orig` of both stay what they
were. -/
theorem hooks_keep_identity_witness :
    ((final_state Prod.snd (pcp_acquire 64 demo 2)).procs 0).prio = 64 ∧
    ((final_state id (pip_release demo 0)).procs 3).status = ProcessStatus.PROCESS_READY ∧
    ((final_state Prod.snd (pcp_acquire 64 demo 2)).procs 0).prio_orig = (demo.procs 0).prio_orig ∧
    ((final_state id (pip_release demo 0)).procs 3).lifespan = (demo.procs 3).lifespan ∧
    (srtf_schedule demo).2.procs = demo.procs :=
  ⟨by decide, by decide,
    ((hooks_keep_identity 64 demo).2.1 (pcp_acquire 64) (by simp) 2 0).2.2.2,
    ((hooks_keep_identity 64 demo).2.2 pip_release (by simp) 0 3).2.2.1,
    (hooks_keep_identity 64 demo).1 srtf_schedule (by simp)⟩

/-! ## Terminated processes stay out -/

/-- A process that is no candidate and in no wait queue is not returned by a
`schedule()` call and is in no queue afterwards. -/
theorem schedule_excludes (s : State) (res : Option Nat × State) (p : Nat)
    (h : schedule_shape s res) (hc : p ∉ candidates s) (hw : ¬ in_wait s p) :
    res.1 ≠ some p ∧ p ∉ res.2.readyqueue ∧ ¬ in_wait res.2 p := by
  have hrq : p ∉ s.readyqueue := fun hin => hc ((mem_candidates s p).2 (Or.inl hin))
  rcases h with ⟨c, hrun, hu, rfl⟩ | ⟨_, rfl⟩ | ⟨x, hx, rfl⟩
  · refine ⟨?_, hrq, hw⟩
    intro e
    have e' : c = p := Option.some.inj e
    subst e'
    exact hc ((mem_candidates s c).2 (Or.inr ⟨hrun, hu⟩))
  · exact ⟨fun e => (by cases e), hc, hw⟩
  · have hxc : x ∈ candidates s := hx
    refine ⟨?_, ?_, hw⟩
    · intro e
      have e' : x = p := Option.some.inj e
      subst e'
      exact hc hxc
    · intro hin
      have hin' : p ∈ (candidates s).erase x := hin
      exact hc (List.mem_of_mem_erase hin')

/-- The dispatch of a `schedule()` result moves no process between queues. -/
theorem dispatch_fields (res : Option Nat × State) :
    (dispatch res).current = res.1 ∧ (dispatch res).readyqueue = res.2.readyqueue ∧
    (dispatch res).resources = res.2.resources := by
  obtain ⟨o, s⟩ := res
  cases o <;> exact ⟨rfl, rfl, rfl⟩

/-- A process that is out of the engine is no candidate. -/
theorem absent_not_candidate (s : State) (p : Nat) (h : absent s p) : p ∉ candidates s := by
  intro hin
  rcases (mem_candidates s p).1 hin with h1 | ⟨h1, _⟩
  · exact h.2.1 h1
  · exact h.1 h1.1

/-- A step that moves no process keeps an absent process absent. -/
theorem absent_same_places (s t : State) (p : Nat) (h : same_places s t)
    (ha : absent s p) : absent t p := by
  obtain ⟨hrq, hcur, hwq, _⟩ := h
  refine ⟨by rw [hcur]; exact ha.1, by rw [hrq]; exact ha.2.1, ?_⟩
  rintro ⟨r, hr⟩
  rw [hwq] at hr
  exact ha.2.2 ⟨r, hr⟩

/-- Blocking the current process keeps an absent process absent. -/
theorem absent_blocked_on (s t : State) (r c p : Nat) (hc : s.current = some c)
    (h : blocked_on s t r c) (ha : absent s p) : absent t p := by
  obtain ⟨hrq, hcur, hwr, hwo, _, _⟩ := h
  have hpc : p ≠ c := fun e => ha.1 (by rw [hc, e])
  refine ⟨by rw [hcur]; exact ha.1, by rw [hrq]; exact ha.2.1, ?_⟩
  rintro ⟨r', hr'⟩
  by_cases e : r' = r
  · subst e
    rw [hwr, List.mem_append, List.mem_singleton] at hr'
    rcases hr' with h1 | h1
    · exact ha.2.2 ⟨r', h1⟩
    · exact hpc h1
  · rw [hwo r' e] at hr'
    exact ha.2.2 ⟨r', hr'⟩

/-- Waking a waiter keeps an absent process absent. -/
theorem absent_woken_from (s t : State) (r w p : Nat) (h : woken_from s t r w)
    (ha : absent s p) : absent t p := by
  obtain ⟨hw, hrq, hcur, hwr, hwo, _, _⟩ := h
  have hpw : p ≠ w := fun e => ha.2.2 ⟨r, e ▸ hw⟩
  refine ⟨by rw [hcur]; exact ha.1, ?_, ?_⟩
  · rw [hrq, List.mem_append, List.mem_singleton]
    rintro (h1 | h1)
    · exact ha.2.1 h1
    · exact hpw h1
  · rintro ⟨r', hr'⟩
    by_cases e : r' = r
    · subst e
      rw [hwr] at hr'
      exact ha.2.2 ⟨r', List.mem_of_mem_erase hr'⟩
    · rw [hwo r' e] at hr'
      exact ha.2.2 ⟨r', hr'⟩

/-- However an acquire call ends, it has moved nothing or blocked the current
process. -/
theorem acquire_end (M : Nat) (s : State) (r : Nat) :
    ∀ acq ∈ [fcfs_acquire, pcp_acquire M, pip_acquire],
      same_places s (final_state Prod.snd (acq s r)) ∨
      ∃ c, s.current = some c ∧ blocked_on s (final_state Prod.snd (acq s r)) r c := by
  intro acq ha
  have hrefl : same_places s s := ⟨rfl, rfl, fun _ => rfl, fun _ => rfl⟩
  cases hc : s.current with
  | some c =>
    have key : acquire_shape s r c (acq s r) := by
      simp only [List.mem_cons, List.mem_singleton, List.not_mem_nil, or_false] at ha
      rcases ha with rfl | rfl | rfl
      · exact fcfs_acquire_shape s r c hc
      · exact pcp_acquire_shape M s r c hc
      · exact pip_acquire_shape s r c hc
    obtain ⟨b, t, hres, hsh⟩ := key
    rw [hres]
    rcases hsh with h | h
    · exact Or.inl h
    · exact Or.inr ⟨c, rfl, h⟩
  | none =>
    left
    simp only [List.mem_cons, List.mem_singleton, List.not_mem_nil, or_false] at ha
    rcases ha with rfl | rfl | rfl
    · unfold fcfs_acquire
      cases (s.resources r).owner with
      | none => exact same_places_set_owner s r _
      | some o => rw [hc]; exact hrefl
    · unfold pcp_acquire
      cases (s.resources r).owner with
      | none =>
        have h1 : (s.set_owner r s.current).current = none := hc
        simp only [h1]
        exact same_places_set_owner s r _
      | some o => rw [hc]; exact hrefl
    · unfold pip_acquire
      cases (s.resources r).owner with
      | none => exact same_places_set_owner s r _
      | some o => rw [hc]; exact hrefl

/-- A release of a resource whose owner is not `current` stops at the ownership
assertion with the state untouched. -/
theorem release_not_owner (s : State) (r : Nat)
    (hown : (s.resources r).owner ≠ s.current) :
    ∀ rel ∈ [fcfs_release, pcp_release, pip_release],
      rel s r = Except.error (Halt.assert_owner, s) := by
  intro rel hrel
  simp only [List.mem_cons, List.mem_singleton, List.not_mem_nil, or_false] at hrel
  rcases hrel with rfl | rfl | rfl
  · simp [fcfs_release, hown]
  · simp [pcp_release, hown]
  · simp [pip_release, hown]

/-- However a release call ends, it has moved nothing or woken one waiter of
the resource. -/
theorem release_end (s : State) (r : Nat) :
    ∀ rel ∈ [fcfs_release, pcp_release, pip_release],
      same_places s (final_state id (rel s r)) ∨
      ∃ w, woken_from s (final_state id (rel s r)) r w := by
  intro rel hrel
  have hrefl : same_places s s := ⟨rfl, rfl, fun _ => rfl, fun _ => rfl⟩
  by_cases hown : (s.resources r).owner = s.current
  · rcases release_owner_cases s r hown rel hrel with
      (⟨t, hres, hsh⟩ | ⟨t, hres, hsp, _⟩) | hres
    · rw [hres]
      exact hsh
    · rw [hres]
      exact Or.inl hsp
    · rw [hres]
      exact Or.inl hrefl
  · rw [release_not_owner s r hown rel hrel]
    exact Or.inl hrefl

/-- One hook step keeps an absent process absent. -/
theorem absent_hook_step (M : Nat) (s t : State) (p : Nat) (h : hook_step M s t)
    (ha : absent s p) : absent t p := by
  rcases h with ⟨sched, hs, rfl⟩ | ⟨acq, hacq, r, rfl⟩ | ⟨rel, hrel, r, rfl⟩
  · obtain ⟨h1, h2, h3⟩ := schedule_excludes s (sched s) p (schedule_shape_all s sched hs)
      (absent_not_candidate s p ha) ha.2.2
    obtain ⟨d1, d2, d3⟩ := dispatch_fields (sched s)
    refine ⟨by rw [d1]; exact h1, by rw [d2]; exact h2, ?_⟩
    rintro ⟨r, hr⟩
    rw [d3] at hr
    exact h3 ⟨r, hr⟩
  · rcases acquire_end M s r acq hacq with h | ⟨c, hc, h⟩
    · exact absent_same_places s _ p h ha
    · exact absent_blocked_on s _ r c p hc h ha
  · rcases release_end s r rel hrel with h | ⟨w, h⟩
    · exact absent_same_places s _ p h ha
    · exact absent_woken_from s _ r w p h ha

/-- C25: when a process `c`, the current one in particular, has
`age == lifespan` and is in no queue (WAITING or not), each of the seven
schedule functions returns some other process or none and leaves `c` out of the
ready queue and of every wait queue; once the driver has made the returned
process current, `c` is not current and in no queue, and it stays so through
every later sequence of hook steps (`schedule()` with dispatch, acquire,
release, of any variant and on any resource). -/
theorem finished_never_reappears (M : Nat) (s : State) (c : Nat)
    (hage : (s.procs c).age = (s.procs c).lifespan)
    (hrq : c ∉ s.readyqueue) (hw : ¬ in_wait s c) :
    ∀ sched ∈ [fifo_schedule, sjf_schedule, srtf_schedule, rr_schedule, prio_schedule,
        pcp_schedule, pip_schedule],
      (sched s).1 ≠ some c ∧ c ∉ (sched s).2.readyqueue ∧ ¬ in_wait (sched s).2 c ∧
      ∀ t, Relation.ReflTransGen (hook_step M) (dispatch (sched s)) t → absent t c := by
  intro sched hs
  have hnc : c ∉ candidates s := by
    intro hin
    rcases (mem_candidates s c).1 hin with h1 | ⟨_, h2⟩
    · exact hrq h1
    · have h3 : (s.procs c).age < (s.procs c).lifespan := h2
      rw [hage] at h3
      exact lt_irrefl _ h3
  obtain ⟨h1, h2, h3⟩ := schedule_excludes s (sched s) c (schedule_shape_all s sched hs) hnc hw
  refine ⟨h1, h2, h3, ?_⟩
  obtain ⟨d1, d2, d3⟩ := dispatch_fields (sched s)
  have h0 : absent (dispatch (sched s)) c := by
    refine ⟨by rw [d1]; exact h1, by rw [d2]; exact h2, ?_⟩
    rintro ⟨r, hr⟩
    rw [d3] at hr
    exact h3 ⟨r, hr⟩
  intro t ht
  induction ht with
  | refl => exact h0
  | tail _ hstep ih => exact absent_hook_step M _ _ c hstep ih

/-- C25 at the sample state where the finished process 5 is current:
`prio_schedule` returns process 1, and after the dispatch and a later
`pip_acquire` of resource 2 and `fcfs_release` of it, process 5 is not current
and in no queue. -/
theorem finished_never_reappears_witness :
    demo_done.current = some 5 ∧ (demo_done.procs 5).age = (demo_done.procs 5).lifespan ∧
    (prio_schedule demo_done).1 = some 1 ∧
    absent (final_state id (fcfs_release
      (final_state Prod.snd (pip_acquire (dispatch (prio_schedule demo_done)) 2)) 2)) 5 := by
  have h := finished_never_reappears 64 demo_done 5 rfl (by decide)
    (by rintro ⟨r, hr⟩; cases hr) prio_schedule (by simp)
  have step1 : hook_step 64 (dispatch (prio_schedule demo_done))
      (final_state Prod.snd (pip_acquire (dispatch (prio_schedule demo_done)) 2)) :=
    Or.inr (Or.inl ⟨pip_acquire, by simp, 2, rfl⟩)
  have step2 : hook_step 64
      (final_state Prod.snd (pip_acquire (dispatch (prio_schedule demo_done)) 2))
      (final_state id (fcfs_release
        (final_state Prod.snd (pip_acquire (dispatch (prio_schedule demo_done)) 2)) 2)) :=
    Or.inr (Or.inr ⟨fcfs_release, by simp, 2, rfl⟩)
  exact ⟨rfl, rfl, by decide,
    h.2.2.2 _ (Relation.ReflTransGen.tail (Relation.ReflTransGen.single step1) step2)⟩

/-! ## The wait-queue invariant of the resource table -/

/-- Owners after the blocking tail of an acquire are the owners before it. -/
theorem blocked_tail_owner (s1 : State) (r c r' : Nat) :
    (((s1.set_status c ProcessStatus.PROCESS_WAIT).wait_add_tail r c).resources r').owner
      = (s1.resources r').owner := by
  by_cases e : r' = r
  · subst e; simp [State.wait_add_tail, State.set_status]
  · simp [State.wait_add_tail, State.set_status, Function.update_noteq e]

/-- How an acquire call by the current process `c` ends, owners included: on a
free resource nothing moves and `c` becomes its owner; on a taken one `c` is
blocked on it and every owner stays. -/
theorem acquire_cases (M : Nat) (s : State) (r c : Nat) (hcur : s.current = some c) :
    ∀ acq ∈ [fcfs_acquire, pcp_acquire M, pip_acquire],
      ((s.resources r).owner = none ∧
        same_places s (final_state Prod.snd (acq s r)) ∧
        ((final_state Prod.snd (acq s r)).resources r).owner = some c ∧
        ∀ r', r' ≠ r → ((final_state Prod.snd (acq s r)).resources r').owner
          = (s.resources r').owner) ∨
      (∃ o, (s.resources r).owner = some o ∧
        blocked_on s (final_state Prod.snd (acq s r)) r c ∧
        ∀ r', ((final_state Prod.snd (acq s r)).resources r').owner
          = (s.resources r').owner) := by
  intro acq ha
  have hrefl : same_places s s := ⟨rfl, rfl, fun _ => rfl, fun _ => rfl⟩
  have hset : ((s.set_owner r s.current).resources r).owner = some c := by
    simp [State.set_owner, hcur]
  have hoth : ∀ r', r' ≠ r → ((s.set_owner r s.current).resources r').owner
      = (s.resources r').owner := by
    intro r' e
    simp [State.set_owner, Function.update_noteq e]
  simp only [List.mem_cons, List.mem_singleton, List.not_mem_nil, or_false] at ha
  cases ho : (s.resources r).owner with
  | none =>
    left
    rcases ha with rfl | rfl | rfl
    · unfold fcfs_acquire
      rw [ho]
      exact ⟨rfl, same_places_set_owner s r _, hset, hoth⟩
    · unfold pcp_acquire
      rw [ho]
      have h1 : (s.set_owner r s.current).current = some c := hcur
      simp only [h1]
      exact ⟨trivial, same_places_trans _ _ _ (same_places_set_owner s r _)
        (same_places_set_prio _ c M), hset, hoth⟩
    · unfold pip_acquire
      rw [ho]
      exact ⟨rfl, same_places_set_owner s r _, hset, hoth⟩
  | some o =>
    right
    refine ⟨o, rfl, ?_⟩
    rcases ha with rfl | rfl | rfl
    · unfold fcfs_acquire
      rw [ho]
      simp only [hcur]
      exact ⟨blocked_on_tail s s r c hrefl, fun r' => blocked_tail_owner s r c r'⟩
    · unfold pcp_acquire
      rw [ho]
      simp only [hcur]
      exact ⟨blocked_on_tail s s r c hrefl, fun r' => blocked_tail_owner s r c r'⟩
    · unfold pip_acquire
      rw [ho]
      simp only [hcur]
      by_cases hp : (s.procs o).prio < (s.procs c).prio
      · rw [if_pos hp]
        exact ⟨blocked_on_tail s _ r c (same_places_set_prio s o _),
          fun r' => blocked_tail_owner (s.set_prio o (s.procs c).prio) r c r'⟩
      · rw [if_neg hp]
        exact ⟨blocked_on_tail s s r c hrefl, fun r' => blocked_tail_owner s r c r'⟩

/-- Owners after the wake-up tail of a release are the owners before it. -/
theorem wake_tail_owner (s1 : State) (r w r' : Nat) :
    ((final_state id
      (if (s1.procs w).status ≠ ProcessStatus.PROCESS_WAIT then
        Except.error (Halt.assert_waiter, s1)
      else
        Except.ok (((s1.wait_del r w).set_status w
          ProcessStatus.PROCESS_READY).ready_add_tail w))).resources r').owner
      = (s1.resources r').owner := by
  by_cases hst : (s1.procs w).status ≠ ProcessStatus.PROCESS_WAIT
  · rw [if_pos hst]
    rfl
  · rw [if_neg hst]
    by_cases e : r' = r
    · subst e
      simp [final_state, State.ready_add_tail, State.set_status, State.wait_del]
    · simp [final_state, State.ready_add_tail, State.set_status, State.wait_del,
        Function.update_noteq e]

/-- A release by the owning current process frees the resource and leaves the
owner of every other resource, whether the call returns or stops at the waiter
assertion. -/
theorem release_owner_frame (s : State) (r c : Nat) (hcur : s.current = some c)
    (hown : (s.resources r).owner = some c) :
    ∀ rel ∈ [fcfs_release, pcp_release, pip_release],
      ((final_state id (rel s r)).resources r).owner = none ∧
      ∀ r', r' ≠ r → ((final_state id (rel s r)).resources r').owner
        = (s.resources r').owner := by
  intro rel hrel
  have hif : ¬ (s.resources r).owner ≠ s.current := by rw [hown, hcur]; simp
  have hclr : ∀ s0 : State, ((s0.set_owner r none).resources r).owner = none := by
    intro s0; simp [State.set_owner]
  have hoth : ∀ (s0 : State) r', r' ≠ r → ((s0.set_owner r none).resources r').owner
      = (s0.resources r').owner := by
    intro s0 r' e
    simp [State.set_owner, Function.update_noteq e]
  simp only [List.mem_cons, List.mem_singleton, List.not_mem_nil, or_false] at hrel
  rcases hrel with rfl | rfl | rfl
  · unfold fcfs_release
    rw [if_neg hif]
    dsimp only
    cases ((s.set_owner r none).resources r).waitqueue with
    | nil => exact ⟨hclr s, hoth s⟩
    | cons w ws =>
      refine ⟨?_, ?_⟩
      · rw [wake_tail_owner]; exact hclr s
      · intro r' e
        rw [wake_tail_owner]; exact hoth s r' e
  · unfold pcp_release
    rw [if_neg hif]
    simp only [hown]
    cases (((s.set_prio c (s.procs c).prio_orig).set_owner r none).resources r).waitqueue with
    | nil => exact ⟨hclr _, hoth _⟩
    | cons w ws =>
      refine ⟨?_, ?_⟩
      · rw [wake_tail_owner]; exact hclr _
      · intro r' e
        rw [wake_tail_owner]; exact hoth _ r' e
  · unfold pip_release
    rw [if_neg hif]
    simp only [hown, hcur]
    cases (((s.set_prio c (s.procs c).prio_orig).set_owner r none).resources r).waitqueue with
    | nil => exact ⟨hclr _, hoth _⟩
    | cons w ws =>
      refine ⟨?_, ?_⟩
      · rw [wake_tail_owner]; exact hclr _
      · intro r' e
        rw [wake_tail_owner]; exact hoth _ r' e

/-- The sample state satisfies the wait-queue invariant. -/
theorem demo_wait_inv : wait_inv demo := by
  refine ⟨?_, ?_⟩
  · intro r1 r2 p h1 h2
    rw [((demo_waitqueue r1 p).1 h1).1, ((demo_waitqueue r2 p).1 h2).1]
  · intro r p ho hp
    obtain ⟨rfl, h⟩ := (demo_waitqueue r p).1 hp
    have e : (0 : Nat) = p := Option.some.inj ho
    subst e
    rcases h with h | h <;> exact absurd h (by decide)

/-- C26, counterexample: in the sample state, where the invariant holds, the
current process 0 owns resource 0; when it requests resource 0 again, each of
the three acquire functions appends it to the wait queue of that resource while
it stays the owner, so the invariant fails afterwards. -/
theorem wait_inv_broken_by_rerequest :
    wait_inv demo ∧ demo.current = some 0 ∧ (demo.resources 0).owner = some 0 ∧
    ((final_state Prod.snd (fcfs_acquire demo 0)).resources 0).owner = some 0 ∧
    ((final_state Prod.snd (fcfs_acquire demo 0)).resources 0).waitqueue = [3, 4, 0] ∧
    ¬ wait_inv (final_state Prod.snd (fcfs_acquire demo 0)) ∧
    ¬ wait_inv (final_state Prod.snd (pcp_acquire 64 demo 0)) ∧
    ¬ wait_inv (final_state Prod.snd (pip_acquire demo 0)) :=
  ⟨demo_wait_inv, rfl, rfl, by decide, by decide,
    fun h => h.not_own 0 0 (by decide) (by decide),
    fun h => h.not_own 0 0 (by decide) (by decide),
    fun h => h.not_own 0 0 (by decide) (by decide)⟩

/-- C26, amended: from a state with the wait-queue invariant whose current
process `c` is in no wait queue, every acquire of a resource that `c` does not
own and every release of a resource that `c` owns ends in a state with the
invariant; an acquire of a resource that `c` owns ends with `c` as owner and in
the wait queue of that resource, so without the invariant. -/
theorem wait_inv_preserved (M : Nat) (s : State) (r c : Nat) (h : wait_inv s)
    (hcur : s.current = some c) (hw : ¬ in_wait s c) :
    (∀ acq ∈ [fcfs_acquire, pcp_acquire M, pip_acquire],
      ((s.resources r).owner ≠ some c → wait_inv (final_state Prod.snd (acq s r))) ∧
      ((s.resources r).owner = some c →
        ((final_state Prod.snd (acq s r)).resources r).owner = some c ∧
        c ∈ ((final_state Prod.snd (acq s r)).resources r).waitqueue ∧
        ¬ wait_inv (final_state Prod.snd (acq s r)))) ∧
    (∀ rel ∈ [fcfs_release, pcp_release, pip_release],
      (s.resources r).owner = some c → wait_inv (final_state id (rel s r))) := by
  refine ⟨?_, ?_⟩
  · intro acq hacq
    refine ⟨?_, ?_⟩
    · intro hne
      rcases acquire_cases M s r c hcur acq hacq with
        ⟨_, hsp, hor, hoth⟩ | ⟨o, ho, hb, hown⟩
      · obtain ⟨_, _, hwq, _⟩ := hsp
        refine ⟨?_, ?_⟩
        · intro r1 r2 p h1 h2
          rw [hwq] at h1 h2
          exact h.one_queue r1 r2 p h1 h2
        · intro r' p hp hin
          rw [hwq] at hin
          by_cases e : r' = r
          · subst e
            rw [hor] at hp
            have e2 : c = p := Option.some.inj hp
            subst e2
            exact hw ⟨r', hin⟩
          · rw [hoth r' e] at hp
            exact h.not_own r' p hp hin
      · obtain ⟨_, _, hwr, hwo, _, _⟩ := hb
        have back : ∀ r' p, p ∈ ((final_state Prod.snd (acq s r)).resources r').waitqueue →
            p ∈ (s.resources r').waitqueue ∨ (p = c ∧ r' = r) := by
          intro r' p hin
          by_cases e : r' = r
          · subst e
            rw [hwr, List.mem_append, List.mem_singleton] at hin
            rcases hin with hin | hin
            · exact Or.inl hin
            · exact Or.inr ⟨hin, rfl⟩
          · rw [hwo r' e] at hin
            exact Or.inl hin
        refine ⟨?_, ?_⟩
        · intro r1 r2 p h1 h2
          rcases back r1 p h1 with a1 | ⟨rfl, rfl⟩
          · rcases back r2 p h2 with a2 | ⟨rfl, rfl⟩
            · exact h.one_queue r1 r2 p a1 a2
            · exact absurd ⟨r1, a1⟩ hw
          · rcases back r2 p h2 with a2 | ⟨_, rfl⟩
            · exact absurd ⟨r2, a2⟩ hw
            · rfl
        · intro r' p hp hin
          rw [hown r'] at hp
          rcases back r' p hin with a | ⟨rfl, rfl⟩
          · exact h.not_own r' p hp a
          · exact hne hp
    · intro hown
      rcases acquire_cases M s r c hcur acq hacq with
        ⟨hfree, _⟩ | ⟨o, _, hb, hkeep⟩
      · rw [hown] at hfree
        cases hfree
      · obtain ⟨_, _, hwr, _⟩ := hb
        have h1 : ((final_state Prod.snd (acq s r)).resources r).owner = some c := by
          rw [hkeep r]; exact hown
        have h2 : c ∈ ((final_state Prod.snd (acq s r)).resources r).waitqueue := by
          rw [hwr]; simp
        exact ⟨h1, h2, fun hi => hi.not_own r c h1 h2⟩
  · intro rel hrel hown
    obtain ⟨hfree, hoth⟩ := release_owner_frame s r c hcur hown rel hrel
    have back : ∀ r' p, p ∈ ((final_state id (rel s r)).resources r').waitqueue →
        p ∈ (s.resources r').waitqueue := by
      intro r' p hin
      rcases release_end s r rel hrel with hsp | ⟨w, hwk⟩
      · rw [hsp.2.2.1 r'] at hin
        exact hin
      · obtain ⟨_, _, _, hwr, hwo, _, _⟩ := hwk
        by_cases e : r' = r
        · subst e
          rw [hwr] at hin
          exact List.mem_of_mem_erase hin
        · rw [hwo r' e] at hin
          exact hin
    refine ⟨?_, ?_⟩
    · intro r1 r2 p h1 h2
      exact h.one_queue r1 r2 p (back r1 p h1) (back r2 p h2)
    · intro r' p hp hin
      by_cases e : r' = r
      · subst e
        rw [hfree] at hp
        cases hp
      · rw [hoth r' e] at hp
        exact h.not_own r' p hp (back r' p hin)

/-- C26, amended, at the sample state: process 0 requests the free resource 2
and releases resource 0, which it owns. -/
theorem wait_inv_preserved_witness :
    wait_inv (final_state Prod.snd (pip_acquire demo 2)) ∧
    wait_inv (final_state id (fcfs_release demo 0)) :=
  have hw : ¬ in_wait demo 0 := by
    rintro ⟨r, hr⟩
    rcases ((demo_waitqueue r 0).1 hr).2 with e | e <;> exact absurd e (by decide)
  ⟨((wait_inv_preserved 64 demo 2 0 demo_wait_inv rfl hw).1 pip_acquire (by simp)).1
      (by decide),
    (wait_inv_preserved 64 demo 0 0 demo_wait_inv rfl hw).2 fcfs_release (by simp) rfl⟩

/-! ## The wait queue under the inheritance protocol -/

/-- A failed `pip_acquire` by the current process `c`, the result state given in
full: the owner is boosted when its priority is below that of `c`, then `c` is
blocked at the tail of the wait queue. -/
theorem pip_acquire_taken_eq (s : State) (r c o : Nat) (hcur : s.current = some c)
    (ho : (s.resources r).owner = some o) :
    pip_acquire s r = Except.ok (false,
      ((if (s.procs o).prio < (s.procs c).prio then s.set_prio o (s.procs c).prio
        else s).set_status c ProcessStatus.PROCESS_WAIT).wait_add_tail r c) := by
  by_cases hp : (s.procs o).prio < (s.procs c).prio
  · simp [pip_acquire, ho, hcur, hp]
  · simp [pip_acquire, ho, hcur, hp]

/-- Priorities after the boost of `pip_acquire`: the owner has the maximum of
its priority and that of the requester, every other process its own. -/
theorem pip_boost_prio (s : State) (o c p : Nat) :
    ((if (s.procs o).prio < (s.procs c).prio then s.set_prio o (s.procs c).prio
      else s).procs p).prio
      = if p = o then max (s.procs o).prio (s.procs c).prio else (s.procs p).prio := by
  by_cases hlt : (s.procs o).prio < (s.procs c).prio
  · rw [if_pos hlt, max_eq_right (le_of_lt hlt)]
    by_cases e : p = o
    · subst e
      simp [State.set_prio]
    · simp [State.set_prio, Function.update_noteq e, e]
  · rw [if_neg hlt, max_eq_left (not_lt.1 hlt)]
    by_cases e : p = o
    · subst e
      simp
    · simp [e]

/-- The blocking tail of an acquire writes no priority. -/
theorem blocked_tail_prio (s1 : State) (r c p : Nat) :
    (((s1.set_status c ProcessStatus.PROCESS_WAIT).wait_add_tail r c).procs p).prio
      = (s1.procs p).prio := by
  by_cases e : p = c
  · subst e
    simp [State.wait_add_tail, State.set_status]
  · simp [State.wait_add_tail, State.set_status, Function.update_noteq e]

/-- The blocking tail of an acquire appends the requester to the wait queue. -/
theorem blocked_tail_waitqueue (s1 : State) (r c : Nat) :
    (((s1.set_status c ProcessStatus.PROCESS_WAIT).wait_add_tail r c).resources r).waitqueue
      = (s1.resources r).waitqueue ++ [c] := by
  simp [State.wait_add_tail, State.set_status]

/-- Priorities after a failed `pip_acquire` of `r`, owned by `o`, by the current
process `c`. -/
theorem pip_acquire_taken_prio (s : State) (r c o : Nat) (hcur : s.current = some c)
    (ho : (s.resources r).owner = some o) (p : Nat) :
    ((final_state Prod.snd (pip_acquire s r)).procs p).prio
      = if p = o then max (s.procs o).prio (s.procs c).prio else (s.procs p).prio := by
  rw [pip_acquire_taken_eq s r c o hcur ho]
  exact (blocked_tail_prio _ r c p).trans (pip_boost_prio s o c p)

/-- The wait queue of `r` after a failed `pip_acquire` of `r` by the current
process `c`. -/
theorem pip_acquire_taken_waitqueue (s : State) (r c o : Nat) (hcur : s.current = some c)
    (ho : (s.resources r).owner = some o) :
    ((final_state Prod.snd (pip_acquire s r)).resources r).waitqueue
      = (s.resources r).waitqueue ++ [c] := by
  rw [pip_acquire_taken_eq s r c o hcur ho]
  refine (blocked_tail_waitqueue _ r c).trans ?_
  by_cases hp : (s.procs o).prio < (s.procs c).prio
  · rw [if_pos hp]
    rfl
  · rw [if_neg hp]

/-- C21, counterexample: process 0 owns resource 2, whose wait queue holds
process 2 (priority 2) alone and so is in descending order of priority; the
current process 1 (priority 3) asks for resource 2 with `pip_acquire`, is
refused and appended behind process 2, and the wait queue 2, 1 has priorities
2, 3: it is in arrival order, not in descending order of priority. -/
theorem pip_waitqueue_unsorted :
    demo_pip_queue.current = some 1 ∧
    (demo_pip_queue.resources 2).owner = some 0 ∧
    (demo_pip_queue.resources 2).waitqueue = [2] ∧
    sorted_desc demo_pip_queue (demo_pip_queue.resources 2).waitqueue ∧
    (∃ t, pip_acquire demo_pip_queue 2 = Except.ok (false, t) ∧
      (t.resources 2).waitqueue = [2, 1] ∧
      (t.procs 2).prio = 2 ∧ (t.procs 1).prio = 3 ∧
      ¬ sorted_desc t (t.resources 2).waitqueue) := by
  refine ⟨rfl, by decide, by decide, ?_, final_state Prod.snd (pip_acquire demo_pip_queue 2),
    rfl, by decide, by decide, by decide, ?_⟩
  · unfold sorted_desc
    decide
  · unfold sorted_desc
    decide

/-- C21, amended: when the current process `c` calls `pip_acquire(r)` and `r` is
owned by `o`, the call fails and the wait queue of `r` is the previous one with
`c` appended at its tail; it is in descending order of priority afterwards
exactly when the previous waiters are and none of them has a priority below
that of `c`.  Only the priority of `o` can have changed, so with `o` neither the
requester nor a waiter this reads on the priorities before the call. -/
theorem pip_acquire_appends (s : State) (r c o : Nat) (hcur : s.current = some c)
    (ho : (s.resources r).owner = some o) :
    ∃ t, pip_acquire s r = Except.ok (false, t) ∧
      (t.resources r).waitqueue = (s.resources r).waitqueue ++ [c] ∧
      (sorted_desc t (t.resources r).waitqueue ↔
        sorted_desc t (s.resources r).waitqueue ∧
        ∀ w ∈ (s.resources r).waitqueue, (t.procs c).prio ≤ (t.procs w).prio) ∧
      (∀ p, p ≠ o → (t.procs p).prio = (s.procs p).prio) ∧
      (o ≠ c → o ∉ (s.resources r).waitqueue →
        (sorted_desc t (t.resources r).waitqueue ↔
          sorted_desc s (s.resources r).waitqueue ∧
          ∀ w ∈ (s.resources r).waitqueue, (s.procs c).prio ≤ (s.procs w).prio)) := by
  have hq := pip_acquire_taken_waitqueue s r c o hcur ho
  have hpr := pip_acquire_taken_prio s r c o hcur ho
  have hother : ∀ p, p ≠ o →
      ((final_state Prod.snd (pip_acquire s r)).procs p).prio = (s.procs p).prio := by
    intro p hp
    rw [hpr p, if_neg hp]
  have hsplit : sorted_desc (final_state Prod.snd (pip_acquire s r))
        ((final_state Prod.snd (pip_acquire s r)).resources r).waitqueue ↔
      sorted_desc (final_state Prod.snd (pip_acquire s r)) (s.resources r).waitqueue ∧
      ∀ w ∈ (s.resources r).waitqueue,
        ((final_state Prod.snd (pip_acquire s r)).procs c).prio
          ≤ ((final_state Prod.snd (pip_acquire s r)).procs w).prio := by
    rw [hq]
    unfold sorted_desc
    rw [List.pairwise_append]
    simp
  refine ⟨final_state Prod.snd (pip_acquire s r), ?_, hq, hsplit, hother, ?_⟩
  · rw [pip_acquire_taken_eq s r c o hcur ho]
    rfl
  · intro hoc hnw
    rw [hsplit, hother c (Ne.symm hoc)]
    have hsame : sorted_desc (final_state Prod.snd (pip_acquire s r)) (s.resources r).waitqueue
        ↔ sorted_desc s (s.resources r).waitqueue := by
      unfold sorted_desc
      constructor
      · intro h
        refine h.imp_of_mem ?_
        intro a b ha hb hab
        rw [hother a (fun e => hnw (e ▸ ha)), hother b (fun e => hnw (e ▸ hb))] at hab
        exact hab
      · intro h
        refine h.imp_of_mem ?_
        intro a b ha hb hab
        rw [hother a (fun e => hnw (e ▸ ha)), hother b (fun e => hnw (e ▸ hb))]
        exact hab
    rw [hsame]
    constructor
    · rintro ⟨h1, h2⟩
      refine ⟨h1, fun w hw => ?_⟩
      have := h2 w hw
      rw [hother w (fun e => hnw (e ▸ hw))] at this
      exact this
    · rintro ⟨h1, h2⟩
      refine ⟨h1, fun w hw => ?_⟩
      rw [hother w (fun e => hnw (e ▸ hw))]
      exact h2 w hw

/-- C21, amended, at the sample state: process 1 is appended behind process 2,
and the queue is not in descending order since process 2 has the lower
priority. -/
theorem pip_acquire_appends_witness :
    ∃ t, pip_acquire demo_pip_queue 2 = Except.ok (false, t) ∧
      (t.resources 2).waitqueue = (demo_pip_queue.resources 2).waitqueue ++ [1] ∧
      (sorted_desc t (t.resources 2).waitqueue ↔
        sorted_desc t (demo_pip_queue.resources 2).waitqueue ∧
        ∀ w ∈ (demo_pip_queue.resources 2).waitqueue, (t.procs 1).prio ≤ (t.procs w).prio) := by
  obtain ⟨t, h1, h2, h3, _⟩ := pip_acquire_appends demo_pip_queue 2 1 0 rfl (by decide)
  exact ⟨t, h1, h2, h3⟩

/-! ## Release under the inheritance protocol -/

/-- With the current process `c` owning `r`, `pip_release(r)` ends in one of
three ways, the result state given in full: no waiter, or the waiter `w` found
by the scan (the first of greatest priority, priorities read after the reset of
the owner) is not WAITING, or `w` is woken. -/
theorem pip_release_cases (s : State) (r c : Nat) (hcur : s.current = some c)
    (hown : (s.resources r).owner = some c) :
    ((s.resources r).waitqueue = [] ∧
      pip_release s r = Except.ok ((s.set_prio c (s.procs c).prio_orig).set_owner r none)) ∨
    (∃ pre w post, (s.resources r).waitqueue = pre ++ w :: post ∧
      (∀ x ∈ pre, ((s.set_prio c (s.procs c).prio_orig).procs x).prio
        < ((s.set_prio c (s.procs c).prio_orig).procs w).prio) ∧
      (∀ x ∈ post, ((s.set_prio c (s.procs c).prio_orig).procs x).prio
        ≤ ((s.set_prio c (s.procs c).prio_orig).procs w).prio) ∧
      (((s.procs w).status ≠ ProcessStatus.PROCESS_WAIT ∧
          pip_release s r = Except.error (Halt.assert_waiter,
            (s.set_prio c (s.procs c).prio_orig).set_owner r none)) ∨
        ((s.procs w).status = ProcessStatus.PROCESS_WAIT ∧
          pip_release s r = Except.ok
            (((((s.set_prio c (s.procs c).prio_orig).set_owner r none).wait_del r w).set_status w
              ProcessStatus.PROCESS_READY).ready_add_tail w)))) := by
  have hwq : (((s.set_prio c (s.procs c).prio_orig).set_owner r none).resources r).waitqueue
      = (s.resources r).waitqueue := by
    simp [State.set_owner, State.set_prio]
  have hif : ¬ (s.resources r).owner ≠ s.current := by rw [hown, hcur]; simp
  have hst : ∀ p, (((s.set_prio c (s.procs c).prio_orig).set_owner r none).procs p).status
      = (s.procs p).status := fun p => set_prio_status s c _ p
  cases hq : (s.resources r).waitqueue with
  | nil =>
    left
    refine ⟨rfl, ?_⟩
    unfold pip_release
    rw [if_neg hif]
    simp only [hown, hcur]
    rw [hwq, hq]
  | cons first rest =>
    right
    obtain ⟨pre, post, hsplit, hpre, hpost⟩ :=
      pick_first
        (fun m next =>
          decide ((((s.set_prio c (s.procs c).prio_orig).set_owner r none).procs m).prio
            < (((s.set_prio c (s.procs c).prio_orig).set_owner r none).procs next).prio))
        (fun p => OrderDual.toDual
          (((s.set_prio c (s.procs c).prio_orig).set_owner r none).procs p).prio)
        (by intro a b; simp) first rest
    unfold pip_release
    rw [if_neg hif]
    simp only [hown, hcur]
    rw [hwq, hq]
    dsimp only
    generalize list_for_each_pick _ first (first :: rest) = w at hsplit hpre hpost ⊢
    refine ⟨pre, w, post, hsplit, fun x hx => OrderDual.toDual_lt_toDual.1 (hpre x hx),
      fun x hx => OrderDual.toDual_le_toDual.1 (hpost x hx), ?_⟩
    by_cases hw : (s.procs w).status = ProcessStatus.PROCESS_WAIT
    · right
      refine ⟨hw, ?_⟩
      rw [if_neg (by rw [hst, hw]; simp)]
    · left
      refine ⟨hw, ?_⟩
      rw [if_pos (by rw [hst]; exact hw)]

/-- Priorities after the reset of `pip_release`. -/
theorem reset_prio (s : State) (c p : Nat) :
    ((s.set_prio c (s.procs c).prio_orig).procs p).prio
      = if p = c then (s.procs c).prio_orig else (s.procs p).prio := by
  by_cases e : p = c
  · subst e
    simp [State.set_prio]
  · simp [State.set_prio, Function.update_noteq e, e]

/-- C22: when the current process `c` owns `r`, the wait queue of `r` is not
empty and its entries are WAITING, `pip_release(r)` returns; it has cleared the
owner and taken out of the wait queue one process `w`, the first one of greatest
priority (no waiter has a greater priority, every waiter before `w` has a
strictly smaller one), the other waiters staying in their order; `w` is READY at
the tail of the ready queue.  Priorities are those after the call, in which only
the priority of `c` was written (reset to its `prio_orig`), so with `c` not among
the waiters they are the priorities before the call.  Nothing else changes. -/
theorem pip_release_wakes_highest (s : State) (r c : Nat) (hcur : s.current = some c)
    (hown : (s.resources r).owner = some c) (hne : (s.resources r).waitqueue ≠ [])
    (hwait : ∀ x ∈ (s.resources r).waitqueue, (s.procs x).status = ProcessStatus.PROCESS_WAIT) :
    ∃ pre w post t, (s.resources r).waitqueue = pre ++ w :: post ∧
      pip_release s r = Except.ok t ∧
      (t.resources r).owner = none ∧
      (t.resources r).waitqueue = pre ++ post ∧
      (∀ x ∈ (s.resources r).waitqueue, (t.procs x).prio ≤ (t.procs w).prio) ∧
      (∀ x ∈ pre, (t.procs x).prio < (t.procs w).prio) ∧
      (c ∉ (s.resources r).waitqueue →
        (∀ x ∈ (s.resources r).waitqueue, (s.procs x).prio ≤ (s.procs w).prio) ∧
        (∀ x ∈ pre, (s.procs x).prio < (s.procs w).prio)) ∧
      (t.procs w).status = ProcessStatus.PROCESS_READY ∧
      t.readyqueue = s.readyqueue ++ [w] ∧
      (∀ p, p ≠ c → (t.procs p).prio = (s.procs p).prio) ∧
      (t.procs c).prio = (s.procs c).prio_orig ∧
      (∀ p, p ≠ w → (t.procs p).status = (s.procs p).status) ∧
      t.current = s.current ∧
      (∀ r', r' ≠ r → t.resources r' = s.resources r') := by
  rcases pip_release_cases s r c hcur hown with ⟨hnil, _⟩ | ⟨pre, w, post, hsplit, hpre, hpost, hres⟩
  · exact absurd hnil hne
  · have hwin : w ∈ (s.resources r).waitqueue := by rw [hsplit]; simp
    rcases hres with ⟨hnw, _⟩ | ⟨_, hres⟩
    · exact absurd (hwait w hwin) hnw
    · have hkeep := wake_keeps_prio (s.set_prio c (s.procs c).prio_orig) r w
      have hall : ∀ x ∈ (s.resources r).waitqueue,
          ((s.set_prio c (s.procs c).prio_orig).procs x).prio
            ≤ ((s.set_prio c (s.procs c).prio_orig).procs w).prio := by
        intro x hx
        rw [hsplit, List.mem_append, List.mem_cons] at hx
        rcases hx with hx | rfl | hx
        · exact le_of_lt (hpre x hx)
        · exact le_refl _
        · exact hpost x hx
      have hmem : w ∉ pre := fun hin => lt_irrefl _ (hpre w hin)
      refine ⟨pre, w, post, _, hsplit, hres, ?_, ?_, ?_, ?_, ?_, ?_, rfl, ?_, ?_, ?_, rfl, ?_⟩
      · simp [State.ready_add_tail, State.set_status, State.wait_del, State.set_owner]
      · have e : ((((((s.set_prio c (s.procs c).prio_orig).set_owner r none).wait_del r
            w).set_status w ProcessStatus.PROCESS_READY).ready_add_tail w).resources
            r).waitqueue = ((s.resources r).waitqueue).erase w := by
          simp [State.ready_add_tail, State.set_status, State.wait_del, State.set_owner,
            State.set_prio]
        rw [e, hsplit]
        exact erase_split pre post w hmem
      · intro x hx
        rw [hkeep x, hkeep w]
        exact hall x hx
      · intro x hx
        rw [hkeep x, hkeep w]
        exact hpre x hx
      · intro hc
        have hx : ∀ x ∈ (s.resources r).waitqueue,
            ((s.set_prio c (s.procs c).prio_orig).procs x).prio = (s.procs x).prio := by
          intro x hx
          have hxc : x ≠ c := fun e => hc (e ▸ hx)
          rw [reset_prio, if_neg hxc]
        refine ⟨fun x hxin => ?_, fun x hxin => ?_⟩
        · have := hall x hxin
          rw [hx x hxin, hx w hwin] at this
          exact this
        · have hxq : x ∈ (s.resources r).waitqueue := by rw [hsplit]; simp [hxin]
          have := hpre x hxin
          rw [hx x hxq, hx w hwin] at this
          exact this
      · simp [State.ready_add_tail, State.set_status]
      · intro p hp
        rw [hkeep p, reset_prio, if_neg hp]
      · rw [hkeep c, reset_prio, if_pos rfl]
      · intro p hp
        rw [← set_prio_status s c (s.procs c).prio_orig p]
        simp [State.ready_add_tail, State.set_status, State.wait_del, State.set_owner,
          Function.update_noteq hp]
      · intro r' hr
        simp [State.ready_add_tail, State.set_status, State.wait_del, State.set_owner,
          State.set_prio, Function.update_noteq hr]

/-- C22 at the sample state: process 0 owns resource 0 with waiters 3
(priority 5) and 4 (priority 4); `pip_release(0)` wakes process 3 and leaves
process 4 waiting. -/
theorem pip_release_wakes_highest_witness :
    (demo.resources 0).waitqueue = [3, 4] ∧
    ((final_state id (pip_release demo 0)).resources 0).waitqueue = [4] ∧
    (final_state id (pip_release demo 0)).readyqueue = [1, 2, 3] ∧
    ∃ pre w post t, (demo.resources 0).waitqueue = pre ++ w :: post ∧
      pip_release demo 0 = Except.ok t ∧
      (t.resources 0).owner = none ∧
      (t.resources 0).waitqueue = pre ++ post ∧
      (∀ x ∈ (demo.resources 0).waitqueue, (t.procs x).prio ≤ (t.procs w).prio) ∧
      (∀ x ∈ pre, (t.procs x).prio < (t.procs w).prio) := by
  obtain ⟨pre, w, post, t, h1, h2, h3, h4, h5, h6, _⟩ :=
    pip_release_wakes_highest demo 0 0 rfl rfl (by decide) (by decide)
  exact ⟨by decide, by decide, by decide, pre, w, post, t, h1, h2, h3, h4, h5, h6⟩

/-- C23, counterexample: process 0 (`prio_orig` 1) owns resources 2 and 3 and
has inherited priority 3 from process 1, which waits on resource 3.  When
process 0 releases resource 2 with `pip_release` it still owns resource 3, with
process 1 (priority 3) still waiting on it, and its priority is back to 1: not
the maximum of 1 and 3. -/
theorem pip_release_drops_inheritance :
    demo_pip_hold.current = some 0 ∧
    (demo_pip_hold.resources 2).owner = some 0 ∧
    (demo_pip_hold.resources 3).owner = some 0 ∧
    (demo_pip_hold.resources 3).waitqueue = [1] ∧
    (demo_pip_hold.procs 0).prio = 3 ∧
    pip_release demo_pip_hold 2 = Except.ok demo_pip_back ∧
    (demo_pip_back.resources 3).owner = some 0 ∧
    (demo_pip_back.resources 3).waitqueue = [1] ∧
    (demo_pip_back.procs 1).prio = 3 ∧
    (demo_pip_back.procs 0).prio_orig = 1 ∧
    (demo_pip_back.procs 0).prio = 1 ∧
    (demo_pip_back.procs 0).prio
      ≠ max (demo_pip_back.procs 0).prio_orig (demo_pip_back.procs 1).prio :=
  ⟨rfl, by decide, by decide, by decide, by decide, rfl, by decide, by decide, by decide,
    by decide, by decide, by decide⟩

/-- C23, amended: when the current process `c` owns `r`, `pip_release(r)` leaves
`c` with its `prio_orig` as priority, whatever it still holds and whoever waits
for it, and however the call ends; no other priority is written, `r` is free
afterwards and no other resource has changed.  The call returns when the
waiters of `r` are WAITING. -/
theorem pip_release_resets (s : State) (r c : Nat) (hcur : s.current = some c)
    (hown : (s.resources r).owner = some c) :
    ((final_state id (pip_release s r)).procs c).prio = (s.procs c).prio_orig ∧
    (∀ p, p ≠ c → ((final_state id (pip_release s r)).procs p).prio = (s.procs p).prio) ∧
    ((final_state id (pip_release s r)).resources r).owner = none ∧
    (∀ r', r' ≠ r → (final_state id (pip_release s r)).resources r' = s.resources r') ∧
    ((∀ x ∈ (s.resources r).waitqueue, (s.procs x).status = ProcessStatus.PROCESS_WAIT) →
      ∃ t, pip_release s r = Except.ok t) := by
  have hclr : (((s.set_prio c (s.procs c).prio_orig).set_owner r none).resources r).owner
      = none := by
    simp [State.set_owner]
  have hoth : ∀ r', r' ≠ r →
      ((s.set_prio c (s.procs c).prio_orig).set_owner r none).resources r' = s.resources r' := by
    intro r' e
    simp [State.set_owner, State.set_prio, Function.update_noteq e]
  have hp1 : (((s.set_prio c (s.procs c).prio_orig).set_owner r none).procs c).prio
      = (s.procs c).prio_orig := by
    show ((s.set_prio c (s.procs c).prio_orig).procs c).prio = _
    rw [reset_prio, if_pos rfl]
  have hp2 : ∀ p, p ≠ c →
      (((s.set_prio c (s.procs c).prio_orig).set_owner r none).procs p).prio
        = (s.procs p).prio := by
    intro p hp
    show ((s.set_prio c (s.procs c).prio_orig).procs p).prio = _
    rw [reset_prio, if_neg hp]
  rcases pip_release_cases s r c hcur hown with
    ⟨_, hres⟩ | ⟨pre, w, post, hsplit, _, _, ⟨hnw, hres⟩ | ⟨_, hres⟩⟩
  · rw [hres]
    exact ⟨hp1, hp2, hclr, hoth, fun _ => ⟨_, rfl⟩⟩
  · rw [hres]
    refine ⟨hp1, hp2, hclr, hoth, fun hall => ?_⟩
    exact absurd (hall w (by rw [hsplit]; simp)) hnw
  · rw [hres]
    have hkeep := wake_keeps_prio (s.set_prio c (s.procs c).prio_orig) r w
    refine ⟨?_, ?_, ?_, ?_, fun _ => ⟨_, rfl⟩⟩
    · show (((((((s.set_prio c (s.procs c).prio_orig).set_owner r none).wait_del r
        w).set_status w ProcessStatus.PROCESS_READY).ready_add_tail w).procs c).prio) = _
      rw [hkeep c, reset_prio, if_pos rfl]
    · intro p hp
      show (((((((s.set_prio c (s.procs c).prio_orig).set_owner r none).wait_del r
        w).set_status w ProcessStatus.PROCESS_READY).ready_add_tail w).procs p).prio) = _
      rw [hkeep p, reset_prio, if_neg hp]
    · simp [final_state, State.ready_add_tail, State.set_status, State.wait_del,
        State.set_owner]
    · intro r' hr
      simp [final_state, State.ready_add_tail, State.set_status, State.wait_del,
        State.set_owner, State.set_prio, Function.update_noteq hr]

/-- C23, amended, at the sample state: process 0 releases resource 2 while it
holds resource 3 with a waiter of priority 3. -/
theorem pip_release_resets_witness :
    ((final_state id (pip_release demo_pip_hold 2)).procs 0).prio
      = (demo_pip_hold.procs 0).prio_orig ∧
    (demo_pip_hold.procs 0).prio_orig = 1 ∧
    ((final_state id (pip_release demo_pip_hold 2)).resources 3).waitqueue = [1] ∧
    ((final_state id (pip_release demo_pip_hold 2)).procs 1).prio = 3 :=
  ⟨(pip_release_resets demo_pip_hold 2 0 rfl (by decide)).1, by decide, by decide, by decide⟩

/-! ## Inheritance and restoration on one resource -/

/-- The running maximum over a list: it bounds the start value and every entry,
and it is one of them. -/
theorem foldl_max_spec (f : Nat → Nat) (l : List Nat) (a : Nat) :
    a ≤ l.foldl (fun m w => max m (f w)) a ∧
    (∀ w ∈ l, f w ≤ l.foldl (fun m w => max m (f w)) a) ∧
    (l.foldl (fun m w => max m (f w)) a = a ∨
      ∃ w ∈ l, l.foldl (fun m w => max m (f w)) a = f w) := by
  induction l generalizing a with
  | nil => simp
  | cons x t ih =>
    obtain ⟨h1, h2, h3⟩ := ih (max a (f x))
    simp only [List.foldl_cons]
    refine ⟨le_trans (le_max_left _ _) h1, ?_, ?_⟩
    · intro w hw
      rcases List.mem_cons.1 hw with rfl | hw
      · exact le_trans (le_max_right _ _) h1
      · exact h2 w hw
    · rcases h3 with h3 | ⟨w, hw, h3⟩
      · rcases max_cases a (f x) with ⟨e, _⟩ | ⟨e, _⟩
        · left
          rw [h3, e]
        · right
          exact ⟨x, List.mem_cons_self _ _, by rw [h3, e]⟩
      · right
        exact ⟨w, List.mem_cons_of_mem _ hw, h3⟩

/-- The running maximum depends only on the values at the entries. -/
theorem foldl_max_congr (f g : Nat → Nat) (l : List Nat) (a : Nat)
    (h : ∀ x ∈ l, f x = g x) :
    l.foldl (fun m w => max m (f w)) a = l.foldl (fun m w => max m (g w)) a := by
  induction l generalizing a with
  | nil => rfl
  | cons x t ih =>
    simp only [List.foldl_cons]
    rw [h x (List.mem_cons_self _ _)]
    exact ih _ (fun y hy => h y (List.mem_cons_of_mem _ hy))

/-- One request for `r`, owned by `o`, by process `w`: the owner keeps `r` with
the maximum of its priority and that of `w`, no other priority and no
`prio_orig` changes, and `w` is WAITING at the tail of the wait queue. -/
theorem pip_request_facts (s : State) (r w o : Nat) (ho : (s.resources r).owner = some o) :
    ((pip_request s r w).resources r).owner = some o ∧
    ((pip_request s r w).procs o).prio = max (s.procs o).prio (s.procs w).prio ∧
    (∀ p, p ≠ o → ((pip_request s r w).procs p).prio = (s.procs p).prio) ∧
    (∀ p, ((pip_request s r w).procs p).prio_orig = (s.procs p).prio_orig) ∧
    ((pip_request s r w).resources r).waitqueue = (s.resources r).waitqueue ++ [w] ∧
    ((pip_request s r w).procs w).status = ProcessStatus.PROCESS_WAIT ∧
    (∀ p, p ≠ w → ((pip_request s r w).procs p).status = (s.procs p).status) := by
  have hcur : ({ s with current := some w } : State).current = some w := rfl
  have ho2 : (({ s with current := some w } : State).resources r).owner = some o := ho
  have hpr := pip_acquire_taken_prio { s with current := some w } r w o hcur ho2
  have hid := pip_acquire_identity { s with current := some w } r
  unfold pip_request
  rcases acquire_cases 0 { s with current := some w } r w hcur pip_acquire (by simp) with
    ⟨hfree, _⟩ | ⟨o2, _, hb, hown⟩
  · rw [ho2] at hfree
    cases hfree
  · obtain ⟨_, _, hwq, _, hst, hso⟩ := hb
    refine ⟨(hown r).trans ho, ?_, ?_, fun p => (hid p).2.2.2, hwq, hst, hso⟩
    · rw [hpr o, if_pos rfl]
    · intro p hp
      rw [hpr p, if_neg hp]

/-- The requests of `ws` for `r`, owned by `o` which is not among them: `o`
keeps `r`, its priority is the running maximum of its priority and theirs, no
other priority and no `prio_orig` changes, the requesters are appended to the
wait queue in order and are WAITING, and who was WAITING still is. -/
theorem pip_contend_facts (r o : Nat) (ws : List Nat) (hnot : o ∉ ws) :
    ∀ s : State, (s.resources r).owner = some o →
      ((pip_contend s r ws).resources r).owner = some o ∧
      ((pip_contend s r ws).procs o).prio
        = ws.foldl (fun m w => max m (s.procs w).prio) (s.procs o).prio ∧
      (∀ p, p ≠ o → ((pip_contend s r ws).procs p).prio = (s.procs p).prio) ∧
      (∀ p, ((pip_contend s r ws).procs p).prio_orig = (s.procs p).prio_orig) ∧
      ((pip_contend s r ws).resources r).waitqueue = (s.resources r).waitqueue ++ ws ∧
      (∀ p ∈ ws, ((pip_contend s r ws).procs p).status = ProcessStatus.PROCESS_WAIT) ∧
      (∀ p, (s.procs p).status = ProcessStatus.PROCESS_WAIT →
        ((pip_contend s r ws).procs p).status = ProcessStatus.PROCESS_WAIT) := by
  induction ws with
  | nil =>
    intro s ho
    exact ⟨ho, rfl, fun _ _ => rfl, fun _ => rfl, by simp [pip_contend], by simp,
      fun _ h => h⟩
  | cons w t ih =>
    intro s ho
    have hw : w ≠ o := fun e => hnot (by simp [e])
    have ht : o ∉ t := fun e => hnot (List.mem_cons_of_mem _ e)
    obtain ⟨a1, a2, a3, a4, a5, a6, a7⟩ := pip_request_facts s r w o ho
    obtain ⟨b1, b2, b3, b4, b5, b6, b7⟩ := ih ht (pip_request s r w) a1
    have keep : ∀ p, ((pip_request s r w).procs p).status = ProcessStatus.PROCESS_WAIT →
        ((pip_contend s r (w :: t)).procs p).status = ProcessStatus.PROCESS_WAIT := b7
    refine ⟨b1, ?_, ?_, ?_, ?_, ?_, ?_⟩
    · show ((pip_contend (pip_request s r w) r t).procs o).prio = _
      rw [b2, a2, List.foldl_cons]
      exact foldl_max_congr _ _ t _ (fun x hx => a3 x (fun e => ht (e ▸ hx)))
    · intro p hp
      exact (b3 p hp).trans (a3 p hp)
    · intro p
      exact (b4 p).trans (a4 p)
    · show ((pip_contend (pip_request s r w) r t).resources r).waitqueue = _
      rw [b5, a5]
      simp
    · intro p hp
      rcases List.mem_cons.1 hp with rfl | hp
      · exact keep p a6
      · exact b6 p hp
    · intro p hp
      by_cases e : p = w
      · subst e
        exact keep p a6
      · exact keep p (by rw [a7 p e]; exact hp)

/-- C24: process `o` owns `r` with its `prio_orig` as priority, and the
processes `ws`, `o` not among them, call `pip_acquire(r)` in turn.  Afterwards
`o` still owns `r` and its priority is the maximum of its `prio_orig` and the
priorities of `ws`: it bounds them all and is one of them.  The priorities of
all other processes are unchanged and `ws` is at the tail of the wait queue.
When `o` then calls `pip_release(r)`, the waiters of `r` before the requests
being WAITING, the call returns and the priority of `o` is its `prio_orig`. -/
theorem pip_inherit_then_restore (s : State) (r o : Nat) (ws : List Nat)
    (ho : (s.resources r).owner = some o)
    (hbase : (s.procs o).prio = (s.procs o).prio_orig)
    (hnot : o ∉ ws)
    (hwait : ∀ x ∈ (s.resources r).waitqueue, (s.procs x).status = ProcessStatus.PROCESS_WAIT) :
    ((pip_contend s r ws).resources r).owner = some o ∧
    ((pip_contend s r ws).procs o).prio
      = ws.foldl (fun m w => max m (s.procs w).prio) (s.procs o).prio_orig ∧
    (s.procs o).prio_orig ≤ ((pip_contend s r ws).procs o).prio ∧
    (∀ w ∈ ws, (s.procs w).prio ≤ ((pip_contend s r ws).procs o).prio) ∧
    (((pip_contend s r ws).procs o).prio = (s.procs o).prio_orig ∨
      ∃ w ∈ ws, ((pip_contend s r ws).procs o).prio = (s.procs w).prio) ∧
    (∀ p, p ≠ o → ((pip_contend s r ws).procs p).prio = (s.procs p).prio) ∧
    ((pip_contend s r ws).resources r).waitqueue = (s.resources r).waitqueue ++ ws ∧
    ∃ t, pip_release { pip_contend s r ws with current := some o } r = Except.ok t ∧
      (t.procs o).prio = (s.procs o).prio_orig := by
  obtain ⟨b1, b2, b3, b4, b5, b6, b7⟩ := pip_contend_facts r o ws hnot s ho
  obtain ⟨m1, m2, m3⟩ := foldl_max_spec (fun w => (s.procs w).prio) ws (s.procs o).prio_orig
  rw [hbase] at b2
  refine ⟨b1, b2, ?_, ?_, ?_, b3, b5, ?_⟩
  · rw [b2]
    exact m1
  · rw [b2]
    exact m2
  · rw [b2]
    exact m3
  · have hall : ∀ x ∈ (({ pip_contend s r ws with current := some o } : State).resources
        r).waitqueue,
        (({ pip_contend s r ws with current := some o } : State).procs x).status
          = ProcessStatus.PROCESS_WAIT := by
      intro x hx
      have hx2 : x ∈ (s.resources r).waitqueue ++ ws := by
        rw [← b5]
        exact hx
      rcases List.mem_append.1 hx2 with h | h
      · exact b7 x (hwait x h)
      · exact b6 x h
    rcases pip_release_cases { pip_contend s r ws with current := some o } r o rfl b1 with
      ⟨_, hres⟩ | ⟨pre, w, post, hsplit, _, _, ⟨hnw, _⟩ | ⟨_, hres⟩⟩
    · refine ⟨_, hres, ?_⟩
      exact (reset_prio { pip_contend s r ws with current := some o } o o).trans
        ((if_pos rfl).trans (b4 o))
    · exact absurd (hall w (by rw [hsplit]; simp)) hnw
    · refine ⟨_, hres, ?_⟩
      rw [wake_keeps_prio]
      exact (reset_prio { pip_contend s r ws with current := some o } o o).trans
        ((if_pos rfl).trans (b4 o))

/-- C24 at a sample state: process 0 (`prio_orig` 1) owns resource 2; processes
2 (priority 2) and 1 (priority 3) ask for it in turn, which leaves process 0
with priority 3, and its release of resource 2 brings it back to 1. -/
theorem pip_inherit_then_restore_witness :
    ((pip_contend demo_pip_one 2 [2, 1]).procs 0).prio = 3 ∧
    ((pip_contend demo_pip_one 2 [2, 1]).resources 2).owner = some 0 ∧
    ((pip_contend demo_pip_one 2 [2, 1]).procs 0).prio
      = [2, 1].foldl (fun m w => max m (demo_pip_one.procs w).prio)
          (demo_pip_one.procs 0).prio_orig ∧
    ∃ t, pip_release { pip_contend demo_pip_one 2 [2, 1] with current := some 0 } 2
        = Except.ok t ∧
      (t.procs 0).prio = (demo_pip_one.procs 0).prio_orig := by
  obtain ⟨h1, h2, _, _, _, _, _, h8⟩ :=
    pip_inherit_then_restore demo_pip_one 2 0 [2, 1] (by decide) (by decide) (by decide)
      (by decide)
  exact ⟨by decide, h1, h2, h8⟩

/-! ## The policy registry -/

/-- C28, counterexample: the registry entry of the Priority policy sets neither
`initialize` nor `finalize`, so not all of its five hooks are bound. -/
theorem prio_scheduler_incomplete :
    prio_scheduler.initialize_hook.isSome = false ∧
    prio_scheduler.finalize_hook.isSome = false ∧
    ¬ prio_scheduler.complete := by
  refine ⟨rfl, rfl, ?_⟩
  intro h
  exact absurd h.1 (by decide)

/-- C28, amended: each of the seven registry entries binds `schedule`, `acquire`
and `release` to a function.  FIFO, SJF, SRTF and Round-Robin also bind
`initialize` and `finalize` (to `fifo_initialize` and `fifo_finalize`) and so
have all five hooks; Priority, Priority + PCP and Priority + PIP leave both
unset. -/
theorem registry_hooks (M : Nat) :
    (fifo_scheduler.schedule = some fifo_schedule ∧
      fifo_scheduler.acquire = some fcfs_acquire ∧ fifo_scheduler.release = some fcfs_release ∧
      fifo_scheduler.initialize_hook = some fifo_initialize ∧
      fifo_scheduler.finalize_hook = some fifo_finalize ∧ fifo_scheduler.complete) ∧
    (sjf_scheduler.schedule = some sjf_schedule ∧
      sjf_scheduler.acquire = some fcfs_acquire ∧ sjf_scheduler.release = some fcfs_release ∧
      sjf_scheduler.initialize_hook = some fifo_initialize ∧
      sjf_scheduler.finalize_hook = some fifo_finalize ∧ sjf_scheduler.complete) ∧
    (srtf_scheduler.schedule = some srtf_schedule ∧
      srtf_scheduler.acquire = some fcfs_acquire ∧ srtf_scheduler.release = some fcfs_release ∧
      srtf_scheduler.initialize_hook = some fifo_initialize ∧
      srtf_scheduler.finalize_hook = some fifo_finalize ∧ srtf_scheduler.complete) ∧
    (rr_scheduler.schedule = some rr_schedule ∧
      rr_scheduler.acquire = some fcfs_acquire ∧ rr_scheduler.release = some fcfs_release ∧
      rr_scheduler.initialize_hook = some fifo_initialize ∧
      rr_scheduler.finalize_hook = some fifo_finalize ∧ rr_scheduler.complete) ∧
    (prio_scheduler.schedule = some prio_schedule ∧
      prio_scheduler.acquire = some fcfs_acquire ∧ prio_scheduler.release = some fcfs_release ∧
      prio_scheduler.initialize_hook = none ∧ prio_scheduler.finalize_hook = none) ∧
    ((pcp_scheduler M).schedule = some pcp_schedule ∧
      (pcp_scheduler M).acquire = some (pcp_acquire M) ∧
      (pcp_scheduler M).release = some pcp_release ∧
      (pcp_scheduler M).initialize_hook = none ∧ (pcp_scheduler M).finalize_hook = none) ∧
    (pip_scheduler.schedule = some pip_schedule ∧
      pip_scheduler.acquire = some pip_acquire ∧ pip_scheduler.release = some pip_release ∧
      pip_scheduler.initialize_hook = none ∧ pip_scheduler.finalize_hook = none) :=
  ⟨⟨rfl, rfl, rfl, rfl, rfl, rfl, rfl, rfl, rfl, rfl⟩,
    ⟨rfl, rfl, rfl, rfl, rfl, rfl, rfl, rfl, rfl, rfl⟩,
    ⟨rfl, rfl, rfl, rfl, rfl, rfl, rfl, rfl, rfl, rfl⟩,
    ⟨rfl, rfl, rfl, rfl, rfl, rfl, rfl, rfl, rfl, rfl⟩,
    ⟨rfl, rfl, rfl, rfl, rfl⟩, ⟨rfl, rfl, rfl, rfl, rfl⟩, ⟨rfl, rfl, rfl, rfl, rfl⟩⟩

/-! ## Equal priorities -/

/-- The scan keeps its start value when no entry beats it. -/
theorem pick_const (c : Nat → Nat → Bool) (best : Nat) (l : List Nat)
    (h : ∀ x ∈ l, c best x = false) : list_for_each_pick c best l = best := by
  induction l with
  | nil => rfl
  | cons a t ih =>
    have e : list_for_each_pick c best (a :: t) = list_for_each_pick c best t := by
      simp [list_for_each_pick, h a (List.mem_cons_self _ _)]
    rw [e]
    exact ih (fun x hx => h x (List.mem_cons_of_mem _ hx))

/-- C33: when all processes in the ready queue have the same priority, and the
current process, if there is one, has that priority too, `prio_schedule` and
`rr_schedule` give the same result: the same returned process and the same
state, the ready queue in particular.  The strict comparison of the scan never
replaces the head of the ready queue. -/
theorem prio_eq_rr_on_equal_priorities (s : State)
    (hrq : ∀ p ∈ s.readyqueue, ∀ q ∈ s.readyqueue, (s.procs p).prio = (s.procs q).prio)
    (hcur : ∀ c, s.current = some c → ∀ p ∈ s.readyqueue, (s.procs p).prio = (s.procs c).prio) :
    prio_schedule s = rr_schedule s ∧
    (prio_schedule s).1 = (rr_schedule s).1 ∧
    (prio_schedule s).2.readyqueue = (rr_schedule s).2.readyqueue := by
  have key : prio_schedule s = rr_schedule s := by
    have heq : ∀ x ∈ candidates s, ∀ y ∈ candidates s, (s.procs x).prio = (s.procs y).prio := by
      intro x hx y hy
      rcases (mem_candidates s x).1 hx with h1 | ⟨⟨h1, _⟩, _⟩
      · rcases (mem_candidates s y).1 hy with h2 | ⟨⟨h2, _⟩, _⟩
        · exact hrq x h1 y h2
        · exact hcur y h2 x h1
      · rcases (mem_candidates s y).1 hy with h2 | ⟨⟨h2, _⟩, _⟩
        · exact (hcur x h1 y h2).symm
        · rw [h1] at h2
          rw [Option.some.inj h2]
    unfold prio_schedule rr_schedule
    rw [requeue_current_eq]
    cases hq : candidates s with
    | nil => rfl
    | cons first t =>
      have hpick : list_for_each_pick
          (fun m next => decide ((s.procs m).prio < (s.procs next).prio)) first (first :: t)
            = first := by
        apply pick_const
        intro x hx
        have e := heq first (by rw [hq]; simp) x (by rw [hq]; exact hx)
        simp [e]
      simp only [hpick]
  exact ⟨key, by rw [key], by rw [key]⟩

/-- C33 at a sample state: three processes of priority 0, process 1 running and
2, 3 ready; both policies return process 2 and leave the ready queue 3, 1. -/
theorem prio_eq_rr_on_equal_priorities_witness :
    prio_schedule demo_rr_run = rr_schedule demo_rr_run ∧
    (prio_schedule demo_rr_run).1 = some 2 ∧
    (prio_schedule demo_rr_run).2.readyqueue = [3, 1] :=
  ⟨(prio_eq_rr_on_equal_priorities demo_rr_run (by decide)
      (by
        intro c h p hp
        have e : 1 = c := Option.some.inj h
        subst e
        revert p
        decide)).1,
    by decide, by decide⟩

/-! ## Acquire followed by release -/

/-- Taking a free resource and clearing its owner again gives the state back. -/
theorem set_owner_round (s : State) (r : Nat) (o : Option Nat)
    (hfree : (s.resources r).owner = none) : (s.set_owner r o).set_owner r none = s := by
  obtain ⟨procs, cur, rq, res⟩ := s
  have e : res r = { owner := none, waitqueue := (res r).waitqueue } := by
    cases h : res r with
    | mk ow wq =>
      have h2 : ow = none := by
        have := hfree
        simp only [h] at this
        exact this
      rw [h2]
  simp only [State.set_owner, State.mk.injEq, true_and]
  funext x
  by_cases hx : x = r
  · subst hx
    simp only [Function.update_same]
    exact e.symm
  · simp [Function.update_noteq hx]

/-- Writing the priority of `c` twice is writing the last value. -/
theorem set_prio_twice (s : State) (c a b : Nat) :
    (s.set_prio c a).set_prio c b = s.set_prio c b := by
  obtain ⟨procs, cur, rq, res⟩ := s
  simp [State.set_prio]

/-- Writing to the priority of `c` the value it has changes nothing. -/
theorem set_prio_self (s : State) (c : Nat) : s.set_prio c (s.procs c).prio = s := by
  obtain ⟨procs, cur, rq, res⟩ := s
  simp [State.set_prio]

/-- The owner and the priority are written in either order. -/
theorem set_owner_set_prio_comm (s : State) (r : Nat) (o : Option Nat) (c v : Nat) :
    (s.set_owner r o).set_prio c v = (s.set_prio c v).set_owner r o := rfl

/-- C32: when `r` is free with an empty wait queue and `c` is the current
process, the acquire of `r` succeeds and the release of `r` that follows it
returns, for each of the three variants.  After `fcfs_acquire` and
`fcfs_release` the state is the original one.  After the PCP pair and after the
PIP pair the state is the original one with the priority of `c` set to its
`prio_orig`: the owners, the wait queues, the ready queue, the current process,
the statuses and every other priority are the original ones, and the state is
the original one when the priority of `c` was its `prio_orig`. -/
theorem acquire_release_round_trip (M : Nat) (s : State) (r c : Nat)
    (hcur : s.current = some c) (hfree : (s.resources r).owner = none)
    (hwq : (s.resources r).waitqueue = []) :
    (∃ t, fcfs_acquire s r = Except.ok (true, t) ∧ fcfs_release t r = Except.ok s) ∧
    (∃ t, pcp_acquire M s r = Except.ok (true, t) ∧
      pcp_release t r = Except.ok (s.set_prio c (s.procs c).prio_orig)) ∧
    (∃ t, pip_acquire s r = Except.ok (true, t) ∧
      pip_release t r = Except.ok (s.set_prio c (s.procs c).prio_orig)) ∧
    (s.set_prio c (s.procs c).prio_orig).resources = s.resources ∧
    (s.set_prio c (s.procs c).prio_orig).readyqueue = s.readyqueue ∧
    (s.set_prio c (s.procs c).prio_orig).current = s.current ∧
    (∀ p, ((s.set_prio c (s.procs c).prio_orig).procs p).status = (s.procs p).status) ∧
    (∀ p, p ≠ c → (s.set_prio c (s.procs c).prio_orig).procs p = s.procs p) ∧
    ((s.procs c).prio = (s.procs c).prio_orig → s.set_prio c (s.procs c).prio_orig = s) := by
  have rel_empty : ∀ u : State, u.current = some c → (u.resources r).owner = none →
      (u.resources r).waitqueue = [] →
      fcfs_release (u.set_owner r (some c)) r = Except.ok u := by
    intro u hc hf hq
    have hown : ((u.set_owner r (some c)).resources r).owner = some c := by
      simp [State.set_owner]
    have hq2 : ((u.set_owner r (some c)).resources r).waitqueue = [] := by
      simp [State.set_owner, hq]
    rcases fcfs_release_cases (u.set_owner r (some c)) r c hc hown with
      ⟨_, hres⟩ | ⟨w, ws, hne, _⟩ | ⟨w, ws, hne, _⟩
    · rw [hres, set_owner_round u r (some c) hf]
    · rw [hq2] at hne
      cases hne
    · rw [hq2] at hne
      cases hne
  refine ⟨?_, ?_, ?_, rfl, rfl, rfl, fun p => set_prio_status s c _ p, ?_, ?_⟩
  · refine ⟨s.set_owner r (some c), by simp [fcfs_acquire, hfree, hcur], ?_⟩
    exact rel_empty s hcur hfree hwq
  · refine ⟨(s.set_owner r (some c)).set_prio c M, pcp_acquire_free_result M s r c hcur hfree,
      ?_⟩
    have hown : (((s.set_owner r (some c)).set_prio c M).resources r).owner = some c := by
      simp [State.set_owner, State.set_prio]
    have hpo : (((s.set_owner r (some c)).set_prio c M).procs c).prio_orig
        = (s.procs c).prio_orig := by
      simp [State.set_owner, State.set_prio]
    rw [pcp_release_eq_fcfs_after_restore ((s.set_owner r (some c)).set_prio c M) r c hcur hown,
      hpo, set_prio_twice, set_owner_set_prio_comm]
    exact rel_empty (s.set_prio c (s.procs c).prio_orig) hcur hfree hwq
  · refine ⟨s.set_owner r (some c), by simp [pip_acquire, hfree, hcur], ?_⟩
    have hown : ((s.set_owner r (some c)).resources r).owner = some c := by
      simp [State.set_owner]
    have hq2 : ((s.set_owner r (some c)).resources r).waitqueue = [] := by
      simp [State.set_owner, hwq]
    rcases pip_release_cases (s.set_owner r (some c)) r c hcur hown with
      ⟨_, hres⟩ | ⟨pre, w, post, hne, _⟩
    · rw [hres]
      have e : ((s.set_owner r (some c)).set_prio c
          (((s.set_owner r (some c)).procs c).prio_orig)).set_owner r none
          = ((s.set_prio c (s.procs c).prio_orig).set_owner r (some c)).set_owner r none := rfl
      rw [e, set_owner_round (s.set_prio c (s.procs c).prio_orig) r (some c) hfree]
    · rw [hq2] at hne
      exact absurd hne (by simp)
  · intro p hp
    simp [State.set_prio, Function.update_noteq hp]
  · intro h
    rw [← h]
    exact set_prio_self s c

/-- C32 at the sample state with every resource free: process 0, whose priority
is its `prio_orig`, takes resource 2 and releases it, which gives the state
back for each of the three variants. -/
theorem acquire_release_round_trip_witness :
    (∃ t, fcfs_acquire demo_free 2 = Except.ok (true, t) ∧
      fcfs_release t 2 = Except.ok demo_free) ∧
    (∃ t, pcp_acquire 64 demo_free 2 = Except.ok (true, t) ∧
      pcp_release t 2 = Except.ok (demo_free.set_prio 0 (demo_free.procs 0).prio_orig)) ∧
    (∃ t, pip_acquire demo_free 2 = Except.ok (true, t) ∧
      pip_release t 2 = Except.ok (demo_free.set_prio 0 (demo_free.procs 0).prio_orig)) ∧
    demo_free.set_prio 0 (demo_free.procs 0).prio_orig = demo_free := by
  obtain ⟨h1, h2, h3, _, _, _, _, _, h9⟩ :=
    acquire_release_round_trip 64 demo_free 2 0 rfl rfl rfl
  exact ⟨h1, h2, h3, h9 (by decide)⟩

/-! ## Waiters are WAITING -/

/-- The waiters of the sample state are WAITING. -/
theorem demo_waiters_wait : waiters_wait demo := by
  intro r p hp
  rcases ((demo_waitqueue r p).1 hp).2 with rfl | rfl <;> decide

/-- C31: from a state in which every process in a wait queue is WAITING, every
schedule function and every acquire variant ends in such a state, and so does
every release variant when no process is linked twice in the wait queues (no
wait queue has a duplicate, no process is in two wait queues); this covers the
calls that stop at an assertion.  In such a state a release by the current
process that owns the resource returns: the assertion on the status of the
chosen waiter holds. -/
theorem waiters_stay_waiting (M : Nat) (s : State) (h : waiters_wait s) :
    (∀ sched ∈ [fifo_schedule, sjf_schedule, srtf_schedule, rr_schedule, prio_schedule,
        pcp_schedule, pip_schedule], waiters_wait (sched s).2) ∧
    (∀ acq ∈ [fcfs_acquire, pcp_acquire M, pip_acquire], ∀ r,
      waiters_wait (final_state Prod.snd (acq s r))) ∧
    (∀ rel ∈ [fcfs_release, pcp_release, pip_release], ∀ r,
      (∀ r', (s.resources r').waitqueue.Nodup) →
      (∀ r1 r2 p, p ∈ (s.resources r1).waitqueue → p ∈ (s.resources r2).waitqueue →
        r1 = r2) →
      waiters_wait (final_state id (rel s r))) ∧
    (∀ rel ∈ [fcfs_release, pcp_release, pip_release], ∀ r c,
      s.current = some c → (s.resources r).owner = some c → ∃ t, rel s r = Except.ok t) := by
  refine ⟨?_, ?_, ?_, ?_⟩
  · intro sched hs
    rcases schedule_shape_all s sched hs with ⟨c, _, _, e⟩ | ⟨_, e⟩ | ⟨x, _, e⟩
    · rw [e]
      exact h
    · rw [e]
      exact h
    · rw [e]
      exact h
  · intro acq ha r
    rcases acquire_end M s r acq ha with ⟨_, _, hwq, hst⟩ | ⟨c, _, _, _, hwr, hwo, hstc, hsto⟩
    · intro r' p hp
      rw [hwq] at hp
      rw [hst]
      exact h r' p hp
    · intro r' p hp
      by_cases hpc : p = c
      · rw [hpc]
        exact hstc
      · rw [hsto p hpc]
        by_cases e : r' = r
        · subst e
          rw [hwr, List.mem_append, List.mem_singleton] at hp
          rcases hp with hp | hp
          · exact h r' p hp
          · exact absurd hp hpc
        · rw [hwo r' e] at hp
          exact h r' p hp
  · intro rel hrel r hnd hone
    rcases release_end s r rel hrel with ⟨_, _, hwq, hst⟩ | ⟨w, hwin, _, _, hwr, hwo, _, hsto⟩
    · intro r' p hp
      rw [hwq] at hp
      rw [hst]
      exact h r' p hp
    · intro r' p hp
      have hp2 : p ∈ (s.resources r').waitqueue := by
        by_cases e : r' = r
        · subst e
          rw [hwr] at hp
          exact List.mem_of_mem_erase hp
        · rw [hwo r' e] at hp
          exact hp
      have hpw : p ≠ w := by
        intro e
        subst e
        have e2 : r' = r := hone r' r p hp2 hwin
        subst e2
        rw [hwr] at hp
        exact ((hnd r').mem_erase_iff.1 hp).1 rfl
      rw [hsto p hpw]
      exact h r' p hp2
  · intro rel hrel r c hcur hown
    have key : release_shape s r (rel s r) := by
      simp only [List.mem_cons, List.mem_singleton, List.not_mem_nil, or_false] at hrel
      rcases hrel with rfl | rfl | rfl
      · exact fcfs_release_shape s r (hown.trans hcur.symm)
      · exact pcp_release_shape s r c hcur hown
      · exact pip_release_shape s r c hcur hown
    rcases key with ⟨t, hres, _⟩ | ⟨t, _, _, w, hw, hnw⟩
    · exact ⟨t, hres⟩
    · exact absurd (h r w hw) hnw

/-- C31 at the sample state, whose waiters 3 and 4 are WAITING: after the
release of resource 0 by its owner, after a refused request for resource 1 and
after a `schedule()` call the waiters are WAITING, and the release returns. -/
theorem waiters_stay_waiting_witness :
    waiters_wait (rr_schedule demo).2 ∧
    waiters_wait (final_state Prod.snd (fcfs_acquire demo 1)) ∧
    waiters_wait (final_state id (pip_release demo 0)) ∧
    ∃ t, fcfs_release demo 0 = Except.ok t :=
  ⟨(waiters_stay_waiting 64 demo demo_waiters_wait).1 rr_schedule (by simp),
    (waiters_stay_waiting 64 demo demo_waiters_wait).2.1 fcfs_acquire (by simp) 1,
    (waiters_stay_waiting 64 demo demo_waiters_wait).2.2.1 pip_release (by simp) 0
      demo_partition.1.wait_nodup demo_partition.1.wait_wait,
    (waiters_stay_waiting 64 demo demo_waiters_wait).2.2.2 fcfs_release (by simp) 0 0 rfl rfl⟩

end Pa2

namespace Pa4

/-! ## The frame scan of `alloc_page` -/

/-- The scan stops at the first entry that is 0 or 16; when that entry is 0 it
finds its index. -/
theorem alloc_scan_found (pre post : List Nat) (i : Nat)
    (hpre : ∀ m ∈ pre, m ≠ 0 ∧ m ≠ 16) :
    alloc_scan i (pre ++ 0 :: post) = Scan.found (i + pre.length) := by
  induction pre generalizing i with
  | nil => simp [alloc_scan]
  | cons a t ih =>
    obtain ⟨h0, h16⟩ := hpre a (List.mem_cons_self _ _)
    have ht : ∀ m ∈ t, m ≠ 0 ∧ m ≠ 16 := fun m hm => hpre m (List.mem_cons_of_mem _ hm)
    have e : alloc_scan i (a :: (t ++ 0 :: post)) = alloc_scan (i + 1) (t ++ 0 :: post) := by
      simp [alloc_scan, h0, h16]
    rw [List.cons_append, e, ih (i + 1) ht, List.length_cons]
    congr 1
    omega

/-- The scan stops at the first entry that is 0 or 16; when that entry is 16 it
reports that no frame is left, whatever follows. -/
theorem alloc_scan_full (pre post : List Nat) (i : Nat)
    (hpre : ∀ m ∈ pre, m ≠ 0 ∧ m ≠ 16) :
    alloc_scan i (pre ++ 16 :: post) = Scan.full := by
  induction pre generalizing i with
  | nil => simp [alloc_scan]
  | cons a t ih =>
    obtain ⟨h0, h16⟩ := hpre a (List.mem_cons_self _ _)
    have ht : ∀ m ∈ t, m ≠ 0 ∧ m ≠ 16 := fun m hm => hpre m (List.mem_cons_of_mem _ hm)
    have e : alloc_scan i (a :: (t ++ 16 :: post)) = alloc_scan (i + 1) (t ++ 16 :: post) := by
      simp [alloc_scan, h0, h16]
    rw [List.cons_append, e, ih (i + 1) ht]

/-- With no entry equal to 0 or 16 the scan runs past the end of the table. -/
theorem alloc_scan_beyond (l : List Nat) (i : Nat) (h : ∀ m ∈ l, m ≠ 0 ∧ m ≠ 16) :
    alloc_scan i l = Scan.beyond (i + l.length) := by
  induction l generalizing i with
  | nil => simp [alloc_scan]
  | cons a t ih =>
    obtain ⟨h0, h16⟩ := h a (List.mem_cons_self _ _)
    have ht : ∀ m ∈ t, m ≠ 0 ∧ m ≠ 16 := fun m hm => h m (List.mem_cons_of_mem _ hm)
    have e : alloc_scan i (a :: t) = alloc_scan (i + 1) t := by
      simp [alloc_scan, h0, h16]
    rw [e, ih (i + 1) ht, List.length_cons]
    congr 1
    omega

/-- Reading the entry behind a prefix. -/
theorem getD_middle (pre post : List Nat) (x : Nat) :
    (pre ++ x :: post).getD pre.length 0 = x := by
  induction pre with
  | nil => rfl
  | cons a t ih => simpa [List.getD] using ih

/-- Writing the entry behind a prefix. -/
theorem set_middle (pre post : List Nat) (x v : Nat) :
    (pre ++ x :: post).set pre.length v = pre ++ v :: post := by
  induction pre with
  | nil => rfl
  | cons a t ih => simp [ih]

/-- What `alloc_page` does when the first entry of `mapcounts[]` that is 0 or 16
is a 0, at index `pre.length`: it returns that index, the entry of `vpn` in the
page table is valid with that frame number, writable unless `rw` is `RW_READ`,
and the mapcount of the frame goes from 0 to 1, the others unchanged. -/
theorem alloc_page_first_free ( RW_READ : Nat) (fresh : pte_directory) (pre post : List Nat)
    (pt : Nat → Option pte_directory) (vpn rw : Nat)
    (hpre : ∀ m ∈ pre, m ≠ 0 ∧ m ≠ 16) :
    ∃ t, alloc_page RW_READ fresh ⟨pre ++ 0 :: post, pt⟩ vpn rw = Except.ok (pre.length, t) ∧
      t.mapcounts = pre ++ 1 :: post ∧
      t.pte_of vpn = some ⟨true, decide (rw ≠ RW_READ), pre.length, decide (rw ≠ RW_READ)⟩ := by
  have hs := alloc_scan_found pre post 0 hpre
  rw [Nat.zero_add] at hs
  unfold alloc_page
  simp only [hs]
  refine ⟨_, rfl, ?_, ?_⟩
  · show (pre ++ 0 :: post).set pre.length ((pre ++ 0 :: post).getD pre.length 0 + 1) = _
    rw [getD_middle, set_middle]
  · simp [VmState.pte_of]

/-- On the sample table 2, 1, 0, 0 the call `alloc_page(0, 1)` returns frame 2,
whose mapcount becomes 1, and maps page 0 to it, writable. -/
theorem alloc_page_demo_some :
    ∃ t, alloc_page 0 empty_directory demo_some 0 1 = Except.ok (2, t) ∧
      t.mapcounts = [2, 1, 1, 0] ∧ t.pte_of 0 = some ⟨true, true, 2, true⟩ :=
  ⟨_, rfl, rfl, rfl⟩

/-! ## Where `alloc_page` leaves its description -/

/-- C29, the code on a table whose frame 0 is mapped 16 times and whose frame 1
is free: the smallest free frame is 1, and `alloc_page` returns -1 and leaves
every mapcount as it was, whatever the rest of the table, the page table, `vpn`
and `rw` are; so on the sample table 16, 0, 0, 0. -/
theorem alloc_page_misses_free_frame ( RW_READ : Nat) (fresh : pte_directory)
    (rest : List Nat) (pt : Nat → Option pte_directory) (vpn rw : Nat) :
    has_free (16 :: 0 :: rest) ∧
    (16 :: 0 :: rest)[0]? = some 16 ∧ (16 :: 0 :: rest)[1]? = some 0 ∧
    (∃ t, alloc_page RW_READ fresh ⟨16 :: 0 :: rest, pt⟩ vpn rw = Except.ok (minus_one, t) ∧
      t.mapcounts = 16 :: 0 :: rest) ∧
    minus_one ≠ 1 ∧
    (∃ t, alloc_page RW_READ fresh demo_shared vpn rw = Except.ok (4294967295, t) ∧
      t.mapcounts = [16, 0, 0, 0]) := by
  refine ⟨by simp [has_free], by simp, by simp, ⟨_, rfl, rfl⟩, by decide, ⟨_, rfl, rfl⟩⟩

/-- C30, the code on a table in which every frame is mapped once, whatever its
length `n`: no frame is free, and `alloc_page` does not return -1 but reads
`mapcounts[n]`, the entry past the last page frame.  On the sample table
16, 0, 0, 0 it returns -1 although three frames are free, and it has created
the page directory of `vpn`, which the page table did not have. -/
theorem alloc_page_reads_past_table ( RW_READ : Nat) (fresh : pte_directory) (n : Nat)
    (pt : Nat → Option pte_directory) (vpn rw : Nat) :
    ¬ has_free (List.replicate n 1) ∧
    (∃ t, alloc_page RW_READ fresh ⟨List.replicate n 1, pt⟩ vpn rw
        = Except.error (Fault.out_of_bounds n, t) ∧ t.mapcounts = List.replicate n 1) ∧
    has_free demo_shared.mapcounts ∧
    (∃ t, alloc_page RW_READ fresh demo_shared vpn rw = Except.ok (minus_one, t) ∧
      (demo_shared.outer_ptes (vpn / 16)).isSome = false ∧
      (t.outer_ptes (vpn / 16)).isSome = true) ∧
    (∃ t, alloc_page RW_READ fresh demo_full vpn rw
        = Except.error (Fault.out_of_bounds 4, t)) := by
  have hall : ∀ m ∈ List.replicate n 1, m ≠ 0 ∧ m ≠ 16 := by
    intro m hm
    rw [List.eq_of_mem_replicate hm]
    decide
  have hs := alloc_scan_beyond (List.replicate n 1) 0 hall
  rw [Nat.zero_add, List.length_replicate] at hs
  refine ⟨fun h => (hall 0 h).1 rfl, ?_, by simp [has_free, demo_shared],
    ⟨_, rfl, rfl, ?_⟩, ⟨_, rfl⟩⟩
  · unfold alloc_page
    simp only [hs]
    exact ⟨_, rfl, rfl⟩
  · simp

end Pa4
